import Mathlib

/-!
Verification of the core of the Numbat scientific-calculator language
(dimension registry, type checker, bytecode compiler and stack VM).

The development shallowly embeds the Rust sources:
  * `src/numbat/src/typechecker.rs`   (compile-time exponent evaluation,
    expression checking, generic-call inference, dimension definitions)
  * `src/numbat/src/vm.rs`            (stack VM, `run` / `run_without_cleanup`)
  * `src/numbat/src/bytecode_interpreter.rs` (compiler, jump patching,
    `interpret_statements`)

Modules of the repository that are not part of the sources
(`registry.rs` / `dimension.rs` with `BaseRepresentation` and the dimension
registry, `arithmetic.rs` with exact rationals, `quantity.rs` / `unit.rs` /
`interpreter.rs` / `ffi.rs`) are modelled from the specification, as marked
in the corresponding doc comments.

Modelling conventions:
  * Rationals (`Rational`, `Exponent`) are Lean's `ℚ` (the spec requires
    exact `p/q` arithmetic).
  * `Number` (an `f64` in the sources) is modelled by the exact rational
    value it denotes; `Rational::from_f64` is then the identity.
  * Source spans and the did-you-mean suggestion of `UnknownIdentifier`
    are presentation-only and are dropped from error payloads.
-/

set_option maxHeartbeats 1000000

namespace Numbat

/-! ### Base representations

Modelled from the spec: `registry.rs` is not among the sources.  Spec §3:
a Base Representation is a finite mapping from base-dimension names to
non-zero rational exponents; `multiply` adds matching exponents and drops
factors whose exponent becomes zero, `divide` is the same with negated
rhs exponents, `power r` multiplies every exponent by `r` (empty for
`r = 0`), iteration is deterministic.  We realise the canonical form as a
list of factors strictly sorted by name with all exponents non-zero. -/

/-- Predicate for the canonical factor-list form: keys strictly sorted,
no zero exponents. -/
def Canon (l : List (String × ℚ)) : Prop :=
  l.Pairwise (fun p q => p.1 < q.1) ∧ ∀ p ∈ l, p.2 ≠ 0

/-- Exponent of base-dimension `n` in a factor list (0 when absent). -/
def expOf (n : String) : List (String × ℚ) → ℚ
  | [] => 0
  | (m, e) :: rest => if m = n then e else expOf n rest

/-- Sum of the exponents attached to key `n` anywhere in the list. -/
def sumExp (n : String) : List (String × ℚ) → ℚ
  | [] => 0
  | (m, e) :: rest => (if m = n then e else 0) + sumExp n rest

/-- Insert one factor (with non-zero exponent) into a canonical list,
combining exponents on equal keys and dropping a resulting zero. -/
def insFactor (n : String) (e : ℚ) : List (String × ℚ) → List (String × ℚ)
  | [] => [(n, e)]
  | (m, f) :: rest =>
    if n < m then (n, e) :: (m, f) :: rest
    else if n = m then (if e + f = 0 then rest else (n, e + f) :: rest)
    else (m, f) :: insFactor n e rest

/-- Normalise an arbitrary factor list into canonical form. -/
def normList : List (String × ℚ) → List (String × ℚ)
  | [] => []
  | (n, e) :: rest => if e = 0 then normList rest else insFactor n e (normList rest)

theorem expOf_eq_zero_of_forall_ne (n : String) :
    ∀ l : List (String × ℚ), (∀ p ∈ l, p.1 ≠ n) → expOf n l = 0
  | [], _ => rfl
  | (m, e) :: rest, h => by
    have hm : m ≠ n := h (m, e) (List.mem_cons_self _ _)
    simp only [expOf, if_neg hm]
    exact expOf_eq_zero_of_forall_ne n rest (fun p hp => h p (List.mem_cons_of_mem _ hp))

theorem mem_insFactor {n : String} {e : ℚ} :
    ∀ {l : List (String × ℚ)} {p : String × ℚ},
      p ∈ insFactor n e l → p ∈ l ∨ p.1 = n
  | [], p, h => by
    simp only [insFactor, List.mem_singleton] at h
    exact Or.inr (by rw [h])
  | (m, f) :: rest, p, h => by
    simp only [insFactor] at h
    by_cases h1 : n < m
    · rw [if_pos h1] at h
      rcases List.mem_cons.mp h with h | h
      · exact Or.inr (by rw [h])
      · exact Or.inl h
    · rw [if_neg h1] at h
      by_cases h2 : n = m
      · rw [if_pos h2] at h
        by_cases h3 : e + f = 0
        · rw [if_pos h3] at h
          exact Or.inl (List.mem_cons_of_mem _ h)
        · rw [if_neg h3] at h
          rcases List.mem_cons.mp h with h | h
          · exact Or.inr (by rw [h])
          · exact Or.inl (List.mem_cons_of_mem _ h)
      · rw [if_neg h2] at h
        rcases List.mem_cons.mp h with h | h
        · exact Or.inl (by rw [h]; exact List.mem_cons_self _ _)
        · rcases mem_insFactor h with h4 | h4
          · exact Or.inl (List.mem_cons_of_mem _ h4)
          · exact Or.inr h4

theorem canon_tail {p : String × ℚ} {l : List (String × ℚ)}
    (h : Canon (p :: l)) : Canon l := by
  obtain ⟨h1, h2⟩ := h
  exact ⟨(List.pairwise_cons.mp h1).2, fun q hq => h2 q (List.mem_cons_of_mem _ hq)⟩

theorem canon_head_lt {m : String} {f : ℚ} {l : List (String × ℚ)}
    (h : Canon ((m, f) :: l)) : ∀ p ∈ l, m < p.1 :=
  (List.pairwise_cons.mp h.1).1

theorem canon_insFactor {n : String} {e : ℚ} (he : e ≠ 0) :
    ∀ {l : List (String × ℚ)}, Canon l → Canon (insFactor n e l)
  | [], _ => by
    refine ⟨List.pairwise_singleton _ _, ?_⟩
    intro p hp
    simp only [insFactor, List.mem_singleton] at hp
    rw [hp]
    exact he
  | (m, f) :: rest, hc => by
    simp only [insFactor]
    by_cases h1 : n < m
    · rw [if_pos h1]
      refine ⟨List.pairwise_cons.mpr ⟨?_, hc.1⟩, ?_⟩
      · intro q hq
        rcases List.mem_cons.mp hq with h | h
        · rw [h]; exact h1
        · exact lt_trans h1 (canon_head_lt hc q h)
      · intro p hp
        rcases List.mem_cons.mp hp with h | h
        · rw [h]; exact he
        · exact hc.2 p h
    · rw [if_neg h1]
      by_cases h2 : n = m
      · rw [if_pos h2]
        by_cases h3 : e + f = 0
        · rw [if_pos h3]; exact canon_tail hc
        · rw [if_neg h3]
          refine ⟨List.pairwise_cons.mpr ⟨?_, (canon_tail hc).1⟩, ?_⟩
          · intro q hq
            rw [h2]
            exact canon_head_lt hc q hq
          · intro p hp
            rcases List.mem_cons.mp hp with h | h
            · rw [h]; exact h3
            · exact hc.2 p (List.mem_cons_of_mem _ h)
      · rw [if_neg h2]
        have hmn : m < n := by
          rcases lt_trichotomy n m with h | h | h
          · exact absurd h h1
          · exact absurd h h2
          · exact h
        refine ⟨List.pairwise_cons.mpr ⟨?_, (canon_insFactor he (canon_tail hc)).1⟩, ?_⟩
        · intro q hq
          rcases mem_insFactor hq with h | h
          · exact canon_head_lt hc q h
          · rw [h]; exact hmn
        · intro p hp
          rcases List.mem_cons.mp hp with h | h
          · rw [h]; exact hc.2 (m, f) (List.mem_cons_self _ _)
          · exact (canon_insFactor he (canon_tail hc)).2 p h

theorem expOf_insFactor {n : String} {e : ℚ} (k : String) :
    ∀ {l : List (String × ℚ)}, Canon l →
      expOf k (insFactor n e l) = if n = k then e + expOf k l else expOf k l
  | [], _ => by
    simp only [insFactor, expOf]
    by_cases h : n = k <;> simp [h]
  | (m, f) :: rest, hc => by
    simp only [insFactor]
    by_cases h1 : n < m
    · rw [if_pos h1]
      by_cases hk : n = k
      · have hrest : expOf k ((m, f) :: rest) = 0 := by
          apply expOf_eq_zero_of_forall_ne
          intro p hp
          rcases List.mem_cons.mp hp with h | h
          · rw [h]; intro hh; rw [← hk] at hh; exact absurd (hh ▸ h1) (lt_irrefl _)
          · intro hh; rw [← hk] at hh
            exact absurd (hh ▸ lt_trans h1 (canon_head_lt hc p h)) (lt_irrefl _)
        rw [if_pos hk, hrest, add_zero]
        simp [expOf, hk]
      · rw [if_neg hk]
        simp [expOf, hk]
    · rw [if_neg h1]
      by_cases h2 : n = m
      · have hrest : expOf n rest = 0 := by
          apply expOf_eq_zero_of_forall_ne
          intro p hp
          intro hh
          rw [h2] at hh
          exact absurd (hh ▸ canon_head_lt hc p hp) (lt_irrefl _)
        by_cases h3 : e + f = 0
        · rw [if_pos h2, if_pos h3]
          by_cases hk : n = k
          · rw [if_pos hk, ← hk]
            have hmf : expOf n ((m, f) :: rest) = f := by simp [expOf, ← h2]
            rw [hrest, hmf]
            linarith
          · rw [if_neg hk]
            have hmk : m ≠ k := fun hh => hk (h2.trans hh)
            simp [expOf, hmk]
        · rw [if_pos h2, if_neg h3]
          by_cases hk : n = k
          · rw [if_pos hk]
            have hmk : m = k := h2.symm.trans hk
            simp [expOf, hk, hmk, ← h2]
          · rw [if_neg hk]
            have hmk : m ≠ k := fun hh => hk (h2.trans hh)
            simp [expOf, hk, hmk]
      · rw [if_neg h2]
        have hmn : m < n := by
          rcases lt_trichotomy n m with h | h | h
          · exact absurd h h1
          · exact absurd h h2
          · exact h
        by_cases hmk : m = k
        · have hnk : n ≠ k := fun hh => h2 (hh.trans hmk.symm)
          simp [expOf, hnk, hmk]
        · simp only [expOf, if_neg hmk]
          exact expOf_insFactor k (canon_tail hc)

theorem canon_normList : ∀ l : List (String × ℚ), Canon (normList l)
  | [] => ⟨List.Pairwise.nil, by intro p hp; simp [normList] at hp⟩
  | (n, e) :: rest => by
    simp only [normList]
    by_cases h : e = 0
    · rw [if_pos h]; exact canon_normList rest
    · rw [if_neg h]; exact canon_insFactor h (canon_normList rest)

theorem expOf_normList (k : String) :
    ∀ l : List (String × ℚ), expOf k (normList l) = sumExp k l
  | [] => rfl
  | (n, e) :: rest => by
    simp only [normList, sumExp]
    by_cases h : e = 0
    · rw [if_pos h, expOf_normList k rest, h]
      simp
    · rw [if_neg h, expOf_insFactor k (canon_normList rest), expOf_normList k rest]
      by_cases hk : n = k <;> simp [hk]

theorem sumExp_append (k : String) (a b : List (String × ℚ)) :
    sumExp k (a ++ b) = sumExp k a + sumExp k b := by
  induction a with
  | nil => simp [sumExp]
  | cons p rest ih =>
    obtain ⟨m, e⟩ := p
    rw [show ((m, e) :: rest) ++ b = (m, e) :: (rest ++ b) from rfl]
    simp only [sumExp]
    rw [ih]
    ring

theorem sumExp_eq_expOf (k : String) :
    ∀ {l : List (String × ℚ)}, Canon l → sumExp k l = expOf k l
  | [], _ => rfl
  | (m, e) :: rest, hc => by
    simp only [sumExp, expOf]
    by_cases h : m = k
    · have hz : expOf k rest = 0 := by
        apply expOf_eq_zero_of_forall_ne
        intro p hp
        intro hh
        rw [← h] at hh
        exact absurd (hh ▸ canon_head_lt hc p hp) (lt_irrefl _)
      rw [if_pos h, if_pos h, sumExp_eq_expOf k (canon_tail hc), hz, add_zero]
    · rw [if_neg h, if_neg h, sumExp_eq_expOf k (canon_tail hc), zero_add]

theorem sumExp_map_scale (k : String) (r : ℚ) :
    ∀ l : List (String × ℚ),
      sumExp k (l.map fun p => (p.1, p.2 * r)) = sumExp k l * r
  | [] => by simp [sumExp]
  | (m, e) :: rest => by
    simp only [List.map_cons, sumExp, sumExp_map_scale k r rest]
    by_cases h : m = k
    · simp only [if_pos h]; ring
    · simp only [if_neg h]; ring

theorem canon_ext : ∀ {a b : List (String × ℚ)}, Canon a → Canon b →
    (∀ n, expOf n a = expOf n b) → a = b
  | [], [], _, _, _ => rfl
  | [], (m, f) :: b, _, hb, h => by
    have h1 := h m
    have h2 : expOf m ((m, f) :: b) = f := by simp [expOf]
    rw [h2] at h1
    exact absurd h1.symm (hb.2 (m, f) (List.mem_cons_self _ _))
  | (n, e) :: a, [], ha, _, h => by
    have h1 := h n
    have h2 : expOf n ((n, e) :: a) = e := by simp [expOf]
    rw [h2] at h1
    exact absurd h1 (ha.2 (n, e) (List.mem_cons_self _ _))
  | (n, e) :: a, (m, f) :: b, ha, hb, h => by
    have hnm : n = m := by
      rcases lt_trichotomy n m with hlt | heq | hgt
      · exfalso
        have h1 := h n
        have h2 : expOf n ((n, e) :: a) = e := by simp [expOf]
        have h3 : expOf n ((m, f) :: b) = 0 := by
          apply expOf_eq_zero_of_forall_ne
          intro p hp
          rcases List.mem_cons.mp hp with hh | hh
          · rw [hh]; exact fun hc => absurd (hc ▸ hlt) (lt_irrefl _)
          · exact fun hc => absurd (hc ▸ lt_trans hlt (canon_head_lt hb p hh)) (lt_irrefl _)
        rw [h2, h3] at h1
        exact ha.2 (n, e) (List.mem_cons_self _ _) h1
      · exact heq
      · exfalso
        have h1 := h m
        have h2 : expOf m ((m, f) :: b) = f := by simp [expOf]
        have h3 : expOf m ((n, e) :: a) = 0 := by
          apply expOf_eq_zero_of_forall_ne
          intro p hp
          rcases List.mem_cons.mp hp with hh | hh
          · rw [hh]; exact fun hc => absurd (hc ▸ hgt) (lt_irrefl _)
          · exact fun hc => absurd (hc ▸ lt_trans hgt (canon_head_lt ha p hh)) (lt_irrefl _)
        rw [h2, h3] at h1
        exact hb.2 (m, f) (List.mem_cons_self _ _) h1.symm
    subst hnm
    have hef : e = f := by
      have h1 := h n
      simpa [expOf] using h1
    subst hef
    have htails : a = b := by
      apply canon_ext (canon_tail ha) (canon_tail hb)
      intro k
      by_cases hk : n = k
      · subst hk
        have h1 : expOf n a = 0 := by
          apply expOf_eq_zero_of_forall_ne
          intro p hp
          exact fun hh => absurd (hh ▸ canon_head_lt ha p hp) (lt_irrefl _)
        have h2 : expOf n b = 0 := by
          apply expOf_eq_zero_of_forall_ne
          intro p hp
          exact fun hh => absurd (hh ▸ canon_head_lt hb p hp) (lt_irrefl _)
        rw [h1, h2]
      · have h1 := h k
        simpa [expOf, hk] using h1
    rw [htails]

/-- Modelled from the spec: `BaseRepresentation` (registry.rs is not among
the sources).  A canonical product of powers of base dimensions: its factor
list is strictly sorted by name and holds no zero exponent. -/
def BaseRepresentation := {l : List (String × ℚ) // Canon l}

instance : DecidableEq BaseRepresentation :=
  fun a b => decidable_of_iff (a.val = b.val) Subtype.ext_iff.symm

namespace BaseRepresentation

/-- Exponent of base dimension `n` in the representation (0 when absent). -/
def exp (a : BaseRepresentation) (n : String) : ℚ := expOf n a.val

/-- Empty representation: the dimensionless type, written 1. -/
def unity : BaseRepresentation := ⟨[], List.Pairwise.nil, by intro p hp; cases hp⟩

/-- Multiplication adds matching exponents and drops zero factors. -/
def mul (a b : BaseRepresentation) : BaseRepresentation :=
  ⟨normList (a.val ++ b.val), canon_normList _⟩

/-- Power multiplies every exponent by `r` (empty result for `r = 0`). -/
def power (a : BaseRepresentation) (r : ℚ) : BaseRepresentation :=
  ⟨normList (a.val.map fun p => (p.1, p.2 * r)), canon_normList _⟩

/-- Division multiplies by the rhs with negated exponents. -/
def div (a b : BaseRepresentation) : BaseRepresentation := mul a (power b (-1))

/-- Representation made of the single factor `n ^ e` (empty for `e = 0`). -/
def from_factor (n : String) (e : ℚ) : BaseRepresentation :=
  ⟨normList [(n, e)], canon_normList _⟩

instance : Mul BaseRepresentation := ⟨mul⟩

instance : Div BaseRepresentation := ⟨div⟩

theorem exp_unity (n : String) : exp unity n = 0 := rfl

theorem exp_mul (a b : BaseRepresentation) (n : String) :
    exp (a * b) n = exp a n + exp b n := by
  show expOf n (normList (a.val ++ b.val)) = _
  rw [expOf_normList, sumExp_append, sumExp_eq_expOf n a.2, sumExp_eq_expOf n b.2]
  rfl

theorem exp_power (a : BaseRepresentation) (r : ℚ) (n : String) :
    exp (power a r) n = exp a n * r := by
  show expOf n (normList (a.val.map fun p => (p.1, p.2 * r))) = _
  rw [expOf_normList, sumExp_map_scale, sumExp_eq_expOf n a.2]
  rfl

theorem exp_div (a b : BaseRepresentation) (n : String) :
    exp (a / b) n = exp a n - exp b n := by
  show exp (mul a (power b (-1))) n = _
  have h : exp (mul a (power b (-1))) n = exp a n + exp (power b (-1)) n :=
    exp_mul a (power b (-1)) n
  rw [h, exp_power]
  ring

theorem exp_from_factor (m : String) (e : ℚ) (n : String) :
    exp (from_factor m e) n = if m = n then e else 0 := by
  show expOf n (normList [(m, e)]) = _
  rw [expOf_normList]
  simp [sumExp]

/-- Extensionality: two canonical representations are equal iff their
exponent functions agree on every base-dimension name. -/
theorem ext_iff {a b : BaseRepresentation} : a = b ↔ ∀ n, exp a n = exp b n := by
  constructor
  · intro h n; rw [h]
  · intro h
    apply Subtype.ext
    exact canon_ext a.2 b.2 h

theorem ext' {a b : BaseRepresentation} (h : ∀ n, exp a n = exp b n) : a = b :=
  ext_iff.mpr h

theorem exp_eq_zero_of_unity {a : BaseRepresentation} (h : a = unity) (n : String) :
    exp a n = 0 := by rw [h]; rfl

theorem unity_of_exp_eq_zero {a : BaseRepresentation} (h : ∀ n, exp a n = 0) :
    a = unity := ext' (fun n => by rw [h n]; rfl)

/-- Membership in the factor list, characterised by the exponent function. -/
theorem mem_val_iff {a : BaseRepresentation} {n : String} {e : ℚ} :
    (n, e) ∈ a.val ↔ exp a n = e ∧ e ≠ 0 := by
  constructor
  · intro h
    constructor
    · show expOf n a.val = e
      obtain ⟨hs, _⟩ := a.2
      clear hs
      have := a.2
      -- induction over the factor list, using sortedness for uniqueness
      revert h
      have hgen : ∀ l : List (String × ℚ), Canon l → (n, e) ∈ l → expOf n l = e := by
        intro l
        induction l with
        | nil => intro _ h; cases h
        | cons p rest ih =>
          intro hc h
          obtain ⟨m, f⟩ := p
          rcases List.mem_cons.mp h with h | h
          · obtain ⟨h1, h2⟩ := Prod.mk.injEq .. ▸ h
            simp [expOf, h1.symm, h2]
          · have hm : m ≠ n := by
              intro hh
              have := canon_head_lt hc (n, e) h
              rw [hh] at this
              exact absurd this (lt_irrefl _)
            simp only [expOf, if_neg hm]
            exact ih (canon_tail hc) h
      exact hgen a.val a.2
    · exact a.2.2 (n, e) h
  · intro ⟨h1, h2⟩
    have hgen : ∀ l : List (String × ℚ), expOf n l = e → e ≠ 0 → (n, e) ∈ l := by
      intro l
      induction l with
      | nil => intro h hne; exact absurd h.symm hne
      | cons p rest ih =>
        intro h hne
        obtain ⟨m, f⟩ := p
        simp only [expOf] at h
        by_cases hm : m = n
        · rw [if_pos hm] at h
          rw [hm, h]
          exact List.mem_cons_self _ _
        · rw [if_neg hm] at h
          exact List.mem_cons_of_mem _ (ih h hne)
    exact hgen a.val h1 h2

end BaseRepresentation

/-- Modelled from the spec: a prefix is one of a fixed list of
(long-name, short-name, multiplier) triples (prefix.rs is not among the
sources; prefixes are opaque payload for the claims below). -/
structure Pfx where
  long : String
  short : String
  multiplier : ℚ
  deriving DecidableEq

/-- Identity prefix (`Prefix::none()` in the sources). -/
def Pfx.nonePfx : Pfx := ⟨"", "", 1⟩

/-- Modelled from the spec: registry errors are `EntryExists(name)` when
re-declaring and `UnknownEntry(name)` on a lookup miss (registry.rs is not
among the sources). -/
inductive RegistryError where
  | EntryExists (name : String)
  | UnknownEntry (name : String)
  deriving DecidableEq

/-- Value of `usize::MAX`, the upper end of a variadic arity range. -/
def USIZE_MAX : ℕ := 2 ^ 64 - 1

/-- Association-list lookup standing in for `HashMap::get`. -/
def lookup {α : Type} (l : List (String × α)) (k : String) : Option α :=
  (l.find? (fun p => p.1 == k)).map (fun p => p.2)

/-! ### Type checker (`src/numbat/src/typechecker.rs`)

This revision of the type checker works on the revision of `typed_ast.rs`
where `Type` is a plain alias for `BaseRepresentation` and expressions have
no boolean or conditional forms; source spans and the did-you-mean
suggestion are dropped from the embedding. -/

namespace TC

/-- `Type` of the type checker: an alias for `BaseRepresentation`. -/
abbrev Ty := BaseRepresentation

/-- Unary operators of `ast.rs` as consumed by `typechecker.rs`. -/
inductive UnaryOperator where
  | Factorial
  | Negate
  deriving DecidableEq

/-- Binary operators of `ast.rs` as consumed by `typechecker.rs`. -/
inductive BinaryOperator where
  | Add
  | Sub
  | Mul
  | Div
  | Power
  | ConvertTo
  deriving DecidableEq

/-- Surface expressions (`ast::Expression`) as consumed by `typechecker.rs`;
`Number` payloads are modelled by their exact rational value. -/
inductive Expression where
  | Scalar (n : ℚ)
  | Identifier (name : String)
  | UnitIdentifier (pfx : Pfx) (name : String) (full_name : String)
  | UnaryOperator (op : UnaryOperator) (expr : Expression)
  | BinaryOperator (op : BinaryOperator) (lhs : Expression) (rhs : Expression)
  | FunctionCall (name : String) (args : List Expression)

/-- Typed expressions (`typed_ast::Expression`) as produced by
`typechecker.rs`, every node annotated with its type. -/
inductive TypedExpression where
  | Scalar (n : ℚ)
  | Identifier (name : String) (type_ : Ty)
  | UnitIdentifier (pfx : Pfx) (name : String) (full_name : String) (type_ : Ty)
  | UnaryOperator (op : UnaryOperator) (expr : TypedExpression) (type_ : Ty)
  | BinaryOperator (op : BinaryOperator) (lhs : TypedExpression) (rhs : TypedExpression)
      (type_ : Ty)
  | FunctionCall (name : String) (args : List TypedExpression) (type_ : Ty)

/-- Type annotation carried by a typed expression (`Expression::get_type`). -/
def TypedExpression.get_type : TypedExpression → Ty
  | .Scalar _ => BaseRepresentation.unity
  | .Identifier _ t => t
  | .UnitIdentifier _ _ _ t => t
  | .UnaryOperator _ _ t => t
  | .BinaryOperator _ _ _ t => t
  | .FunctionCall _ _ t => t

/-- Type-check errors of `typechecker.rs` (payloads without spans; the
optional suggestion of `UnknownIdentifier` is dropped; the names missing
from `CanNotInferTypeParameters` are kept as a list because the source
formats a `HashSet` in unspecified order). -/
inductive TypeCheckError where
  | UnknownIdentifier (name : String)
  | UnknownCallable (name : String)
  | IncompatibleDimensions (operation : String) (expected_type : Ty) (actual_type : Ty)
  | NonScalarExponent (t : Ty)
  | NonScalarFactorialArgument (t : Ty)
  | UnsupportedConstEvalExpression (kind : String)
  | DivisionByZeroInConstEvalExpression
  | RegistryError (e : Numbat.RegistryError)
  | IncompatibleAlternativeDimensionExpression (name : String) (base : Ty) (alt : Ty)
  | WrongArity (callable_name : String) (arity_start : ℕ) (arity_stop : ℕ) (num_args : ℕ)
  | TypeParameterNameClash (name : String)
  | CanNotInferTypeParameters (function_name : String) (remaining : List String)
  | MultipleUnresolvedTypeParameters
  | ForeignFunctionNeedsTypeAnnotations (name : String)
  | UnknownForeignFunction (name : String)
  deriving DecidableEq

/-- Exact integer power on rationals (`lhs.pow(rhs.to_integer())`; the
sources cast to `i32`, flagged there as a dangerous cast — the exact
arithmetic of the spec is modelled). -/
def ratPowInt (q : ℚ) : ℤ → ℚ
  | .ofNat m => q ^ m
  | .negSucc m => (q ^ (m + 1))⁻¹

/-- Conversion of a scalar number to a rational exponent
(`to_rational_exponent`); numbers are already modelled as rationals. -/
def to_rational_exponent (n : ℚ) : ℚ := n

/-- Compile-time evaluation of a limited set of typed expressions to a
rational (`evaluate_const_expr`). -/
def evaluate_const_expr : TypedExpression → Except TypeCheckError ℚ
  | .Scalar n => .ok (to_rational_exponent n)
  | .UnaryOperator .Negate expr _ => do
      let r ← evaluate_const_expr expr
      pure (-r)
  | .UnaryOperator .Factorial _ _ =>
      .error (.UnsupportedConstEvalExpression "factorial")
  | .BinaryOperator op lhs_expr rhs_expr _ => do
      let lhs ← evaluate_const_expr lhs_expr
      let rhs ← evaluate_const_expr rhs_expr
      match op with
      | .Add => pure (lhs + rhs)
      | .Sub => pure (lhs - rhs)
      | .Mul => pure (lhs * rhs)
      | .Div =>
          if rhs = 0 then .error .DivisionByZeroInConstEvalExpression
          else pure (lhs / rhs)
      | .Power =>
          if rhs.isInt then pure (ratPowInt lhs rhs.num)
          else .error (.UnsupportedConstEvalExpression "exponentiation with non-integer exponent")
      | .ConvertTo => .error (.UnsupportedConstEvalExpression "conversion")
  | .Identifier _ _ => .error (.UnsupportedConstEvalExpression "variable")
  | .UnitIdentifier _ _ _ _ => .error (.UnsupportedConstEvalExpression "unit identifier")
  | .FunctionCall _ _ _ => .error (.UnsupportedConstEvalExpression "function call")

/-- Registered function signature (definition span and parameter spans
dropped): type parameters, parameter types, variadic flag, return type. -/
structure FunctionSignature where
  type_parameters : List String
  parameter_types : List Ty
  is_variadic : Bool
  return_type : Ty
  deriving DecidableEq

/-- State of the type checker: identifier types and function signatures
(the dimension registry component is carried separately where needed). -/
structure TypeChecker where
  identifiers : List (String × Ty)
  function_signatures : List (String × FunctionSignature)

/-- Identifier lookup (`type_for_identifier`; suggestion machinery dropped). -/
def type_for_identifier (tc : TypeChecker) (name : String) : Except TypeCheckError Ty :=
  match lookup tc.identifiers name with
  | some t => .ok t
  | none => .error (.UnknownIdentifier name)

/-- Operation name used in `IncompatibleDimensions` payloads. -/
def binop_operation_name : BinaryOperator → String
  | .Add => "addition"
  | .Sub => "subtraction"
  | .Mul => "multiplication"
  | .Div => "division"
  | .Power => "exponentiation"
  | .ConvertTo => "unit conversion"

/-- Closure `get_type_and_assert_equality` of the binary-operator rule. -/
def get_type_and_assert_equality (op : BinaryOperator)
    (lhs_checked rhs_checked : TypedExpression) : Except TypeCheckError Ty :=
  let lhs_type := lhs_checked.get_type
  let rhs_type := rhs_checked.get_type
  if lhs_type ≠ rhs_type then
    .error (.IncompatibleDimensions (binop_operation_name op) lhs_type rhs_type)
  else .ok lhs_type

/-- Result type of a binary operator (the `match op` of the source). -/
def binop_type (op : BinaryOperator) (lhs_checked rhs_checked : TypedExpression) :
    Except TypeCheckError Ty :=
  match op with
  | .Add => get_type_and_assert_equality .Add lhs_checked rhs_checked
  | .Sub => get_type_and_assert_equality .Sub lhs_checked rhs_checked
  | .Mul => .ok (lhs_checked.get_type * rhs_checked.get_type)
  | .Div => .ok (lhs_checked.get_type / rhs_checked.get_type)
  | .Power =>
      let exponent_type := rhs_checked.get_type
      if exponent_type ≠ BaseRepresentation.unity then
        .error (.NonScalarExponent exponent_type)
      else
        let base_type := lhs_checked.get_type
        if base_type = BaseRepresentation.unity then
          -- the exponent is not const-evaluated when the base is a scalar
          .ok base_type
        else do
          let exponent ← evaluate_const_expr rhs_checked
          pure (base_type.power exponent)
  | .ConvertTo => get_type_and_assert_equality .ConvertTo lhs_checked rhs_checked

/-- Substitution closure of the generic-call solver: walks the substitution
entries in order and, for every entry whose name occurs as a factor of the
ORIGINAL type, divides that factor out of the accumulated result and
multiplies the substituted type raised to the factor exponent back in. -/
def substitute (substitutions : List (String × Ty)) (type_ : Ty) : Ty :=
  substitutions.foldl
    (fun result_type p =>
      match type_.val.find? (fun q => q.1 == p.1) with
      | some factor =>
          result_type / BaseRepresentation.from_factor factor.1 factor.2 *
            (p.2.power factor.2)
      | none => result_type)
    type_

/-- Parameter loop of the generic-call solver: processes
(parameter type, argument type) pairs left to right, extending the
substitution by solving a single-unknown exponent equation per parameter. -/
def check_parameters (function_name : String) (type_parameters : List String) :
    ℕ → List (String × Ty) → List (Ty × Ty) →
    Except TypeCheckError (List (String × Ty))
  | _, substitutions, [] => .ok substitutions
  | idx, substitutions, (parameter_type₀, argument_type) :: rest =>
      let parameter_type := substitute substitutions parameter_type₀
      let remaining_generic_subtypes :=
        parameter_type.val.filter (fun p => type_parameters.any (fun n => p.1 == n))
      if remaining_generic_subtypes.length > 1 then
        .error .MultipleUnresolvedTypeParameters
      else
        let step : List (String × Ty) × Ty :=
          match remaining_generic_subtypes.head? with
          | some factor =>
              let alpha := 1 / factor.2
              let d := (argument_type /
                (parameter_type / BaseRepresentation.from_factor factor.1 factor.2)).power alpha
              let substitutions' := substitutions ++ [(factor.1, d)]
              (substitutions', substitute substitutions' parameter_type)
          | none => (substitutions, parameter_type)
        if step.2 ≠ argument_type then
          .error (.IncompatibleDimensions
            ("argument " ++ toString (idx + 1) ++ " of function call to " ++ function_name)
            step.2 argument_type)
        else
          check_parameters function_name type_parameters (idx + 1) step.1 rest

/-- Names of declared type parameters that received no substitution entry,
in declaration order (the source formats a `HashSet` difference in
unspecified order). -/
def remaining_type_parameters (type_parameters : List String)
    (substitutions : List (String × Ty)) : List String :=
  (type_parameters.filter
    (fun n => ¬ substitutions.any (fun p => p.1 == n))).dedup

mutual

/-- Expression checking (`check_expression`). -/
def check_expression (tc : TypeChecker) : Expression → Except TypeCheckError TypedExpression
  | .Scalar n => .ok (.Scalar n)
  | .Identifier name => do
      let type_ ← type_for_identifier tc name
      pure (.Identifier name type_)
  | .UnitIdentifier pfx name full_name => do
      let type_ ← type_for_identifier tc name
      pure (.UnitIdentifier pfx name full_name type_)
  | .UnaryOperator op expr => do
      let checked_expr ← check_expression tc expr
      let type_ := checked_expr.get_type
      match op with
      | .Factorial =>
          if type_ ≠ BaseRepresentation.unity then
            .error (.NonScalarFactorialArgument type_)
          else pure (.UnaryOperator op checked_expr type_)
      | .Negate => pure (.UnaryOperator op checked_expr type_)
  | .BinaryOperator op lhs rhs => do
      let lhs_checked ← check_expression tc lhs
      let rhs_checked ← check_expression tc rhs
      let type_ ← binop_type op lhs_checked rhs_checked
      pure (.BinaryOperator op lhs_checked rhs_checked type_)
  | .FunctionCall function_name args =>
      match lookup tc.function_signatures function_name with
      | none => .error (.UnknownCallable function_name)
      | some sig =>
          let arity_start := if sig.is_variadic then 1 else sig.parameter_types.length
          let arity_stop := if sig.is_variadic then USIZE_MAX else sig.parameter_types.length
          if ¬ (arity_start ≤ args.length ∧ args.length ≤ arity_stop) then
            .error (.WrongArity function_name arity_start arity_stop args.length)
          else do
            let arguments_checked ← check_args tc args
            let argument_types := arguments_checked.map TypedExpression.get_type
            -- for a variadic function the single parameter type is
            -- duplicated to match the number of arguments
            let parameter_types :=
              if sig.is_variadic then
                sig.parameter_types ++
                  List.replicate (argument_types.length - 1)
                    (sig.parameter_types.getD 0 BaseRepresentation.unity)
              else sig.parameter_types
            let substitutions ←
              check_parameters function_name sig.type_parameters 0 []
                (parameter_types.zip argument_types)
            if substitutions.length ≠ sig.type_parameters.length then
              .error (.CanNotInferTypeParameters function_name
                (remaining_type_parameters sig.type_parameters substitutions))
            else
              .ok (.FunctionCall function_name arguments_checked
                (substitute substitutions sig.return_type))

/-- Argument list checking (the `args.iter().map(check_expression)` of the
function-call rule). -/
def check_args (tc : TypeChecker) : List Expression → Except TypeCheckError (List TypedExpression)
  | [] => .ok []
  | e :: es => do
      let c ← check_expression tc e
      let cs ← check_args tc es
      pure (c :: cs)

end

/-! ### Claims C3 and C2 -/

/-- C3: for every typed expression given to const_eval: scalars, unary
negation, and +, -, * evaluate directly over rationals; division by a zero
divisor fails with the division-by-zero const-eval error; ^ succeeds only
when the evaluated exponent is an integer and otherwise fails with
UnsupportedConstEvalExpression("exponentiation with non-integer exponent");
and identifiers, unit identifiers, function calls, factorial, and
conversion expressions are rejected with UnsupportedConstEvalExpression of
the corresponding kind. -/
theorem const_eval_semantics :
    (∀ n : ℚ, evaluate_const_expr (.Scalar n) = .ok n) ∧
    (∀ e t a, evaluate_const_expr e = .ok a →
      evaluate_const_expr (.UnaryOperator .Negate e t) = .ok (-a)) ∧
    (∀ e t err, evaluate_const_expr e = .error err →
      evaluate_const_expr (.UnaryOperator .Negate e t) = .error err) ∧
    (∀ l r t a b, evaluate_const_expr l = .ok a → evaluate_const_expr r = .ok b →
      evaluate_const_expr (.BinaryOperator .Add l r t) = .ok (a + b) ∧
      evaluate_const_expr (.BinaryOperator .Sub l r t) = .ok (a - b) ∧
      evaluate_const_expr (.BinaryOperator .Mul l r t) = .ok (a * b) ∧
      evaluate_const_expr (.BinaryOperator .Div l r t) =
        (if b = 0 then .error .DivisionByZeroInConstEvalExpression else .ok (a / b)) ∧
      evaluate_const_expr (.BinaryOperator .Power l r t) =
        (if b.isInt then .ok (ratPowInt a b.num)
         else .error
           (.UnsupportedConstEvalExpression "exponentiation with non-integer exponent")) ∧
      evaluate_const_expr (.BinaryOperator .ConvertTo l r t) =
        .error (.UnsupportedConstEvalExpression "conversion")) ∧
    (∀ name t, evaluate_const_expr (.Identifier name t) =
      .error (.UnsupportedConstEvalExpression "variable")) ∧
    (∀ pfx name full t, evaluate_const_expr (.UnitIdentifier pfx name full t) =
      .error (.UnsupportedConstEvalExpression "unit identifier")) ∧
    (∀ name args t, evaluate_const_expr (.FunctionCall name args t) =
      .error (.UnsupportedConstEvalExpression "function call")) ∧
    (∀ e t, evaluate_const_expr (.UnaryOperator .Factorial e t) =
      .error (.UnsupportedConstEvalExpression "factorial")) := by
  refine ⟨fun n => rfl, ?_, ?_, ?_, fun _ _ => rfl, fun _ _ _ _ => rfl,
    fun _ _ _ => rfl, fun _ _ => rfl⟩
  · intro e t a h
    simp [evaluate_const_expr, h, Bind.bind, Except.bind, pure, Except.pure]
  · intro e t err h
    simp [evaluate_const_expr, h, Bind.bind, Except.bind, pure, Except.pure]
  · intro l r t a b hl hr
    refine ⟨?_, ?_, ?_, ?_, ?_, ?_⟩ <;>
      simp [evaluate_const_expr, hl, hr, Bind.bind, Except.bind, pure, Except.pure]

/-- Witness for const_eval_semantics: division by the value zero is
rejected with the division-by-zero error. -/
theorem const_eval_semantics_witness :
    evaluate_const_expr
      (.BinaryOperator .Div (.Scalar 3)
        (.BinaryOperator .Sub (.Scalar 1) (.Scalar 1) BaseRepresentation.unity)
        BaseRepresentation.unity) =
    .error .DivisionByZeroInConstEvalExpression := by
  have hsub :=
    (const_eval_semantics.2.2.2.1 (.Scalar 1) (.Scalar 1)
      BaseRepresentation.unity 1 1 rfl rfl).2.1
  have hdiv :=
    (const_eval_semantics.2.2.2.1 (.Scalar 3)
      (.BinaryOperator .Sub (.Scalar 1) (.Scalar 1) BaseRepresentation.unity)
      BaseRepresentation.unity 3 (1 - 1) rfl hsub).2.2.2.1
  simpa using hdiv

/-- C2: for every binary Power expression lhs^rhs whose operands check:
checking fails with NonScalarExponent whenever the type of rhs is not
dimensionless; if the type of lhs is dimensionless the exponent is not
const-evaluated and the result type is dimensionless; otherwise the result
type is type(lhs).power(r) for the const-evaluated rational r of the typed
rhs, any const-eval error being propagated. -/
theorem power_typing (tc : TypeChecker) (lhs rhs : Expression)
    (lhs_checked rhs_checked : TypedExpression)
    (hl : check_expression tc lhs = .ok lhs_checked)
    (hr : check_expression tc rhs = .ok rhs_checked) :
    (rhs_checked.get_type ≠ BaseRepresentation.unity →
      check_expression tc (.BinaryOperator .Power lhs rhs) =
        .error (.NonScalarExponent rhs_checked.get_type)) ∧
    (rhs_checked.get_type = BaseRepresentation.unity →
      lhs_checked.get_type = BaseRepresentation.unity →
      check_expression tc (.BinaryOperator .Power lhs rhs) =
        .ok (.BinaryOperator .Power lhs_checked rhs_checked BaseRepresentation.unity)) ∧
    (rhs_checked.get_type = BaseRepresentation.unity →
      lhs_checked.get_type ≠ BaseRepresentation.unity →
      check_expression tc (.BinaryOperator .Power lhs rhs) =
        (evaluate_const_expr rhs_checked).bind
          (fun r => .ok (.BinaryOperator .Power lhs_checked rhs_checked
            (lhs_checked.get_type.power r)))) := by
  refine ⟨?_, ?_, ?_⟩
  · intro hne
    simp [check_expression, hl, hr, binop_type, hne, Bind.bind, Except.bind,
      Functor.map, Except.map]
  · intro he hbase
    simp [check_expression, hl, hr, binop_type, he, hbase, Bind.bind, Except.bind,
      Functor.map, Except.map, pure, Except.pure]
  · intro he hbase
    simp only [check_expression, hl, hr, binop_type]
    cases hconst : evaluate_const_expr rhs_checked <;>
      simp [he, hbase, hconst, Bind.bind, Except.bind, Functor.map, Except.map,
        pure, Except.pure]

/-- Witness for power_typing: a dimensioned exponent is rejected. -/
theorem power_typing_witness :
    check_expression
      ⟨[("a", BaseRepresentation.from_factor "A" 1)], []⟩
      (.BinaryOperator .Power (.Scalar 2) (.Identifier "a")) =
    .error (.NonScalarExponent (BaseRepresentation.from_factor "A" 1)) := by
  have h :=
    (power_typing ⟨[("a", BaseRepresentation.from_factor "A" 1)], []⟩
      (.Scalar 2) (.Identifier "a") (.Scalar 2)
      (.Identifier "a" (BaseRepresentation.from_factor "A" 1))
      rfl (by rfl)).1 (by decide)
  simpa using h

/-! ### Dimension registry and dimension definitions (claim C9)

The registry itself (`dimension.rs` / `registry.rs`) is not among the
sources and is modelled from the spec (§4.1): a set of declared base
dimensions, a mapping from derived names to base representations, a
structural rewrite of dimension expressions to canonical form, and the
errors `EntryExists` / `UnknownEntry`. -/

/-- Dimension expressions of `ast.rs` (spans dropped). -/
inductive DimensionExpression where
  | Unity
  | Dimension (name : String)
  | Multiply (lhs rhs : DimensionExpression)
  | Divide (lhs rhs : DimensionExpression)
  | Power (base : DimensionExpression) (e : ℚ)
  deriving DecidableEq

/-- Modelled from the spec: the dimension registry state. -/
structure DimensionRegistry where
  base_dimensions : List String
  derived_dimensions : List (String × Ty)
  deriving DecidableEq

namespace DimensionRegistry

/-- Membership of a name among all registered entries. -/
def contains (reg : DimensionRegistry) (name : String) : Bool :=
  reg.base_dimensions.contains name || (lookup reg.derived_dimensions name).isSome

/-- Modelled from the spec: base representation bound to a registered
name (a base dimension denotes itself to the first power). -/
def get_base_representation_for_name (reg : DimensionRegistry) (name : String) :
    Except RegistryError Ty :=
  if reg.base_dimensions.contains name then
    .ok (BaseRepresentation.from_factor name 1)
  else
    match lookup reg.derived_dimensions name with
    | some rep => .ok rep
    | none => .error (.UnknownEntry name)

/-- Modelled from the spec: structural rewrite of a dimension expression
to its canonical base representation. -/
def get_base_representation (reg : DimensionRegistry) :
    DimensionExpression → Except RegistryError Ty
  | .Unity => .ok BaseRepresentation.unity
  | .Dimension name => reg.get_base_representation_for_name name
  | .Multiply lhs rhs => do
      let l ← reg.get_base_representation lhs
      let r ← reg.get_base_representation rhs
      pure (l * r)
  | .Divide lhs rhs => do
      let l ← reg.get_base_representation lhs
      let r ← reg.get_base_representation rhs
      pure (l / r)
  | .Power base e => do
      let b ← reg.get_base_representation base
      pure (b.power e)

/-- Modelled from the spec: register a new base dimension
(`EntryExists` when the name is already bound). -/
def add_base_dimension (reg : DimensionRegistry) (name : String) :
    Except RegistryError (Ty × DimensionRegistry) :=
  if reg.contains name then .error (.EntryExists name)
  else .ok (BaseRepresentation.from_factor name 1,
    { reg with base_dimensions := reg.base_dimensions ++ [name] })

/-- Modelled from the spec: register a derived dimension by evaluating its
defining expression (`EntryExists` when the name is already bound). -/
def add_derived_dimension (reg : DimensionRegistry) (name : String)
    (expr : DimensionExpression) : Except RegistryError DimensionRegistry := do
  let rep ← reg.get_base_representation expr
  if reg.contains name then .error (.EntryExists name)
  else .ok { reg with derived_dimensions := reg.derived_dimensions ++ [(name, rep)] }

end DimensionRegistry

/-- Alternative-expression loop of the `DefineDimension` arm of
`check_statement`: each further expression is evaluated and compared with
the registered base representation. -/
def check_alternative_expressions (reg : DimensionRegistry) (name : String)
    (base_representation : Ty) :
    List DimensionExpression → Except TypeCheckError DimensionRegistry
  | [] => .ok reg
  | alternative_expr :: rest =>
      match reg.get_base_representation alternative_expr with
      | .error e => .error (.RegistryError e)
      | .ok alternative_base_representation =>
          if alternative_base_representation ≠ base_representation then
            .error (.IncompatibleAlternativeDimensionExpression name
              base_representation alternative_base_representation)
          else
            check_alternative_expressions reg name base_representation rest

/-- The `DefineDimension` arm of `check_statement`: the first expression is
registered as the derived dimension, every further alternative must reduce
to the same base representation; with no defining expression a base
dimension is registered. -/
def check_define_dimension (reg : DimensionRegistry) (name : String)
    (dexprs : List DimensionExpression) : Except TypeCheckError DimensionRegistry :=
  match dexprs with
  | [] =>
      match reg.add_base_dimension name with
      | .error e => .error (.RegistryError e)
      | .ok (_, reg') => .ok reg'
  | dexpr :: alternatives =>
      match reg.add_derived_dimension name dexpr with
      | .error e => .error (.RegistryError e)
      | .ok reg' =>
          match reg'.get_base_representation_for_name name with
          | .error e => .error (.RegistryError e)
          | .ok base_representation =>
              check_alternative_expressions reg' name base_representation alternatives

theorem lookup_append_single {α : Type} (l : List (String × α)) (name : String) (v : α)
    (h : lookup l name = none) : lookup (l ++ [(name, v)]) name = some v := by
  induction l with
  | nil => simp [lookup, List.find?]
  | cons p rest ih =>
    simp only [lookup, List.cons_append, List.find?] at h ⊢
    cases hpe : (p.1 == name) with
    | true =>
      rw [hpe] at h
      simp at h
    | false =>
      rw [hpe] at h
      exact ih h

theorem check_alternative_expressions_all_ok (reg : DimensionRegistry) (name : String)
    (rep : Ty) :
    ∀ alts : List DimensionExpression,
      (∀ alt ∈ alts, reg.get_base_representation alt = .ok rep) →
      check_alternative_expressions reg name rep alts = .ok reg
  | [], _ => rfl
  | alt :: rest, h => by
    have h1 := h alt (List.mem_cons_self _ _)
    simp only [check_alternative_expressions, h1]
    rw [if_neg (by simp)]
    exact check_alternative_expressions_all_ok reg name rep rest
      (fun a ha => h a (List.mem_cons_of_mem _ ha))

theorem check_alternative_expressions_first_bad (reg : DimensionRegistry) (name : String)
    (rep : Ty) (alt : DimensionExpression) (post : List DimensionExpression) (r : Ty)
    (halt : reg.get_base_representation alt = .ok r) (hne : r ≠ rep) :
    ∀ pre : List DimensionExpression,
      (∀ p ∈ pre, reg.get_base_representation p = .ok rep) →
      check_alternative_expressions reg name rep (pre ++ alt :: post) =
        .error (.IncompatibleAlternativeDimensionExpression name rep r)
  | [], _ => by
    simp only [List.nil_append, check_alternative_expressions, halt]
    rw [if_pos hne]
  | p :: pre, h => by
    have h1 := h p (List.mem_cons_self _ _)
    simp only [List.cons_append, check_alternative_expressions, h1]
    rw [if_neg (by simp)]
    exact check_alternative_expressions_first_bad reg name rep alt post r halt hne pre
      (fun a ha => h a (List.mem_cons_of_mem _ ha))

/-- Successful registration decomposed: the name was unbound and the new
registry binds it to the evaluated representation. -/
theorem add_derived_dimension_ok (reg reg' : DimensionRegistry) (name : String)
    (dexpr : DimensionExpression) (rep : Ty)
    (hrep : reg.get_base_representation dexpr = .ok rep)
    (hadd : reg.add_derived_dimension name dexpr = .ok reg') :
    reg.contains name = false ∧
    reg' = { reg with derived_dimensions := reg.derived_dimensions ++ [(name, rep)] } := by
  simp only [DimensionRegistry.add_derived_dimension, hrep, Bind.bind, Except.bind] at hadd
  by_cases hc : reg.contains name
  · rw [if_pos hc] at hadd
    cases hadd
  · rw [if_neg hc] at hadd
    refine ⟨by simpa using hc, ?_⟩
    cases hadd
    rfl

/-- C9: for a dimension definition with two or more defining expressions,
the first expression is registered as the derived dimension; every further
alternative is evaluated, and the first alternative whose base
representation differs from the registered one aborts checking with the
incompatible-alternative error carrying the dimension name and the two
conflicting representations, while agreement of all alternatives makes the
definition succeed. -/
theorem define_dimension_alternatives (reg reg' : DimensionRegistry) (name : String)
    (dexpr : DimensionExpression) (alternatives : List DimensionExpression) (rep : Ty)
    (hrep : reg.get_base_representation dexpr = .ok rep)
    (hadd : reg.add_derived_dimension name dexpr = .ok reg') :
    reg'.get_base_representation_for_name name = .ok rep ∧
    ((∀ alt ∈ alternatives, reg'.get_base_representation alt = .ok rep) →
      check_define_dimension reg name (dexpr :: alternatives) = .ok reg') ∧
    (∀ (pre : List DimensionExpression) (alt : DimensionExpression)
        (post : List DimensionExpression) (r : Ty),
      alternatives = pre ++ alt :: post →
      (∀ p ∈ pre, reg'.get_base_representation p = .ok rep) →
      reg'.get_base_representation alt = .ok r → r ≠ rep →
      check_define_dimension reg name (dexpr :: alternatives) =
        .error (.IncompatibleAlternativeDimensionExpression name rep r)) := by
  obtain ⟨hcont, hreg'⟩ := add_derived_dimension_ok reg reg' name dexpr rep hrep hadd
  have hbase : reg.base_dimensions.contains name = false := by
    simp only [DimensionRegistry.contains, Bool.or_eq_false_iff] at hcont
    exact hcont.1
  have hderiv : lookup reg.derived_dimensions name = none := by
    simp only [DimensionRegistry.contains, Bool.or_eq_false_iff] at hcont
    exact Option.not_isSome_iff_eq_none.mp (by simp [hcont.2])
  have hname : reg'.get_base_representation_for_name name = .ok rep := by
    rw [hreg']
    simp only [DimensionRegistry.get_base_representation_for_name]
    rw [if_neg (by rw [hbase]; exact Bool.false_ne_true)]
    rw [lookup_append_single _ _ _ hderiv]
  refine ⟨hname, ?_, ?_⟩
  · intro hall
    simp only [check_define_dimension, hadd, hname]
    exact check_alternative_expressions_all_ok reg' name rep alternatives hall
  · intro pre alt post r hsplit hpre halt hne
    simp only [check_define_dimension, hadd, hname, hsplit]
    exact check_alternative_expressions_first_bad reg' name rep alt post r halt hne pre hpre

/-- Witness for define_dimension_alternatives: registering `D = A/B = A/B`
succeeds and binds `D` to the representation of `A/B`. -/
theorem define_dimension_alternatives_witness :
    check_define_dimension ⟨["A", "B"], []⟩ "D"
      [.Divide (.Dimension "A") (.Dimension "B"),
        .Divide (.Dimension "A") (.Dimension "B")] =
    .ok ⟨["A", "B"],
      [("D", BaseRepresentation.from_factor "A" 1 / BaseRepresentation.from_factor "B" 1)]⟩ := by
  have h :=
    (define_dimension_alternatives ⟨["A", "B"], []⟩
      ⟨["A", "B"],
        [("D", BaseRepresentation.from_factor "A" 1 / BaseRepresentation.from_factor "B" 1)]⟩
      "D" (.Divide (.Dimension "A") (.Dimension "B"))
      [.Divide (.Dimension "A") (.Dimension "B")]
      (BaseRepresentation.from_factor "A" 1 / BaseRepresentation.from_factor "B" 1)
      rfl rfl).2.1
  exact h (by
    intro alt halt
    rw [List.mem_singleton] at halt
    subst halt
    rfl)

/-! Lemmas on the generic-call solver.  `substitute` folds over the
substitution entries, each entry acting through a factor lookup on the
ORIGINAL type; the lemmas below characterise that action pointwise on
exponents and give the value-level stability used for claims C1 and C4. -/

/-- The per-entry action of the `substitute` closure. -/
def subStep (type_ : Ty) (result_type : Ty) (p : String × Ty) : Ty :=
  match type_.val.find? (fun q => q.1 == p.1) with
  | some factor =>
      result_type / BaseRepresentation.from_factor factor.1 factor.2 *
        (p.2.power factor.2)
  | none => result_type

theorem substitute_eq_foldl (σ : List (String × Ty)) (t : Ty) :
    substitute σ t = σ.foldl (subStep t) t := rfl

theorem find?_val_none {t : Ty} {n : String} (h : t.exp n = 0) :
    t.val.find? (fun q => q.1 == n) = none := by
  rw [List.find?_eq_none]
  intro x hx hpred
  have hx1 : x.1 = n := by simpa using hpred
  have := BaseRepresentation.mem_val_iff.mp
    (show (x.1, x.2) ∈ t.val from hx)
  rw [hx1] at this
  rw [h] at this
  exact this.2 this.1.symm

theorem find?_val_some {t : Ty} {n : String} {f : String × ℚ}
    (h : t.val.find? (fun q => q.1 == n) = some f) :
    f.1 = n ∧ f.2 = t.exp n ∧ t.exp n ≠ 0 := by
  have hmem : f ∈ t.val := List.mem_of_find?_eq_some h
  have hpred := List.find?_some h
  have hf1 : f.1 = n := by simpa using hpred
  have hval := BaseRepresentation.mem_val_iff.mp
    (show (f.1, f.2) ∈ t.val from hmem)
  rw [hf1] at hval
  refine ⟨hf1, hval.1.symm, ?_⟩
  rw [hval.1]
  exact hval.2

theorem find?_val_of_exp {t : Ty} {n : String} (h : t.exp n ≠ 0) :
    t.val.find? (fun q => q.1 == n) = some (n, t.exp n) := by
  cases hf : t.val.find? (fun q => q.1 == n) with
  | none =>
    exfalso
    have hmem : (n, t.exp n) ∈ t.val := BaseRepresentation.mem_val_iff.mpr ⟨rfl, h⟩
    have hh := List.find?_eq_none.mp hf _ hmem
    simp at hh
  | some f =>
    obtain ⟨h1, h2, _⟩ := find?_val_some hf
    rw [show f = (n, t.exp n) from Prod.ext h1 h2]

theorem exp_subStep_of_ne {t r : Ty} {p : String × Ty} {n : String}
    (hne : p.1 ≠ n) (hval : p.2.exp n = 0) :
    (subStep t r p).exp n = r.exp n := by
  unfold subStep
  cases hf : t.val.find? (fun q => q.1 == p.1) with
  | none => rfl
  | some factor =>
    obtain ⟨h1, _, _⟩ := find?_val_some hf
    rw [BaseRepresentation.exp_mul, BaseRepresentation.exp_div,
      BaseRepresentation.exp_power, BaseRepresentation.exp_from_factor, hval,
      if_neg (h1 ▸ hne)]
    ring

theorem exp_subStep_of_eq {t r : Ty} {p : String × Ty} {n : String}
    (heq : p.1 = n) (hval : p.2.exp n = 0) :
    (subStep t r p).exp n = r.exp n - t.exp n := by
  unfold subStep
  cases hf : t.val.find? (fun q => q.1 == p.1) with
  | none =>
    have hz : t.exp p.1 = 0 := by
      by_contra hz
      have hmem : (p.1, t.exp p.1) ∈ t.val :=
        BaseRepresentation.mem_val_iff.mpr ⟨rfl, hz⟩
      have hh := List.find?_eq_none.mp hf _ hmem
      simp at hh
    rw [heq] at hz
    rw [hz]
    ring
  | some factor =>
    obtain ⟨h1, h2, _⟩ := find?_val_some hf
    rw [BaseRepresentation.exp_mul, BaseRepresentation.exp_div,
      BaseRepresentation.exp_power, BaseRepresentation.exp_from_factor, hval,
      if_pos (h1.trans heq), h2, heq]
    ring

theorem exp_subFold_of_not_mem {t : Ty} {n : String} (σ : List (String × Ty)) :
    ∀ r : Ty, (∀ p ∈ σ, p.1 ≠ n ∧ (p.2 : Ty).exp n = 0) →
      (σ.foldl (subStep t) r).exp n = r.exp n := by
  induction σ with
  | nil => intro r _; rfl
  | cons p σ' ih =>
    intro r h
    rw [List.foldl_cons,
      ih _ (fun q hq => h q (List.mem_cons_of_mem p hq)),
      exp_subStep_of_ne (h p (List.mem_cons_self p σ')).1
        (h p (List.mem_cons_self p σ')).2]

theorem exp_subFold_of_mem {t : Ty} {n : String} (σ : List (String × Ty)) :
    ∀ r : Ty, (σ.map Prod.fst).Nodup →
      (∀ p ∈ σ, (p.2 : Ty).exp n = 0) → n ∈ σ.map Prod.fst →
      (σ.foldl (subStep t) r).exp n = r.exp n - t.exp n := by
  induction σ with
  | nil => intro r _ _ hmem; simp at hmem
  | cons p σ' ih =>
    intro r hnd hv hmem
    rw [List.foldl_cons]
    have hnd' : p.1 ∉ σ'.map Prod.fst ∧ (σ'.map Prod.fst).Nodup := by
      rw [List.map_cons, List.nodup_cons] at hnd
      exact hnd
    by_cases hp : p.1 = n
    · have htail : ∀ q ∈ σ', q.1 ≠ n ∧ (q.2 : Ty).exp n = 0 := by
        intro q hq
        refine ⟨?_, hv q (List.mem_cons_of_mem p hq)⟩
        intro hqn
        exact hnd'.1 (hp ▸ hqn ▸ List.mem_map.mpr ⟨q, hq, rfl⟩)
      rw [exp_subFold_of_not_mem σ' _ htail,
        exp_subStep_of_eq hp (hv p (List.mem_cons_self p σ'))]
    · have hmem' : n ∈ σ'.map Prod.fst := by
        simp only [List.map_cons, List.mem_cons] at hmem
        rcases hmem with h1 | h2
        · exact absurd h1.symm hp
        · exact h2
      rw [ih _ hnd'.2 (fun q hq => hv q (List.mem_cons_of_mem p hq)) hmem',
        exp_subStep_of_ne hp (hv p (List.mem_cons_self p σ'))]

theorem substitute_exp (σ : List (String × Ty)) (t : Ty) (n : String)
    (hnd : (σ.map Prod.fst).Nodup) (hv : ∀ p ∈ σ, (p.2 : Ty).exp n = 0) :
    (substitute σ t).exp n = if n ∈ σ.map Prod.fst then 0 else t.exp n := by
  rw [substitute_eq_foldl]
  by_cases hmem : n ∈ σ.map Prod.fst
  · rw [if_pos hmem, exp_subFold_of_mem σ t hnd hv hmem]
    ring
  · rw [if_neg hmem,
      exp_subFold_of_not_mem σ t (fun p hp =>
        ⟨fun hpn => hmem (List.mem_map.mpr ⟨p, hp, hpn⟩), hv p hp⟩)]

theorem substitute_append (σ τ : List (String × Ty)) (t : Ty) :
    substitute (σ ++ τ) t = τ.foldl (subStep t) (substitute σ t) := by
  rw [substitute_eq_foldl, List.foldl_append, substitute_eq_foldl]

theorem subFold_of_find_none {t : Ty} :
    ∀ (τ : List (String × Ty)) (r : Ty),
      (∀ p ∈ τ, t.val.find? (fun q => q.1 == p.1) = none) →
      τ.foldl (subStep t) r = r := by
  intro τ
  induction τ with
  | nil => intro r _; rfl
  | cons p τ' ih =>
    intro r h
    rw [List.foldl_cons,
      show subStep t r p = r by
        unfold subStep
        rw [h p (List.mem_cons_self p τ')],
      ih _ (fun q hq => h q (List.mem_cons_of_mem p hq))]

theorem mem_of_head?_aux {α : Type} {l : List α} {a : α}
    (h : l.head? = some a) : a ∈ l := by
  cases l with
  | nil => cases h
  | cons x xs =>
    rw [List.head?_cons] at h
    cases h
    exact List.mem_cons_self _ _

theorem eq_of_mem_len_le_one {α : Type} {l : List α} {a b : α}
    (ha : a ∈ l) (hb : b ∈ l) (hl : l.length ≤ 1) : a = b := by
  cases l with
  | nil => cases ha
  | cons x xs =>
    cases xs with
    | nil =>
      rw [List.mem_singleton] at ha hb
      rw [ha, hb]
    | cons y ys =>
      simp only [List.length_cons] at hl
      omega

/-- Solver invariant maintained by the parameter loop: substitution keys
are pairwise distinct declared type parameters, and every substituted
value is free of type-parameter-named factors. -/
def SolverInv (type_parameters : List String) (σ : List (String × Ty)) : Prop :=
  (σ.map Prod.fst).Nodup ∧
  (∀ p ∈ σ, p.1 ∈ type_parameters) ∧
  ∀ p ∈ σ, ∀ T ∈ type_parameters, (p.2 : Ty).exp T = 0

theorem solverInv_nil (type_parameters : List String) :
    SolverInv type_parameters [] :=
  ⟨List.nodup_nil, fun p hp => absurd hp (List.not_mem_nil p),
    fun p hp => absurd hp (List.not_mem_nil p)⟩

/-- Soundness of the parameter loop under freshness: when no argument
type mentions a base dimension named like a declared type parameter, a
successful run extends the substitution keeping the solver invariant,
and the FINAL substitution maps every parameter type to the matching
argument type. -/
theorem check_parameters_sound (f : String) (TP : List String) :
    ∀ (pairs : List (Ty × Ty)) (idx : ℕ) (σ₀ σfin : List (String × Ty)),
      SolverInv TP σ₀ →
      (∀ pr ∈ pairs, ∀ T ∈ TP, (pr.2 : Ty).exp T = 0) →
      check_parameters f TP idx σ₀ pairs = .ok σfin →
      SolverInv TP σfin ∧ (∃ τ, σfin = σ₀ ++ τ) ∧
        ∀ pr ∈ pairs, substitute σfin pr.1 = pr.2
  | [], _, σ₀, σfin, hInv, _, h => by
    simp only [check_parameters] at h
    cases h
    exact ⟨hInv, ⟨[], (List.append_nil σ₀).symm⟩,
      fun pr hpr => absurd hpr (List.not_mem_nil pr)⟩
  | (P, A) :: rest, idx, σ₀, σfin, hInv, hfresh, h => by
    simp only [check_parameters] at h
    set P' := substitute σ₀ P with hPSdef
    set remaining := P'.val.filter (fun p => TP.any (fun n => p.1 == n))
      with hremdef
    by_cases hlen : remaining.length > 1
    · rw [if_pos hlen] at h
      cases h
    · rw [if_neg hlen] at h
      cases hhead : remaining.head? with
      | none =>
        rw [hhead] at h
        dsimp only at h
        by_cases hne : P' ≠ A
        · rw [if_pos hne] at h
          cases h
        · rw [if_neg hne] at h
          have hPA : P' = A := not_not.mp hne
          obtain ⟨hInvfin, ⟨τ', hτ'⟩, hrest⟩ :=
            check_parameters_sound f TP rest (idx + 1) σ₀ σfin hInv
              (fun pr hpr => hfresh pr (List.mem_cons_of_mem _ hpr)) h
          have hemptyrem : remaining = [] := by
            cases hr : remaining with
            | nil => rfl
            | cons a l => rw [hr, List.head?_cons] at hhead; cases hhead
          refine ⟨hInvfin, ⟨τ', hτ'⟩, ?_⟩
          intro pr hpr
          rcases List.mem_cons.mp hpr with h1 | h2
          · subst h1
            show substitute σfin P = A
            have hstabP : ∀ p ∈ τ', P.val.find? (fun q => q.1 == p.1) = none := by
              intro p hp
              have hpTP : p.1 ∈ TP :=
                hInvfin.2.1 p (by rw [hτ']; exact List.mem_append_right _ hp)
              have hp0 : p.1 ∉ σ₀.map Prod.fst := by
                have hnd := hInvfin.1
                rw [hτ', List.map_append, List.nodup_append] at hnd
                exact fun hmem => hnd.2.2 hmem (List.mem_map.mpr ⟨p, hp, rfl⟩)
              apply find?_val_none
              by_contra hz
              have h1 : P'.exp p.1 = P.exp p.1 := by
                rw [hPSdef, substitute_exp σ₀ P p.1 hInv.1
                  (fun q hq => hInv.2.2 q hq p.1 hpTP), if_neg hp0]
              have hmemT : (p.1, P'.exp p.1) ∈ P'.val :=
                BaseRepresentation.mem_val_iff.mpr ⟨rfl, by rw [h1]; exact hz⟩
              have hmemTr : (p.1, P'.exp p.1) ∈ remaining := by
                rw [hremdef]
                exact List.mem_filter.mpr
                  ⟨hmemT, List.any_eq_true.mpr ⟨p.1, hpTP, by simp⟩⟩
              rw [hemptyrem] at hmemTr
              cases hmemTr
            rw [hτ', substitute_append, subFold_of_find_none τ' _ hstabP,
              ← hPSdef]
            exact hPA
          · exact hrest pr h2
      | some f0 =>
        rw [hhead] at h
        dsimp only at h
        set d := (A / (P' / BaseRepresentation.from_factor f0.1 f0.2)).power
          (1 / f0.2) with hddef
        by_cases hne : substitute (σ₀ ++ [(f0.1, d)]) P' ≠ A
        · rw [if_pos hne] at h
          cases h
        · rw [if_neg hne] at h
          have hPA : substitute (σ₀ ++ [(f0.1, d)]) P' = A := not_not.mp hne
          have hf0mem : f0 ∈ remaining := mem_of_head?_aux hhead
          obtain ⟨hf0val, hf0pred⟩ := List.mem_filter.mp (hremdef ▸ hf0mem)
          have hf0TP : f0.1 ∈ TP := by
            rcases List.any_eq_true.mp hf0pred with ⟨n, hn, hbeq⟩
            rwa [show f0.1 = n from by simpa using hbeq]
          have hf0exp : P'.exp f0.1 = f0.2 ∧ f0.2 ≠ 0 :=
            BaseRepresentation.mem_val_iff.mp
              (show (f0.1, f0.2) ∈ P'.val from hf0val)
          have hf0notin : f0.1 ∉ σ₀.map Prod.fst := by
            intro hmem
            have hz : P'.exp f0.1 = 0 := by
              rw [hPSdef, substitute_exp σ₀ P f0.1 hInv.1
                (fun p hp => hInv.2.2 p hp f0.1 hf0TP), if_pos hmem]
            rw [hf0exp.1] at hz
            exact hf0exp.2 hz
          have honly : ∀ T ∈ TP, T ≠ f0.1 → P'.exp T = 0 := by
            intro T hT hTne
            by_contra hz
            have hmemT : (T, P'.exp T) ∈ P'.val :=
              BaseRepresentation.mem_val_iff.mpr ⟨rfl, hz⟩
            have hmemTr : (T, P'.exp T) ∈ remaining := by
              rw [hremdef]
              exact List.mem_filter.mpr
                ⟨hmemT, List.any_eq_true.mpr ⟨T, hT, by simp⟩⟩
            have := eq_of_mem_len_le_one hmemTr hf0mem (Nat.not_lt.mp hlen)
            exact hTne (congrArg Prod.fst this)
          have hdfree : ∀ T ∈ TP, (d : Ty).exp T = 0 := by
            intro T hT
            rw [hddef, BaseRepresentation.exp_power, BaseRepresentation.exp_div,
              BaseRepresentation.exp_div, BaseRepresentation.exp_from_factor]
            have hA : A.exp T = 0 := hfresh (P, A) (List.mem_cons_self _ _) T hT
            by_cases hTf : T = f0.1
            · subst hTf
              rw [hA, hf0exp.1, if_pos rfl]
              ring
            · rw [hA, honly T hT hTf, if_neg (fun hh => hTf hh.symm)]
              ring
          have hInv₁ : SolverInv TP (σ₀ ++ [(f0.1, d)]) := by
            refine ⟨?_, ?_, ?_⟩
            · simp only [List.map_append, List.map_cons, List.map_nil]
              rw [List.nodup_append]
              exact ⟨hInv.1, List.nodup_singleton _, fun a ha hb => by
                rw [List.mem_singleton] at hb
                subst hb
                exact hf0notin ha⟩
            · intro p hp
              rcases List.mem_append.mp hp with h1 | h2
              · exact hInv.2.1 p h1
              · rw [List.mem_singleton] at h2
                subst h2
                exact hf0TP
            · intro p hp T hT
              rcases List.mem_append.mp hp with h1 | h2
              · exact hInv.2.2 p h1 T hT
              · rw [List.mem_singleton] at h2
                subst h2
                exact hdfree T hT
          obtain ⟨hInvfin, ⟨τ', hτ'⟩, hrest⟩ :=
            check_parameters_sound f TP rest (idx + 1) (σ₀ ++ [(f0.1, d)]) σfin
              hInv₁ (fun pr hpr => hfresh pr (List.mem_cons_of_mem _ hpr)) h
          refine ⟨hInvfin, ⟨(f0.1, d) :: τ', by rw [hτ', List.append_assoc]; rfl⟩, ?_⟩
          intro pr hpr
          rcases List.mem_cons.mp hpr with h1 | h2
          · subst h1
            show substitute σfin P = A
            have hstabP : ∀ p ∈ τ', P.val.find? (fun q => q.1 == p.1) = none := by
              intro p hp
              have hpTP : p.1 ∈ TP :=
                hInvfin.2.1 p (by rw [hτ']; exact List.mem_append_right _ hp)
              have hpnotk : p.1 ∉ (σ₀ ++ [(f0.1, d)]).map Prod.fst := by
                have hnd := hInvfin.1
                rw [hτ', List.map_append, List.nodup_append] at hnd
                exact fun hmem => hnd.2.2 hmem (List.mem_map.mpr ⟨p, hp, rfl⟩)
              have hp0 : p.1 ∉ σ₀.map Prod.fst := fun hm =>
                hpnotk (by rw [List.map_append]; exact List.mem_append_left _ hm)
              have hpf0 : p.1 ≠ f0.1 := fun he => hpnotk (by
                rw [List.map_append]
                refine List.mem_append_right _ ?_
                simp [he])
              apply find?_val_none
              by_contra hz
              have h1 : P'.exp p.1 = P.exp p.1 := by
                rw [hPSdef, substitute_exp σ₀ P p.1 hInv.1
                  (fun q hq => hInv.2.2 q hq p.1 hpTP), if_neg hp0]
              have hz' : P'.exp p.1 ≠ 0 := by rw [h1]; exact hz
              exact hz' (honly p.1 hpTP hpf0)
            have hfinP : substitute σfin P = substitute (σ₀ ++ [(f0.1, d)]) P := by
              rw [hτ', substitute_append, subFold_of_find_none τ' _ hstabP]
            have hPexp : P.exp f0.1 = f0.2 := by
              have h1 : P'.exp f0.1 = P.exp f0.1 := by
                rw [hPSdef, substitute_exp σ₀ P f0.1 hInv.1
                  (fun q hq => hInv.2.2 q hq f0.1 hf0TP), if_neg hf0notin]
              rw [← h1, hf0exp.1]
            have hfindP : P.val.find? (fun q => q.1 == f0.1) = some (f0.1, f0.2) := by
              rw [find?_val_of_exp (by rw [hPexp]; exact hf0exp.2), hPexp]
            have hfindP' : P'.val.find? (fun q => q.1 == f0.1) = some (f0.1, f0.2) := by
              rw [find?_val_of_exp (by rw [hf0exp.1]; exact hf0exp.2), hf0exp.1]
            have hP'σ₀ : substitute σ₀ P' = P' := by
              rw [substitute_eq_foldl]
              apply subFold_of_find_none
              intro p hp
              apply find?_val_none
              rw [hPSdef, substitute_exp σ₀ P p.1 hInv.1
                (fun q hq => hInv.2.2 q hq p.1 (hInv.2.1 p hp)),
                if_pos (List.mem_map.mpr ⟨p, hp, rfl⟩)]
            have hmid : substitute (σ₀ ++ [(f0.1, d)]) P =
                substitute (σ₀ ++ [(f0.1, d)]) P' := by
              rw [substitute_append, substitute_append, hP'σ₀, ← hPSdef]
              rw [List.foldl_cons, List.foldl_cons, List.foldl_nil, List.foldl_nil]
              show subStep P P' (f0.1, d) = subStep P' P' (f0.1, d)
              unfold subStep
              rw [hfindP, hfindP']
            rw [hfinP, hmid]
            exact hPA
          · exact hrest pr h2

theorem multiple_unresolved_direction (f : String) (TP : List String)
    (idx : ℕ) (σ : List (String × Ty)) (P A : Ty) (rest : List (Ty × Ty))
    (h : 1 < ((substitute σ P).val.filter (fun p =>
      (TP.filter (fun n => ¬ σ.any (fun q => q.1 == n))).any
        (fun n => p.1 == n))).length) :
    check_parameters f TP idx σ ((P, A) :: rest) =
      .error .MultipleUnresolvedTypeParameters := by
  have hmono : 1 < ((substitute σ P).val.filter
      (fun p => TP.any (fun n => p.1 == n))).length := by
    refine lt_of_lt_of_le h ?_
    refine List.Sublist.length_le (List.monotone_filter_right _ ?_)
    intro a ha
    rcases List.any_eq_true.mp ha with ⟨n, hn, hbeq⟩
    exact List.any_eq_true.mpr ⟨n, (List.mem_filter.mp hn).1, hbeq⟩
  simp only [check_parameters]
  rw [if_pos hmono]

theorem can_not_infer_direction (tc : TypeChecker) (function_name : String)
    (args : List Expression) (sig : FunctionSignature)
    (arguments_checked : List TypedExpression) (σ : List (String × Ty))
    (T : String)
    (hsig : lookup tc.function_signatures function_name = some sig)
    (hargs : check_args tc args = .ok arguments_checked)
    (hfresh : ∀ T' ∈ sig.type_parameters, ∀ a ∈ arguments_checked,
      (TypedExpression.get_type a).exp T' = 0)
    (_hnd : sig.type_parameters.Nodup)
    (harity : (if sig.is_variadic then 1 else sig.parameter_types.length) ≤
        args.length ∧
      args.length ≤ if sig.is_variadic then USIZE_MAX else sig.parameter_types.length)
    (hcp : check_parameters function_name sig.type_parameters 0 []
      ((if sig.is_variadic then
          sig.parameter_types ++ List.replicate
            ((arguments_checked.map TypedExpression.get_type).length - 1)
            (sig.parameter_types.getD 0 BaseRepresentation.unity)
        else sig.parameter_types).zip
        (arguments_checked.map TypedExpression.get_type)) = .ok σ)
    (hT : T ∈ sig.type_parameters) (hTm : T ∉ σ.map Prod.fst) :
    check_expression tc (.FunctionCall function_name args) =
      .error (.CanNotInferTypeParameters function_name
        (remaining_type_parameters sig.type_parameters σ)) ∧
    T ∈ remaining_type_parameters sig.type_parameters σ ∧
    ∀ n, n ∈ remaining_type_parameters sig.type_parameters σ ↔
      n ∈ sig.type_parameters ∧ n ∉ σ.map Prod.fst := by
  have hfreshpairs : ∀ pr ∈ ((if sig.is_variadic then
        sig.parameter_types ++ List.replicate
          ((arguments_checked.map TypedExpression.get_type).length - 1)
          (sig.parameter_types.getD 0 BaseRepresentation.unity)
      else sig.parameter_types).zip
      (arguments_checked.map TypedExpression.get_type)),
      ∀ T' ∈ sig.type_parameters, (pr.2 : Ty).exp T' = 0 := by
    intro pr hpr T' hT'
    obtain ⟨u, v⟩ := pr
    have h2 := (List.of_mem_zip hpr).2
    rcases List.mem_map.mp h2 with ⟨a, ha, hae⟩
    show v.exp T' = 0
    rw [← hae]
    exact hfresh T' hT' a ha
  obtain ⟨hInvfin, -, -⟩ := check_parameters_sound function_name
    sig.type_parameters _ 0 [] σ (solverInv_nil _) hfreshpairs hcp
  have hlen' : σ.length ≠ sig.type_parameters.length := by
    have hkeysub : ∀ k ∈ σ.map Prod.fst, k ∈ sig.type_parameters.erase T := by
      intro k hk
      rcases List.mem_map.mp hk with ⟨p, hp, hpk⟩
      have hkTP : k ∈ sig.type_parameters := hpk ▸ hInvfin.2.1 p hp
      have hkT : k ≠ T := fun he => hTm (he ▸ hk)
      exact (List.mem_erase_of_ne hkT).mpr hkTP
    have h1 : (σ.map Prod.fst).toFinset.card = σ.length := by
      rw [List.toFinset_card_of_nodup hInvfin.1, List.length_map]
    have h2 : (σ.map Prod.fst).toFinset ⊆
        (sig.type_parameters.erase T).toFinset := by
      intro a ha
      rw [List.mem_toFinset] at ha ⊢
      exact hkeysub a ha
    have h3 := Finset.card_le_card h2
    have h4 := List.toFinset_card_le (sig.type_parameters.erase T)
    have h5 : (sig.type_parameters.erase T).length =
        sig.type_parameters.length - 1 := List.length_erase_of_mem hT
    have h6 : 0 < sig.type_parameters.length :=
      List.length_pos.mpr (fun he => by rw [he] at hT; cases hT)
    omega
  have hchar : ∀ n, n ∈ remaining_type_parameters sig.type_parameters σ ↔
      n ∈ sig.type_parameters ∧ n ∉ σ.map Prod.fst := by
    intro n
    unfold remaining_type_parameters
    rw [List.mem_dedup, List.mem_filter]
    constructor
    · rintro ⟨h1, h2⟩
      refine ⟨h1, ?_⟩
      intro hmem
      rcases List.mem_map.mp hmem with ⟨p, hp, hpn⟩
      simp only [decide_eq_true_eq] at h2
      exact h2 (List.any_eq_true.mpr ⟨p, hp, by simp [hpn]⟩)
    · rintro ⟨h1, h2⟩
      refine ⟨h1, ?_⟩
      simp only [decide_eq_true_eq]
      intro hany
      rcases List.any_eq_true.mp hany with ⟨p, hp, hbeq⟩
      exact h2 (List.mem_map.mpr ⟨p, hp, by simpa using hbeq⟩)
  refine ⟨?_, (hchar T).mpr ⟨hT, hTm⟩, hchar⟩
  simp only [check_expression]
  rw [hsig]
  dsimp only
  rw [if_neg (not_not_intro harity), hargs]
  simp only [Bind.bind, Except.bind]
  rw [hcp]
  simp only []
  rw [if_pos hlen']

/-- Single-factor representation `n^1`. -/
def rep1 (n : String) : Ty := BaseRepresentation.from_factor n 1

/-- Signature exhibiting type-parameter name capture: two type
parameters T1, T2, both parameter types and the return type equal to the
base dimension named T2. -/
def captureSig : FunctionSignature :=
  { type_parameters := ["T1", "T2"]
    parameter_types := [rep1 "T2", rep1 "T2"]
    is_variadic := false
    return_type := rep1 "T2" }

/-- Checker state for the capture scenario: `x` has the type whose base
dimension is literally named T2, `y` has an unrelated dimension A. -/
def captureTC : TypeChecker :=
  { identifiers := [("x", rep1 "T2"), ("y", rep1 "A")]
    function_signatures := [("f", captureSig)] }

/-- Counterexample to C1 as stated: in the capture scenario the call
f(x, y) type checks, yet the final substitution applied to the first
parameter type (T2) yields A, not the first argument's type T2 — the
claimed equality sigma(Pi) == type(ai) fails for i = 1. -/
theorem generic_inference_capture_cex :
    check_parameters "f" ["T1", "T2"] 0 []
        [(rep1 "T2", rep1 "T2"), (rep1 "T2", rep1 "A")] =
      .ok [("T2", rep1 "T2"), ("T2", rep1 "A")] ∧
    substitute [("T2", rep1 "T2"), ("T2", rep1 "A")] (rep1 "T2") ≠ rep1 "T2" ∧
    check_expression captureTC
        (.FunctionCall "f" [.Identifier "x", .Identifier "y"]) =
      .ok (.FunctionCall "f"
        [.Identifier "x" (rep1 "T2"), .Identifier "y" (rep1 "A")]
        (substitute [("T2", rep1 "T2"), ("T2", rep1 "A")] (rep1 "T2"))) :=
  ⟨by with_unfolding_all rfl,
    of_decide_eq_true (by with_unfolding_all rfl),
    by with_unfolding_all rfl⟩

/-- Counterexample to C4 as stated: in the capture scenario the call
f(x, y) succeeds although the declared type parameter T1 received no
substitution entry — the claimed CanNotInferTypeParameters failure does
not occur (the duplicate T2 entries make the length check pass). -/
theorem unresolved_inference_error_cex :
    check_parameters "f" ["T1", "T2"] 0 []
        [(rep1 "T2", rep1 "T2"), (rep1 "T2", rep1 "A")] =
      .ok [("T2", rep1 "T2"), ("T2", rep1 "A")] ∧
    "T1" ∉ ([("T2", rep1 "T2"), ("T2", rep1 "A")].map Prod.fst) ∧
    check_expression captureTC
        (.FunctionCall "f" [.Identifier "x", .Identifier "y"]) =
      .ok (.FunctionCall "f"
        [.Identifier "x" (rep1 "T2"), .Identifier "y" (rep1 "A")]
        (rep1 "A")) :=
  ⟨by with_unfolding_all rfl,
    of_decide_eq_true (by with_unfolding_all rfl),
    by with_unfolding_all rfl⟩

/-- C1 (amended): for every generic call that type checks, PROVIDED no
argument type mentions a base dimension named like a declared type
parameter of the callee (without this freshness condition the claim
fails by name capture — see the counterexample), the substitution σ
returned by the single-unknown exponent solver satisfies
σ(Pi) = type(ai) exactly for every parameter i of the (variadic-expanded)
parameter list, and the type assigned to the call expression is σ applied
to the declared return type R. -/
theorem generic_inference_soundness (tc : TypeChecker) (function_name : String)
    (args : List Expression) (sig : FunctionSignature)
    (arguments_checked : List TypedExpression) (σ : List (String × Ty))
    (result : TypedExpression)
    (hsig : lookup tc.function_signatures function_name = some sig)
    (hargs : check_args tc args = .ok arguments_checked)
    (hfresh : ∀ T ∈ sig.type_parameters, ∀ a ∈ arguments_checked,
      (TypedExpression.get_type a).exp T = 0)
    (hcp : check_parameters function_name sig.type_parameters 0 []
      ((if sig.is_variadic then
          sig.parameter_types ++ List.replicate
            ((arguments_checked.map TypedExpression.get_type).length - 1)
            (sig.parameter_types.getD 0 BaseRepresentation.unity)
        else sig.parameter_types).zip
        (arguments_checked.map TypedExpression.get_type)) = .ok σ)
    (hok : check_expression tc (.FunctionCall function_name args) = .ok result) :
    (∀ pr ∈ ((if sig.is_variadic then
          sig.parameter_types ++ List.replicate
            ((arguments_checked.map TypedExpression.get_type).length - 1)
            (sig.parameter_types.getD 0 BaseRepresentation.unity)
        else sig.parameter_types).zip
        (arguments_checked.map TypedExpression.get_type)),
      substitute σ pr.1 = pr.2) ∧
    result = .FunctionCall function_name arguments_checked
      (substitute σ sig.return_type) := by
  have hfreshpairs : ∀ pr ∈ ((if sig.is_variadic then
        sig.parameter_types ++ List.replicate
          ((arguments_checked.map TypedExpression.get_type).length - 1)
          (sig.parameter_types.getD 0 BaseRepresentation.unity)
      else sig.parameter_types).zip
      (arguments_checked.map TypedExpression.get_type)),
      ∀ T ∈ sig.type_parameters, (pr.2 : Ty).exp T = 0 := by
    intro pr hpr T hT
    obtain ⟨u, v⟩ := pr
    have h2 := (List.of_mem_zip hpr).2
    rcases List.mem_map.mp h2 with ⟨a, ha, hae⟩
    show v.exp T = 0
    rw [← hae]
    exact hfresh T hT a ha
  have hsound := check_parameters_sound function_name sig.type_parameters _
    0 [] σ (solverInv_nil _) hfreshpairs hcp
  refine ⟨hsound.2.2, ?_⟩
  simp only [check_expression] at hok
  rw [hsig] at hok
  dsimp only at hok
  by_cases harity : ¬ ((if sig.is_variadic then 1 else sig.parameter_types.length) ≤
      args.length ∧
    args.length ≤ if sig.is_variadic then USIZE_MAX else sig.parameter_types.length)
  · rw [if_pos harity] at hok
    cases hok
  · rw [if_neg harity, hargs] at hok
    simp only [Bind.bind, Except.bind] at hok
    rw [hcp] at hok
    simp only [] at hok
    by_cases hlen : σ.length ≠ sig.type_parameters.length
    · rw [if_pos hlen] at hok
      cases hok
    · rw [if_neg hlen] at hok
      cases hok
      rfl

/-- Signature and checker state for the C1 witness: f has one type
parameter T, one parameter of type T, return type T, and is applied to an
argument of the unrelated base dimension L. -/
def goodSig : FunctionSignature :=
  { type_parameters := ["T"]
    parameter_types := [rep1 "T"]
    is_variadic := false
    return_type := rep1 "T" }

def goodTC : TypeChecker :=
  { identifiers := [("x", rep1 "L")]
    function_signatures := [("f", goodSig)] }

/-- Witness for generic_inference_soundness: the call f(x) with x of
dimension L infers T := L; the substitution maps the parameter type to
the argument type and the call's type is σ(T) = L. -/
theorem generic_inference_soundness_witness :
    (lookup goodTC.function_signatures "f" = some goodSig ∧
      check_args goodTC [.Identifier "x"] = .ok [.Identifier "x" (rep1 "L")] ∧
      (∀ T ∈ goodSig.type_parameters,
        ∀ a ∈ [TypedExpression.Identifier "x" (rep1 "L")],
          (TypedExpression.get_type a).exp T = 0)) ∧
    ((∀ pr ∈ ((if goodSig.is_variadic then
          goodSig.parameter_types ++ List.replicate
            (([TypedExpression.Identifier "x" (rep1 "L")].map
              TypedExpression.get_type).length - 1)
            (goodSig.parameter_types.getD 0 BaseRepresentation.unity)
        else goodSig.parameter_types).zip
        ([TypedExpression.Identifier "x" (rep1 "L")].map
          TypedExpression.get_type)),
      substitute [("T", rep1 "L")] pr.1 = pr.2) ∧
      TypedExpression.FunctionCall "f" [.Identifier "x" (rep1 "L")]
          (substitute [("T", rep1 "L")] goodSig.return_type) =
        .FunctionCall "f" [.Identifier "x" (rep1 "L")]
          (substitute [("T", rep1 "L")] goodSig.return_type)) :=
  ⟨⟨rfl, rfl, of_decide_eq_true (by with_unfolding_all rfl)⟩,
    generic_inference_soundness goodTC "f" [.Identifier "x"] goodSig
      [.Identifier "x" (rep1 "L")] [("T", rep1 "L")]
      (.FunctionCall "f" [.Identifier "x" (rep1 "L")]
        (substitute [("T", rep1 "L")] goodSig.return_type))
      rfl rfl (of_decide_eq_true (by with_unfolding_all rfl))
      (by with_unfolding_all rfl) (by with_unfolding_all rfl)⟩

/-- C4 (amended): for each parameter processed left to right, if two or
more factors of the (currently substituted) parameter type name type
parameters with no substitution entry yet, checking fails with
MultipleUnresolvedTypeParameters; and — under the freshness condition
that no argument type mentions a base dimension named like a declared
type parameter, with distinct declared type parameters (without
freshness this fails by name capture, see the counterexample) — if after
all parameters are processed some declared type parameter has no entry
in the substitution, checking fails with CanNotInferTypeParameters
carrying the function name and exactly the missing parameter names. -/
theorem unresolved_parameter_errors
    (f : String) (TP : List String) (idx : ℕ) (σ₀ : List (String × Ty))
    (P A : Ty) (rest : List (Ty × Ty))
    (tc : TypeChecker) (function_name : String) (args : List Expression)
    (sig : FunctionSignature) (arguments_checked : List TypedExpression)
    (σ : List (String × Ty)) (T : String) :
    (1 < ((substitute σ₀ P).val.filter (fun p =>
        (TP.filter (fun n => ¬ σ₀.any (fun q => q.1 == n))).any
          (fun n => p.1 == n))).length →
      check_parameters f TP idx σ₀ ((P, A) :: rest) =
        .error .MultipleUnresolvedTypeParameters) ∧
    (lookup tc.function_signatures function_name = some sig →
      check_args tc args = .ok arguments_checked →
      (∀ T' ∈ sig.type_parameters, ∀ a ∈ arguments_checked,
        (TypedExpression.get_type a).exp T' = 0) →
      sig.type_parameters.Nodup →
      ((if sig.is_variadic then 1 else sig.parameter_types.length) ≤
          args.length ∧
        args.length ≤
          if sig.is_variadic then USIZE_MAX else sig.parameter_types.length) →
      check_parameters function_name sig.type_parameters 0 []
        ((if sig.is_variadic then
            sig.parameter_types ++ List.replicate
              ((arguments_checked.map TypedExpression.get_type).length - 1)
              (sig.parameter_types.getD 0 BaseRepresentation.unity)
          else sig.parameter_types).zip
          (arguments_checked.map TypedExpression.get_type)) = .ok σ →
      T ∈ sig.type_parameters → T ∉ σ.map Prod.fst →
      check_expression tc (.FunctionCall function_name args) =
        .error (.CanNotInferTypeParameters function_name
          (remaining_type_parameters sig.type_parameters σ)) ∧
      T ∈ remaining_type_parameters sig.type_parameters σ ∧
      ∀ n, n ∈ remaining_type_parameters sig.type_parameters σ ↔
        n ∈ sig.type_parameters ∧ n ∉ σ.map Prod.fst) :=
  ⟨fun h => multiple_unresolved_direction f TP idx σ₀ P A rest h,
    fun hsig hargs hfresh hnd harity hcp hT hTm =>
      can_not_infer_direction tc function_name args sig arguments_checked σ T
        hsig hargs hfresh hnd harity hcp hT hTm⟩

/-- Signature and checker state for the C4 witness: g has type
parameters T and U but only T occurs in a parameter type, so U cannot be
inferred. -/
def cniSig : FunctionSignature :=
  { type_parameters := ["T", "U"]
    parameter_types := [rep1 "T"]
    is_variadic := false
    return_type := rep1 "T" }

def cniTC : TypeChecker :=
  { identifiers := [("x", rep1 "L")]
    function_signatures := [("g", cniSig)] }

/-- Witness for unresolved_parameter_errors: a parameter of type T1·T2
with nothing substituted yields MultipleUnresolvedTypeParameters, and the
call g(x) against g<T,U>(x: T) -> T fails with
CanNotInferTypeParameters carrying U. -/
theorem unresolved_parameter_errors_witness :
    (1 < ((substitute ([] : List (String × Ty)) (rep1 "T1" * rep1 "T2")).val.filter
        (fun p => (["T1", "T2"].filter
          (fun n => ¬ ([] : List (String × Ty)).any (fun q => q.1 == n))).any
            (fun n => p.1 == n))).length ∧
      check_parameters "h" ["T1", "T2"] 0 []
        [(rep1 "T1" * rep1 "T2", rep1 "B")] =
        .error .MultipleUnresolvedTypeParameters) ∧
    (check_expression cniTC (.FunctionCall "g" [.Identifier "x"]) =
        .error (.CanNotInferTypeParameters "g"
          (remaining_type_parameters ["T", "U"] [("T", rep1 "L")])) ∧
      "U" ∈ remaining_type_parameters ["T", "U"] [("T", rep1 "L")] ∧
      ∀ n, n ∈ remaining_type_parameters ["T", "U"] [("T", rep1 "L")] ↔
        n ∈ (["T", "U"] : List String) ∧
          n ∉ ([("T", rep1 "L")].map Prod.fst)) :=
  ⟨⟨of_decide_eq_true (by with_unfolding_all rfl),
    (unresolved_parameter_errors "h" ["T1", "T2"] 0 [] (rep1 "T1" * rep1 "T2")
      (rep1 "B") [] cniTC "g" [.Identifier "x"] cniSig
      [.Identifier "x" (rep1 "L")] [("T", rep1 "L")] "U").1
      (of_decide_eq_true (by with_unfolding_all rfl))⟩,
    (unresolved_parameter_errors "h" ["T1", "T2"] 0 [] (rep1 "T1" * rep1 "T2")
      (rep1 "B") [] cniTC "g" [.Identifier "x"] cniSig
      [.Identifier "x" (rep1 "L")] [("T", rep1 "L")] "U").2
      rfl rfl (of_decide_eq_true (by with_unfolding_all rfl))
      (of_decide_eq_true (by with_unfolding_all rfl))
      (of_decide_eq_true (by with_unfolding_all rfl))
      (by with_unfolding_all rfl)
      (of_decide_eq_true (by with_unfolding_all rfl))
      (of_decide_eq_true (by with_unfolding_all rfl))⟩

end TC

/-! ### Stack VM (`src/numbat/src/vm.rs`)

The VM is parametric in the quantity type `Q` and the unit type `U`
together with a record of quantity operations: `quantity.rs` and `unit.rs`
are not among the sources, so quantity arithmetic is kept abstract
(modelled from the spec only through its interface).  The opcodes up to
`Return` and their byte encoding follow the `Op` enum of `src/numbat/src/vm.rs`
(discriminants 0–17 in declaration order); the opcodes after `Return` exist
only in the newer VM targeted by `bytecode_interpreter.rs` and are modelled
from the spec (§4.5 opcode table). -/

namespace VM

/-- Modelled from the spec: a quantity error carries a kind description. -/
structure QuantityError where
  kind : String
  deriving DecidableEq

/-- Modelled from the spec (§7): runtime errors. -/
inductive RuntimeError where
  | DivisionByZero
  | FactorialOfNegativeNumber
  | FactorialOfNonInteger
  | QuantityError (e : VM.QuantityError)
  | UnitRegistryError (e : RegistryError)
  | NoStatements
  deriving DecidableEq

/-- Modelled from the spec: an execution result is `Continue` (side effects
only) or `Quantity q` (value produced). -/
inductive InterpreterResult (Q : Type) where
  | Continue
  | Quantity (q : Q)

/-- Opcodes.  The first eighteen follow `vm.rs` (`repr(u8)`, discriminants
0–17 in declaration order); the rest are the newer VM's opcodes, modelled
from the spec with byte values continuing the enumeration. -/
inductive Op where
  | LoadConstant
  | SetUnitConstant
  | SetVariable
  | GetVariable
  | GetLocal
  | Negate
  | Factorial
  | Add
  | Subtract
  | Multiply
  | Divide
  | Power
  | ConvertTo
  | Call
  | FFICallFunction
  | FFICallProcedure
  | FullSimplify
  | Return
  | ApplyPfx
  | LessThan
  | GreaterThan
  | LessOrEqual
  | GreatorOrEqual
  | Equal
  | NotEqual
  | Jump
  | JumpIfFalse
  | PrintString
  deriving DecidableEq

/-- Number of 2-byte operands of an opcode (`Op::num_operands`, extended
per the spec table for the newer opcodes). -/
def Op.num_operands : Op → ℕ
  | .SetUnitConstant | .Call | .FFICallFunction | .FFICallProcedure => 2
  | .LoadConstant | .SetVariable | .GetVariable | .GetLocal => 1
  | .ApplyPfx | .Jump | .JumpIfFalse | .PrintString => 1
  | _ => 0

/-- Byte encoding of an opcode (`op as u8`). -/
def Op.toByte : Op → ℕ
  | .LoadConstant => 0
  | .SetUnitConstant => 1
  | .SetVariable => 2
  | .GetVariable => 3
  | .GetLocal => 4
  | .Negate => 5
  | .Factorial => 6
  | .Add => 7
  | .Subtract => 8
  | .Multiply => 9
  | .Divide => 10
  | .Power => 11
  | .ConvertTo => 12
  | .Call => 13
  | .FFICallFunction => 14
  | .FFICallProcedure => 15
  | .FullSimplify => 16
  | .Return => 17
  | .ApplyPfx => 18
  | .LessThan => 19
  | .GreaterThan => 20
  | .LessOrEqual => 21
  | .GreatorOrEqual => 22
  | .Equal => 23
  | .NotEqual => 24
  | .Jump => 25
  | .JumpIfFalse => 26
  | .PrintString => 27

/-- Byte decoding (the source uses an unchecked `transmute`; an invalid
byte is undefined behaviour and maps to `none`, which the VM treats as a
trap). -/
def Op.ofByte : ℕ → Option Op
  | 0 => some .LoadConstant
  | 1 => some .SetUnitConstant
  | 2 => some .SetVariable
  | 3 => some .GetVariable
  | 4 => some .GetLocal
  | 5 => some .Negate
  | 6 => some .Factorial
  | 7 => some .Add
  | 8 => some .Subtract
  | 9 => some .Multiply
  | 10 => some .Divide
  | 11 => some .Power
  | 12 => some .ConvertTo
  | 13 => some .Call
  | 14 => some .FFICallFunction
  | 15 => some .FFICallProcedure
  | 16 => some .FullSimplify
  | 17 => some .Return
  | 18 => some .ApplyPfx
  | 19 => some .LessThan
  | 20 => some .GreaterThan
  | 21 => some .LessOrEqual
  | 22 => some .GreatorOrEqual
  | 23 => some .Equal
  | 24 => some .NotEqual
  | 25 => some .Jump
  | 26 => some .JumpIfFalse
  | 27 => some .PrintString
  | _ => none

/-- Constants of the VM (`Constant`): scalars and units in the source
revision; booleans and strings are the newer VM's additions (modelled from
the spec). -/
inductive Constant (U : Type) where
  | Scalar (n : ℚ)
  | Unit (u : U)
  | Boolean (b : Bool)
  | StringC (s : String)

/-- Call frame: executed chunk, instruction pointer, frame pointer. -/
structure CallFrame where
  function_idx : ℕ
  ip : ℕ
  fp : ℕ
  deriving DecidableEq

/-- Root call frame (`CallFrame::root`). -/
def CallFrame.root : CallFrame := ⟨0, 0, 0⟩

/-- Modelled from the spec: an FFI callable is a function returning a
quantity or a procedure returning continue (`none`) or a runtime error. -/
inductive Callable (Q : Type) where
  | Function (f : List Q → Q)
  | Procedure (p : List Q → Option RuntimeError)

/-- Modelled from the spec: an FFI table entry. -/
structure ForeignFunction (Q : Type) where
  name : String
  arity_start : ℕ
  arity_stop : ℕ
  callable : Callable Q

/-- Modelled from the spec: the unit registry carried by the newer VM; only
the entry names matter for the registration error. -/
structure UnitRegistry where
  entries : List String
  deriving DecidableEq

/-- Modelled from the spec: register a base unit, failing with
`EntryExists` when the name is already bound. -/
def UnitRegistry.add_base_unit (reg : UnitRegistry) (name : String) :
    Except RegistryError UnitRegistry :=
  if reg.entries.contains name then .error (.EntryExists name)
  else .ok ⟨reg.entries ++ [name]⟩

/-- Abstract quantity kernel: the operations of `quantity.rs` / `unit.rs`
used by the VM, modelled from the spec as an opaque interface. -/
structure VmOps (Q U : Type) where
  from_scalar : ℚ → Q
  from_unit : U → Q
  from_bool : Bool → Q
  new_derived_unit : String → String → Q → U
  add : Q → Q → Except QuantityError Q
  sub : Q → Q → Except QuantityError Q
  mul : Q → Q → Except QuantityError Q
  div : Q → Q → Except QuantityError Q
  power : Q → Q → Except QuantityError Q
  convert_to : Q → Q → Except QuantityError Q
  is_zero : Q → Bool
  neg : Q → Q
  scalar_is_negative : Q → Bool
  scalar_is_non_integer : Q → Bool
  factorial : Q → Q
  apply_pfx : Pfx → Q → Q
  is_false : Q → Bool
  compare : Op → Q → Q → Except QuantityError Q
  full_simplify : Q → Q
  new_base_unit : String → String → U

/-- Modelled from the source: the last-result identifiers rebound after a
top-level expression (`ans` and `_`; name_resolution.rs is not among the
sources, the names follow the spec §4.3 / §9). -/
def LAST_RESULT_IDENTIFIERS : List String := ["ans", "_"]

/-- Association-list insert with `HashMap::insert` semantics: replaces an
existing binding, otherwise appends. -/
def insertAssoc {α : Type} (l : List (String × α)) (k : String) (v : α) :
    List (String × α) :=
  if l.any (fun p => p.1 == k) then
    l.map (fun p => if p.1 == k then (k, v) else p)
  else l ++ [(k, v)]

/-- VM state (struct `Vm`; the `output` list models the print sink of the
spec, `prefixes` the side table of the newer VM). -/
structure Vm (Q U : Type) where
  bytecode : List (String × List ℕ)
  current_chunk_index : ℕ
  constants : List (Constant U)
  global_identifiers : List (String × Option String)
  globals : List (String × Q)
  ffi_callables : List (ForeignFunction Q)
  frames : List CallFrame
  stack : List Q
  prefixes : List Pfx
  unit_registry : UnitRegistry
  output : List String
  debug : Bool

/-- Fresh VM (`Vm::new`): a single empty `<main>` chunk, one root frame. -/
def Vm.new (Q U : Type) (ffi : List (ForeignFunction Q)) : Vm Q U :=
  { bytecode := [("<main>", [])]
    current_chunk_index := 0
    constants := []
    global_identifiers := []
    globals := []
    ffi_callables := ffi
    frames := [CallFrame.root]
    stack := []
    prefixes := []
    unit_registry := ⟨[]⟩
    output := []
    debug := false }

/-- Outcome of one dispatch iteration of `run_without_cleanup`: fall
through to the next iteration, return a result, return an error, or hit a
panic / undefined behaviour of the source (`trap`). -/
inductive StepResult (Q : Type) where
  | continue_loop
  | done (r : InterpreterResult Q)
  | err (e : RuntimeError)
  | trap

/-- Little-endian u16 read of two bytes. -/
def readU16At (code : List ℕ) (pos : ℕ) : Option ℕ :=
  match code[pos]?, code[pos + 1]? with
  | some lo, some hi => some (lo + 256 * hi)
  | _, _ => none

/-- Replace the element at an index (used for `constants[idx] = ...`). -/
def listSet {α : Type} (l : List α) (i : ℕ) (v : α) : List α :=
  l.take i ++ [v] ++ l.drop (i + 1)

/-- Update the last element of a list in place. -/
def updateLast {α : Type} (l : List α) (f : α → α) : List α :=
  l.dropLast ++ (match l.getLast? with | some x => [f x] | none => [])

/-- Conversion of a constant to a quantity (`Constant::to_quantity`);
strings have no quantity form. -/
def Constant.to_quantity {Q U : Type} (ops : VmOps Q U) : Constant U → Option Q
  | .Scalar n => some (ops.from_scalar n)
  | .Unit u => some (ops.from_unit u)
  | .Boolean b => some (ops.from_bool b)
  | .StringC _ => none

/-- Pop the top of the operand stack (panic on empty stack ⇒ `none`). -/
def pop? {Q U : Type} (s : Vm Q U) : Option (Q × Vm Q U) :=
  match s.stack.getLast? with
  | some q => some (q, { s with stack := s.stack.dropLast })
  | none => none

/-- Fetch `k` little-endian u16 operands starting at `pos`. -/
def fetchOperands (code : List ℕ) (pos : ℕ) : ℕ → Option (List ℕ)
  | 0 => some []
  | k + 1 =>
      match readU16At code pos, fetchOperands code (pos + 2) k with
      | some v, some rest => some (v :: rest)
      | _, _ => none

/-- Arithmetic dispatch shared by `Add`–`ConvertTo`. -/
def binary_op_result {Q U : Type} (ops : VmOps Q U) (op : Op) (lhs rhs : Q) :
    Except QuantityError Q :=
  match op with
  | .Add => ops.add lhs rhs
  | .Subtract => ops.sub lhs rhs
  | .Multiply => ops.mul lhs rhs
  | .Divide => ops.div lhs rhs
  | .Power => ops.power lhs rhs
  | .ConvertTo => ops.convert_to lhs rhs
  | _ => .error ⟨"unreachable"⟩

/-- Execution of a single decoded opcode, after the instruction pointer
has been advanced past the opcode and its operands.  `frame` is the frame
as it was when the opcode was fetched. -/
def execOp {Q U : Type} (ops : VmOps Q U) (s : Vm Q U) (frame : CallFrame)
    (op : Op) (operands : List ℕ) : StepResult Q × Vm Q U :=
  match op with
  | .LoadConstant =>
      let constant_idx := operands.getD 0 0
      match s.constants[constant_idx]? with
      | none => (.trap, s)
      | some c =>
          match c.to_quantity ops with
          | none => (.trap, s)
          | some q => (.continue_loop, { s with stack := s.stack ++ [q] })
  | .SetUnitConstant =>
      let identifier_idx := operands.getD 0 0
      let constant_idx := operands.getD 1 0
      match pop? s with
      | none => (.trap, s)
      | some (conversion_value, s) =>
          match s.global_identifiers[identifier_idx]? with
          | none => (.trap, s)
          | some unit_name =>
              match unit_name.2 with
              | none => (.trap, s)
              | some canonical =>
                  if constant_idx < s.constants.length then
                    (.done .Continue,
                      { s with constants := (listSet s.constants constant_idx
                          (.Unit (ops.new_derived_unit unit_name.1 canonical
                            conversion_value))) })
                  else (.trap, s)
  | .SetVariable =>
      let identifier_idx := operands.getD 0 0
      match pop? s with
      | none => (.trap, s)
      | some (quantity, s) =>
          match s.global_identifiers[identifier_idx]? with
          | none => (.trap, s)
          | some identifier =>
              (.done .Continue,
                { s with globals := insertAssoc s.globals identifier.1 quantity })
  | .GetVariable =>
      let identifier_idx := operands.getD 0 0
      match s.global_identifiers[identifier_idx]? with
      | none => (.trap, s)
      | some identifier =>
          match lookup s.globals identifier.1 with
          | none => (.trap, s)
          | some quantity => (.continue_loop, { s with stack := s.stack ++ [quantity] })
  | .GetLocal =>
      let slot_idx := operands.getD 0 0
      match s.stack[frame.fp + slot_idx]? with
      | none => (.trap, s)
      | some q => (.continue_loop, { s with stack := s.stack ++ [q] })
  | .Add | .Subtract | .Multiply | .Divide | .Power | .ConvertTo =>
      match pop? s with
      | none => (.trap, s)
      | some (rhs, s) =>
          match pop? s with
          | none => (.trap, s)
          | some (lhs, s) =>
              if op = .Divide ∧ ops.is_zero rhs then (.err .DivisionByZero, s)
              else
                match binary_op_result ops op lhs rhs with
                | .error e => (.err (.QuantityError e), s)
                | .ok q => (.continue_loop, { s with stack := s.stack ++ [q] })
  | .Negate =>
      match pop? s with
      | none => (.trap, s)
      | some (rhs, s) => (.continue_loop, { s with stack := s.stack ++ [ops.neg rhs] })
  | .Factorial =>
      match pop? s with
      | none => (.trap, s)
      | some (lhs, s) =>
          if ops.scalar_is_negative lhs then (.err .FactorialOfNegativeNumber, s)
          else if ops.scalar_is_non_integer lhs then (.err .FactorialOfNonInteger, s)
          else (.continue_loop, { s with stack := s.stack ++ [ops.factorial lhs] })
  | .Call =>
      let function_idx := operands.getD 0 0
      let num_args := operands.getD 1 0
      if num_args ≤ s.stack.length then
        (.continue_loop,
          { s with frames := (s.frames ++
              [⟨function_idx, 0, s.stack.length - num_args⟩]) })
      else (.trap, s)
  | .FFICallFunction | .FFICallProcedure =>
      let function_idx := operands.getD 0 0
      let num_args := operands.getD 1 0
      match s.ffi_callables[function_idx]? with
      | none => (.trap, s)
      | some foreign_function =>
          if num_args ≤ s.stack.length then
            let args := s.stack.drop (s.stack.length - num_args)
            let s := { s with stack := s.stack.take (s.stack.length - num_args) }
            match foreign_function.callable with
            | .Function f => (.continue_loop, { s with stack := s.stack ++ [f args] })
            | .Procedure p =>
                match p args with
                | none => (.done .Continue, s)
                | some runtime_error => (.err runtime_error, s)
          else (.trap, s)
  | .FullSimplify =>
      match pop? s with
      | none => (.trap, s)
      | some (q, s) =>
          (.continue_loop, { s with stack := s.stack ++ [ops.full_simplify q] })
  | .Return =>
      if s.frames.length = 1 then
        match pop? s with
        | none => (.trap, s)
        | some (return_value, s) =>
            (.done (.Quantity return_value),
              { s with globals := (LAST_RESULT_IDENTIFIERS.foldl
                  (fun g id => insertAssoc g id return_value) s.globals) })
      else
        match s.frames.getLast? with
        | none => (.trap, s)
        | some discarded_frame =>
            let s := { s with frames := s.frames.dropLast }
            match pop? s with
            | none => (.trap, s)
            | some (return_value, s) =>
                (.continue_loop,
                  { s with stack := (s.stack.take discarded_frame.fp ++ [return_value]) })
  | .ApplyPfx =>
      let pfx_idx := operands.getD 0 0
      match s.prefixes[pfx_idx]? with
      | none => (.trap, s)
      | some pfx =>
          match pop? s with
          | none => (.trap, s)
          | some (q, s) =>
              (.continue_loop, { s with stack := s.stack ++ [ops.apply_pfx pfx q] })
  | .LessThan | .GreaterThan | .LessOrEqual | .GreatorOrEqual | .Equal | .NotEqual =>
      match pop? s with
      | none => (.trap, s)
      | some (rhs, s) =>
          match pop? s with
          | none => (.trap, s)
          | some (lhs, s) =>
              match ops.compare op lhs rhs with
              | .error e => (.err (.QuantityError e), s)
              | .ok q => (.continue_loop, { s with stack := s.stack ++ [q] })
  | .Jump =>
      let offset := operands.getD 0 0
      (.continue_loop,
        { s with frames := (updateLast s.frames (fun fr => { fr with ip := fr.ip + offset })) })
  | .JumpIfFalse =>
      let offset := operands.getD 0 0
      match pop? s with
      | none => (.trap, s)
      | some (q, s) =>
          if ops.is_false q then
            (.continue_loop,
              { s with frames := (updateLast s.frames
                  (fun fr => { fr with ip := fr.ip + offset })) })
          else (.continue_loop, s)
  | .PrintString =>
      let string_idx := operands.getD 0 0
      match s.constants[string_idx]? with
      | some (.StringC str) => (.done .Continue, { s with output := s.output ++ [str] })
      | _ => (.trap, s)

/-- One iteration of the dispatch loop of `run_without_cleanup`: fetch the
byte at the current instruction pointer, decode it, fetch its operands,
advance the instruction pointer past opcode and operands, execute. -/
def step {Q U : Type} (ops : VmOps Q U) (s : Vm Q U) : StepResult Q × Vm Q U :=
  match s.frames.getLast? with
  | none => (.trap, s)
  | some frame =>
      match s.bytecode[frame.function_idx]? with
      | none => (.trap, s)
      | some chunk =>
          match chunk.2[frame.ip]? with
          | none => (.trap, s)
          | some b =>
              match Op.ofByte b with
              | none => (.trap, s)
              | some op =>
                  match fetchOperands chunk.2 (frame.ip + 1) op.num_operands with
                  | none => (.trap, s)
                  | some operands =>
                      execOp ops
                        { s with frames := (updateLast s.frames
                            (fun fr => { fr with ip := fr.ip + 1 + 2 * op.num_operands })) }
                        frame op operands

/-- Overall result of a VM run: a value or continue, a runtime error, or a
panic / fuel exhaustion (`trap`). -/
inductive RunResult (Q : Type) where
  | ok (r : InterpreterResult Q)
  | err (e : RuntimeError)
  | trap

/-- The dispatch loop, with explicit fuel (the source loops unboundedly;
fuel exhaustion is a `trap`, never an `ok` or `err`). -/
def run_loop {Q U : Type} (ops : VmOps Q U) : ℕ → Vm Q U → RunResult Q × Vm Q U
  | 0, s => (.trap, s)
  | fuel + 1, s =>
      match step ops s with
      | (.continue_loop, s') => run_loop ops fuel s'
      | (.done r, s') => (.ok r, s')
      | (.err e, s') => (.err e, s')
      | (.trap, s') => (.trap, s')

/-- `run_without_cleanup`: an immediate `Continue` when the instruction
pointer is already at or past the end of the current chunk, otherwise the
dispatch loop. -/
def run_without_cleanup {Q U : Type} (ops : VmOps Q U) (fuel : ℕ) (s : Vm Q U) :
    RunResult Q × Vm Q U :=
  match s.frames.getLast? with
  | none => (.trap, s)
  | some frame =>
      match s.bytecode[frame.function_idx]? with
      | none => (.trap, s)
      | some chunk =>
          if chunk.2.length ≤ frame.ip then (.ok .Continue, s)
          else run_loop ops fuel s

/-- `Vm::run`: runs and, on a runtime error, clears the operand stack and
resets the frame stack to a single root frame whose instruction pointer
sits at the end of `<main>`; globals are untouched. -/
def run {Q U : Type} (ops : VmOps Q U) (fuel : ℕ) (s : Vm Q U) :
    RunResult Q × Vm Q U :=
  match run_without_cleanup ops fuel s with
  | (.err e, s₁) =>
      match s₁.bytecode.head? with
      | none => (.trap, s₁)
      | some mainChunk =>
          (.err e,
            { s₁ with
                stack := []
                frames := [⟨0, mainChunk.2.length, 0⟩] })
  | r => r

theorem updateLast_getLast? {α : Type} (l : List α) (f : α → α) (x : α)
    (h : l.getLast? = some x) : (updateLast l f).getLast? = some (f x) := by
  unfold updateLast
  rw [h]
  exact List.getLast?_concat _

theorem updateLast_dropLast {α : Type} (l : List α) (f : α → α) :
    (updateLast l f).dropLast = l.dropLast := by
  unfold updateLast
  cases h : l.getLast? with
  | none =>
    have : l = [] := by
      cases l with
      | nil => rfl
      | cons a as => simp [List.getLast?_eq_getLast] at h
    simp [this]
  | some x => simp

theorem updateLast_length {α : Type} (l : List α) (f : α → α) (x : α)
    (h : l.getLast? = some x) : (updateLast l f).length = l.length := by
  unfold updateLast
  rw [h]
  have hne : l ≠ [] := by
    intro hl
    rw [hl] at h
    cases h
  have hpos : 0 < l.length := List.length_pos.mpr hne
  rw [List.length_append, List.length_dropLast]
  simp only [List.length_singleton]
  omega

/-- C5: for every execution of the Return opcode: in the root frame it pops
the top quantity, stores it under every last-result identifier in the
globals, and yields InterpreterResult::Quantity of that value; in a
non-root frame it pops the frame, saves the top of the operand stack,
truncates the operand stack back to the popped frame's frame pointer, and
pushes the saved value back as the return value. -/
theorem return_op_semantics {Q U : Type} (ops : VmOps Q U) (s : Vm Q U)
    (frame : CallFrame) (chunkName : String) (code : List ℕ) (q : Q)
    (hframe : s.frames.getLast? = some frame)
    (hchunk : s.bytecode[frame.function_idx]? = some (chunkName, code))
    (hbyte : code[frame.ip]? = some (Op.toByte .Return))
    (hstack : s.stack.getLast? = some q) :
    (s.frames.length = 1 →
      step ops s = (.done (.Quantity q),
        { s with
            frames := updateLast s.frames (fun fr => { fr with ip := fr.ip + 1 })
            stack := s.stack.dropLast
            globals := insertAssoc (insertAssoc s.globals "ans" q) "_" q })) ∧
    (s.frames.length ≠ 1 →
      step ops s = (.continue_loop,
        { s with
            frames := s.frames.dropLast
            stack := s.stack.dropLast.take frame.fp ++ [q] })) := by
  have hdecode : Op.ofByte (Op.toByte .Return) = some .Return := rfl
  have hops : (Op.Return).num_operands = 0 := rfl
  have hstep : step ops s = execOp ops
      { s with frames := (updateLast s.frames
          (fun fr => { fr with ip := fr.ip + 1 })) }
      frame .Return [] := by
    simp only [step, hframe, hchunk, hbyte, hdecode, hops, fetchOperands]
  have hlen : (updateLast s.frames
      (fun fr => { fr with ip := fr.ip + 1 })).length = s.frames.length :=
    updateLast_length _ _ _ hframe
  constructor
  · intro hroot
    rw [hstep]
    simp only [execOp]
    rw [if_pos (hlen.trans hroot)]
    simp only [pop?]
    rw [hstack]
    simp only [LAST_RESULT_IDENTIFIERS, List.foldl]
  · intro hnonroot
    rw [hstep]
    simp only [execOp]
    rw [if_neg (fun hc => hnonroot (hlen.symm.trans hc))]
    rw [updateLast_getLast? _ _ _ hframe]
    simp only [pop?]
    rw [hstack]
    rw [updateLast_dropLast]

/-- Quantity kernel used to instantiate witnesses: plain rational values,
every unit trivial. -/
def dummyOps : VmOps ℚ Unit where
  from_scalar := id
  from_unit := fun _ => 0
  from_bool := fun b => if b then 1 else 0
  new_derived_unit := fun _ _ _ => ()
  add := fun a b => .ok (a + b)
  sub := fun a b => .ok (a - b)
  mul := fun a b => .ok (a * b)
  div := fun a b => .ok (a / b)
  power := fun a _ => .ok a
  convert_to := fun a _ => .ok a
  is_zero := fun a => a == 0
  neg := fun a => -a
  scalar_is_negative := fun a => a < 0
  scalar_is_non_integer := fun a => !a.isInt
  factorial := fun a => a
  apply_pfx := fun p q => p.multiplier * q
  is_false := fun q => q == 0
  compare := fun _ a b => .ok (if a ≤ b then 1 else 0)
  full_simplify := id
  new_base_unit := fun _ _ => ()

/-- Concrete VM state: `<main> = [Return]`, one root frame, stack `[5]`. -/
def returnWitnessState : Vm ℚ Unit :=
  { bytecode := [("<main>", [17])]
    current_chunk_index := 0
    constants := []
    global_identifiers := []
    globals := []
    ffi_callables := []
    frames := [⟨0, 0, 0⟩]
    stack := [5]
    prefixes := []
    unit_registry := ⟨[]⟩
    output := []
    debug := false }

/-- Witness for return_op_semantics: a root-frame Return yields the
popped quantity and stores it in `ans` and `_`. -/
theorem return_op_semantics_witness :
    step dummyOps returnWitnessState =
      (.done (.Quantity 5),
        { returnWitnessState with
            frames := [⟨0, 1, 0⟩]
            stack := []
            globals := [("ans", 5), ("_", 5)] }) := by
  have h := (return_op_semantics dummyOps returnWitnessState ⟨0, 0, 0⟩ "<main>" [17] 5
    rfl rfl rfl rfl).1 rfl
  simpa [updateLast, insertAssoc, returnWitnessState] using h

theorem run_without_cleanup_at_end {Q U : Type} (ops : VmOps Q U) (fuel : ℕ)
    (s : Vm Q U) (frame : CallFrame) (chunk : String × List ℕ)
    (hf : s.frames.getLast? = some frame)
    (hc : s.bytecode[frame.function_idx]? = some chunk)
    (hip : chunk.2.length ≤ frame.ip) :
    run_without_cleanup ops fuel s = (.ok .Continue, s) := by
  unfold run_without_cleanup
  simp only [hf, hc]
  rw [if_pos hip]

/-- C6: whenever Vm::run returns a runtime error, the VM state afterwards
has an empty operand stack and exactly one call frame, the root frame for
chunk 0 with its instruction pointer at the end of the `<main>` bytecode;
the globals (and all other components) are exactly those of the state in
which the error occurred, and a fresh `run_without_cleanup` from the
cleaned state immediately succeeds with `Continue`. -/
theorem run_error_cleanup {Q U : Type} (ops : VmOps Q U) (fuel : ℕ) (s : Vm Q U)
    (e : RuntimeError) (s' : Vm Q U)
    (h : run ops fuel s = (.err e, s')) :
    s'.stack = [] ∧
    (∃ mainName mainCode rest,
      s'.bytecode = (mainName, mainCode) :: rest ∧
      s'.frames = [⟨0, mainCode.length, 0⟩]) ∧
    s'.globals = (run_without_cleanup ops fuel s).2.globals ∧
    s'.bytecode = (run_without_cleanup ops fuel s).2.bytecode ∧
    s'.constants = (run_without_cleanup ops fuel s).2.constants ∧
    s'.output = (run_without_cleanup ops fuel s).2.output ∧
    (∀ fuel', run_without_cleanup ops fuel' s' = (.ok .Continue, s')) := by
  unfold run at h
  rcases hrw : run_without_cleanup ops fuel s with ⟨r, s₁⟩
  rw [hrw] at h
  cases r with
  | ok r' => cases h
  | trap => cases h
  | err e' =>
    dsimp only at h
    cases hhead : s₁.bytecode.head? with
    | none =>
      rw [hhead] at h
      cases h
    | some mainChunk =>
      rw [hhead] at h
      dsimp only at h
      rw [Prod.mk.injEq] at h
      obtain ⟨he, hs⟩ := h
      subst hs
      obtain ⟨mainName, mainCode⟩ := mainChunk
      have hbyte : s₁.bytecode = (mainName, mainCode) :: s₁.bytecode.tail := by
        cases hb : s₁.bytecode with
        | nil => rw [hb] at hhead; cases hhead
        | cons a as =>
          rw [hb] at hhead
          simp only [List.head?] at hhead
          cases hhead
          rfl
      refine ⟨rfl, ⟨mainName, mainCode, s₁.bytecode.tail, hbyte, rfl⟩, rfl, rfl, rfl,
        rfl, ?_⟩
      intro fuel'
      refine run_without_cleanup_at_end ops fuel' _ ⟨0, mainCode.length, 0⟩
        (mainName, mainCode) ?_ ?_ ?_
      · rfl
      · show s₁.bytecode[(0 : ℕ)]? = some (mainName, mainCode)
        rw [hbyte]
        simp
      · exact le_refl _

/-- Concrete VM state for the cleanup witness:
`<main> = [LoadConstant 0, Factorial]` with constant `-1`, so that
execution fails with FactorialOfNegativeNumber. -/
def cleanupWitnessState : Vm ℚ Unit :=
  { bytecode := [("<main>", [0, 0, 0, 6])]
    current_chunk_index := 0
    constants := [.Scalar (-1)]
    global_identifiers := []
    globals := [("x", 42)]
    ffi_callables := []
    frames := [⟨0, 0, 0⟩]
    stack := []
    prefixes := []
    unit_registry := ⟨[]⟩
    output := []
    debug := false }

/-- Witness for run_error_cleanup: after `(-1)!` fails, the stack is
cleared, the root frame sits at the end of `<main>`, the pre-error global
`x` is preserved, and the next run immediately continues. -/
theorem run_error_cleanup_witness :
    ∃ s' : Vm ℚ Unit,
      run dummyOps 10 cleanupWitnessState = (.err .FactorialOfNegativeNumber, s') ∧
      s'.stack = [] ∧
      s'.globals = [("x", 42)] ∧
      (∀ fuel', run_without_cleanup dummyOps fuel' s' = (.ok .Continue, s')) := by
  refine ⟨{ cleanupWitnessState with
      frames := [⟨0, 4, 0⟩]
      stack := [] }, rfl, ?_, ?_, ?_⟩
  · rfl
  · rfl
  · have h := run_error_cleanup dummyOps 10 cleanupWitnessState
      .FactorialOfNegativeNumber _ rfl
    exact h.2.2.2.2.2.2

/-! Compilation helpers of `Vm` (the emission side of `vm.rs`).
`current_offset` and `patch_u16_value_at` are absent from the source
revision of `vm.rs` and are modelled from the spec: two-pass emission
writes a placeholder `0xFFFF`, records the patch site, and fills the
little-endian u16 once the target is known. -/

/-- Low byte of a value cast to u16 (`to_le_bytes`). -/
def u16lo (v : ℕ) : ℕ := v % 65536 % 256

/-- High byte of a value cast to u16 (`to_le_bytes`). -/
def u16hi (v : ℕ) : ℕ := v % 65536 / 256

/-- The chunk currently being compiled (`current_chunk_mut`). -/
def Vm.current_chunk {Q U : Type} (s : Vm Q U) : List ℕ :=
  (s.bytecode.getD s.current_chunk_index ("", [])).2

/-- Replace the code of the chunk currently being compiled. -/
def Vm.with_current_chunk {Q U : Type} (s : Vm Q U) (code : List ℕ) : Vm Q U :=
  { s with bytecode := (listSet s.bytecode s.current_chunk_index
      ((s.bytecode.getD s.current_chunk_index ("", [])).1, code)) }

/-- Emit a 0-operand opcode (`add_op`). -/
def Vm.add_op {Q U : Type} (s : Vm Q U) (op : Op) : Vm Q U :=
  s.with_current_chunk (s.current_chunk ++ [op.toByte])

/-- Emit a 1-operand opcode (`add_op1`). -/
def Vm.add_op1 {Q U : Type} (s : Vm Q U) (op : Op) (arg : ℕ) : Vm Q U :=
  s.with_current_chunk (s.current_chunk ++ [op.toByte, u16lo arg, u16hi arg])

/-- Emit a 2-operand opcode (`add_op2`). -/
def Vm.add_op2 {Q U : Type} (s : Vm Q U) (op : Op) (arg1 arg2 : ℕ) : Vm Q U :=
  s.with_current_chunk (s.current_chunk ++
    [op.toByte, u16lo arg1, u16hi arg1, u16lo arg2, u16hi arg2])

/-- Append a constant, returning its index (`add_constant`). -/
def Vm.add_constant {Q U : Type} (s : Vm Q U) (c : Constant U) : ℕ × Vm Q U :=
  (s.constants.length, { s with constants := s.constants ++ [c] })

/-- Append a string constant, returning its index (`add_string`;
modelled from the spec for the newer VM). -/
def Vm.add_string {Q U : Type} (s : Vm Q U) (str : String) : ℕ × Vm Q U :=
  s.add_constant (.StringC str)

/-- Register a prefix in the side table, returning its index
(`add_prefix`; modelled from the spec for the newer VM). -/
def Vm.add_pfx {Q U : Type} (s : Vm Q U) (p : Pfx) : ℕ × Vm Q U :=
  (s.prefixes.length, { s with prefixes := s.prefixes ++ [p] })

/-- Register or find a global identifier, returning its index
(`add_global_identifier`). -/
def Vm.add_global_identifier {Q U : Type} (s : Vm Q U) (identifier : String)
    (canonical_unit_name : Option String) : ℕ × Vm Q U :=
  match s.global_identifiers.findIdx? (fun i => i.1 == identifier) with
  | some idx => (idx, s)
  | none =>
      (s.global_identifiers.length,
        { s with global_identifiers :=
            (s.global_identifiers ++ [(identifier, canonical_unit_name)]) })

/-- Modelled from the spec: current length of the chunk being compiled
(`current_offset`). -/
def Vm.current_offset {Q U : Type} (s : Vm Q U) : ℕ := s.current_chunk.length

/-- Modelled from the spec: write a u16 value (little endian) over the
two placeholder bytes at `offset` (`patch_u16_value_at`). -/
def Vm.patch_u16_value_at {Q U : Type} (s : Vm Q U) (offset value : ℕ) : Vm Q U :=
  s.with_current_chunk
    (listSet (listSet s.current_chunk offset (u16lo value)) (offset + 1) (u16hi value))

/-- Open a fresh chunk for a function body (`begin_function`). -/
def Vm.begin_function {Q U : Type} (s : Vm Q U) (name : String) : Vm Q U :=
  { s with
      bytecode := s.bytecode ++ [(name, [])]
      current_chunk_index := s.bytecode.length }

/-- Resume compilation of `<main>` (`end_function`). -/
def Vm.end_function {Q U : Type} (s : Vm Q U) : Vm Q U :=
  { s with current_chunk_index := 0 }

/-- Index of the chunk compiled for `name` (`get_function_idx`; the
source unwraps, a miss is a panic). -/
def Vm.get_function_idx {Q U : Type} (s : Vm Q U) (name : String) : Option ℕ :=
  s.bytecode.findIdx? (fun c => c.1 == name)

/-- Index of a registered FFI callable (`get_ffi_callable_idx`). -/
def Vm.get_ffi_callable_idx {Q U : Type} (s : Vm Q U) (name : String) : Option ℕ :=
  s.ffi_callables.findIdx? (fun ff => ff.name == name)

/-! The FFI procedures of `ffi.rs` (print, assert_eq) report runtime
errors such as an assertion failure, but never `NoStatements`; the
following predicate captures that property of an FFI table. -/

/-- A foreign function whose procedure payload (if any) never reports
`NoStatements`. -/
def ProcOkF {Q : Type} (ff : ForeignFunction Q) : Prop :=
  ∀ (p : List Q → Option RuntimeError) (args : List Q),
    ff.callable = .Procedure p → p args ≠ some RuntimeError.NoStatements

/-- Every registered FFI callable of a VM satisfies `ProcOkF`. -/
def ProcOkVm {Q U : Type} (s : Vm Q U) : Prop :=
  ∀ ff ∈ s.ffi_callables, ProcOkF ff

theorem mem_of_getElem_some {α : Type} {l : List α} {i : ℕ} {a : α}
    (h : l[i]? = some a) : a ∈ l := by
  rw [List.getElem?_eq_some] at h
  obtain ⟨hi, rfl⟩ := h
  exact List.getElem_mem hi

theorem pop?_eq_some {Q U : Type} {s : Vm Q U} {q : Q} {s' : Vm Q U} :
    pop? s = some (q, s') ↔
      s.stack.getLast? = some q ∧ s' = { s with stack := s.stack.dropLast } := by
  unfold pop?
  cases hl : s.stack.getLast? with
  | none => simp
  | some q0 =>
    simp only [Option.some.injEq, Prod.mk.injEq]
    constructor
    · rintro ⟨rfl, h⟩; exact ⟨rfl, h.symm⟩
    · rintro ⟨rfl, h⟩; exact ⟨rfl, h.symm⟩

theorem execOp_ffi {Q U : Type} (ops : VmOps Q U) (s : Vm Q U)
    (frame : CallFrame) (op : Op) (operands : List ℕ) :
    (execOp ops s frame op operands).2.ffi_callables = s.ffi_callables := by
  cases op <;> simp only [execOp] <;> (repeat' split) <;>
    first
      | rfl
      | simp_all [pop?_eq_some]

theorem execOp_err_ne {Q U : Type} (ops : VmOps Q U) (s : Vm Q U)
    (frame : CallFrame) (op : Op) (operands : List ℕ) (hok : ProcOkVm s) :
    ∀ e s', execOp ops s frame op operands = (.err e, s') →
      e ≠ RuntimeError.NoStatements := by
  intro e s' h
  cases op
  case FFICallFunction =>
    simp only [execOp] at h
    cases hff : s.ffi_callables[operands.getD 0 0]? with
    | none => rw [hff] at h; cases h
    | some foreign_function =>
      rw [hff] at h
      dsimp only at h
      by_cases hn : operands.getD 1 0 ≤ s.stack.length
      · rw [if_pos hn] at h
        cases hcall : foreign_function.callable with
        | Function f => rw [hcall] at h; cases h
        | Procedure p =>
          rw [hcall] at h
          dsimp only at h
          cases hp : p (s.stack.drop (s.stack.length - operands.getD 1 0)) with
          | none => rw [hp] at h; cases h
          | some re =>
            rw [hp] at h
            cases h
            intro hc
            subst hc
            exact hok foreign_function (mem_of_getElem_some hff) p _ hcall hp
      · rw [if_neg hn] at h; cases h
  case FFICallProcedure =>
    simp only [execOp] at h
    cases hff : s.ffi_callables[operands.getD 0 0]? with
    | none => rw [hff] at h; cases h
    | some foreign_function =>
      rw [hff] at h
      dsimp only at h
      by_cases hn : operands.getD 1 0 ≤ s.stack.length
      · rw [if_pos hn] at h
        cases hcall : foreign_function.callable with
        | Function f => rw [hcall] at h; cases h
        | Procedure p =>
          rw [hcall] at h
          dsimp only at h
          cases hp : p (s.stack.drop (s.stack.length - operands.getD 1 0)) with
          | none => rw [hp] at h; cases h
          | some re =>
            rw [hp] at h
            cases h
            intro hc
            subst hc
            exact hok foreign_function (mem_of_getElem_some hff) p _ hcall hp
      · rw [if_neg hn] at h; cases h
  all_goals simp only [execOp, pop?] at h
  all_goals (repeat' split at h) <;> (try cases h) <;> (intro hc; cases hc)

theorem step_ffi {Q U : Type} (ops : VmOps Q U) (s : Vm Q U) :
    (step ops s).2.ffi_callables = s.ffi_callables := by
  unfold step
  repeat' split
  any_goals rfl
  all_goals exact execOp_ffi ops _ _ _ _

theorem step_err_ne {Q U : Type} (ops : VmOps Q U) (s : Vm Q U)
    (hok : ProcOkVm s) :
    ∀ e s', step ops s = (.err e, s') → e ≠ RuntimeError.NoStatements := by
  intro e s' h
  unfold step at h
  repeat' split at h
  all_goals (try cases h)
  all_goals refine execOp_err_ne ops _ _ _ _ ?_ e s' h
  all_goals exact fun ff hff => hok ff hff

theorem run_loop_err_ne {Q U : Type} (ops : VmOps Q U) :
    ∀ (fuel : ℕ) (s : Vm Q U), ProcOkVm s →
      ∀ e s', run_loop ops fuel s = (.err e, s') →
        e ≠ RuntimeError.NoStatements
  | 0, _, _, _, _, h => by cases h
  | fuel + 1, s, hok, e, s', h => by
    simp only [run_loop] at h
    cases hstep : step ops s with
    | mk r s₁ =>
      rw [hstep] at h
      have hffi : s₁.ffi_callables = s.ffi_callables := by
        have hsf := step_ffi ops s
        rw [hstep] at hsf
        exact hsf
      cases r with
      | continue_loop =>
        exact run_loop_err_ne ops fuel s₁
          (fun ff hff => hok ff (hffi ▸ hff)) e s' h
      | done r₀ => cases h
      | err e₂ =>
        cases h
        exact step_err_ne ops s hok e s' hstep
      | trap => cases h

theorem run_without_cleanup_err_ne {Q U : Type} (ops : VmOps Q U) (fuel : ℕ)
    (s : Vm Q U) (hok : ProcOkVm s) :
    ∀ e s', run_without_cleanup ops fuel s = (.err e, s') →
      e ≠ RuntimeError.NoStatements := by
  intro e s' h
  unfold run_without_cleanup at h
  repeat' split at h
  all_goals (try cases h)
  all_goals exact run_loop_err_ne ops fuel s hok e s' h

theorem run_err_ne {Q U : Type} (ops : VmOps Q U) (fuel : ℕ) (s : Vm Q U)
    (hok : ProcOkVm s) :
    ∀ e s', run ops fuel s = (.err e, s') → e ≠ RuntimeError.NoStatements := by
  intro e s' h
  unfold run at h
  cases hrwc : run_without_cleanup ops fuel s with
  | mk r s₁ =>
    rw [hrwc] at h
    cases r with
    | ok r₀ => cases h
    | err e₂ =>
      dsimp only at h
      cases hhead : s₁.bytecode.head? with
      | none => rw [hhead] at h; cases h
      | some mainChunk =>
        rw [hhead] at h
        cases h
        exact run_without_cleanup_err_ne ops fuel s hok e s₁ hrwc
    | trap => cases h

end VM

/-! ### Bytecode compiler (`src/numbat/src/bytecode_interpreter.rs`)

This side works on the revision of `typed_ast.rs` found in the sources
(types are dimension-or-boolean, expressions have boolean and conditional
forms, binary operators include the comparisons). -/

namespace BC

open VM

/-- Types of the newer `typed_ast.rs`: a dimension or the boolean type. -/
inductive Ty where
  | Dimension (d : BaseRepresentation)
  | Boolean
  deriving DecidableEq

/-- Rendering of a type for the `type(x)` procedure (presentation only;
`Display` for `Type`). -/
def Ty.render : Ty → String
  | .Dimension d => String.intercalate " " (d.val.map (fun p => p.1))
  | .Boolean => "bool"

/-- Unary operators of the newer `ast.rs`. -/
inductive UnaryOperator where
  | Factorial
  | Negate
  deriving DecidableEq

/-- Binary operators of the newer `ast.rs`, comparisons included. -/
inductive BinaryOperator where
  | Add
  | Sub
  | Mul
  | Div
  | Power
  | ConvertTo
  | LessThan
  | GreaterThan
  | LessOrEqual
  | GreaterOrEqual
  | Equal
  | NotEqual
  deriving DecidableEq

/-- Procedure kinds (`ast::ProcedureKind`). -/
inductive ProcedureKind where
  | Print
  | AssertEq
  | Type
  deriving DecidableEq

/-- Typed expressions of the newer `typed_ast.rs` (spans dropped,
numbers as exact rationals). -/
inductive Expression where
  | Scalar (n : ℚ)
  | Identifier (name : String) (type_ : Ty)
  | UnitIdentifier (pfx : Pfx) (name : String) (full_name : String) (type_ : Ty)
  | UnaryOperator (op : UnaryOperator) (expr : Expression) (type_ : Ty)
  | BinaryOperator (op : BinaryOperator) (lhs : Expression) (rhs : Expression) (type_ : Ty)
  | FunctionCall (name : String) (args : List Expression) (type_ : BaseRepresentation)
  | Boolean (b : Bool)
  | Condition (cond : Expression) (then_expr : Expression) (else_expr : Expression)

/-- Type annotation carried by a typed expression (`get_type`). -/
def Expression.get_type : Expression → Ty
  | .Scalar _ => .Dimension BaseRepresentation.unity
  | .Identifier _ t => t
  | .UnitIdentifier _ _ _ t => t
  | .UnaryOperator _ _ t => t
  | .BinaryOperator _ _ _ t => t
  | .FunctionCall _ _ t => .Dimension t
  | .Boolean _ => .Boolean
  | .Condition _ then_expr _ => then_expr.get_type

/-- Decorators of unit definitions (alias payload only). -/
inductive Decorator where
  | MetricPrefixes
  | BinaryPrefixes
  | Aliases (names : List String)
  deriving DecidableEq

/-- Modelled from the spec: the unit name together with every alias
(`decorator::name_and_aliases`). -/
def name_and_aliases (name : String) (decorators : List Decorator) : List String :=
  name :: decorators.flatMap (fun d =>
    match d with
    | .Aliases names => names
    | _ => [])

/-- Modelled from the spec: the canonical name of a unit (alias metadata
is presentation-only for the claims below, the unit name stands in). -/
def get_canonical_unit_name (name : String) (_decorators : List Decorator) : String :=
  name

/-- Typed statements of the newer `typed_ast.rs` (spans dropped). -/
inductive Statement where
  | Expression (expr : Expression)
  | DefineVariable (identifier : String) (expr : Expression)
      ( type_annotation : Option TC.DimensionExpression) (type_ : Ty)
  | DefineFunction (name : String) (type_parameters : List String)
      (parameters : List (String × Bool × Option TC.DimensionExpression × Ty))
      (body : Option Expression)
      ( return_type_annotation : Option TC.DimensionExpression) (return_type : Ty)
  | DefineDimension (name : String) (dexprs : List TC.DimensionExpression)
  | DefineBaseUnit (name : String) (decorators : List Decorator)
      ( type_annotation : Option TC.DimensionExpression) (type_ : Ty)
  | DefineDerivedUnit (name : String) (expr : Expression)
      (decorators : List Decorator) ( type_annotation : Option TC.DimensionExpression)
  | ProcedureCall (kind : ProcedureKind) (args : List Expression)

/-- Name of a built-in procedure (`ffi::procedures()`; modelled from the
spec: print, assert_eq, type). -/
def procedure_name : ProcedureKind → String
  | .Print => "print"
  | .AssertEq => "assert_eq"
  | .Type => "type"

/-- Compiler state (struct `BytecodeInterpreter`); `ffi_functions` models
the process-wide FFI function table consulted by foreign-function
definitions. -/
structure BytecodeInterpreter (Q U : Type) where
  vm : Vm Q U
  local_variables : List String
  unit_name_to_constant_index : List (String × ℕ)
  ffi_functions : List (ForeignFunction Q)

mutual

/-- Expression lowering (`compile_expression`); `none` models a panic of
the source (a missing unit constant or function chunk). -/
def compile_expression {Q U : Type} (bi : BytecodeInterpreter Q U) :
    Expression → Option (BytecodeInterpreter Q U)
  | .Scalar n =>
      let r := bi.vm.add_constant (.Scalar n)
      some { bi with vm := (r.2.add_op1 .LoadConstant r.1) }
  | .Identifier identifier _type =>
      match bi.local_variables.findIdx? (fun n => n == identifier) with
      | some position => some { bi with vm := bi.vm.add_op1 .GetLocal position }
      | none =>
          let r := bi.vm.add_global_identifier identifier none
          some { bi with vm := r.2.add_op1 .GetVariable r.1 }
  | .UnitIdentifier pfx unit_name _full_name _type =>
      match lookup bi.unit_name_to_constant_index unit_name with
      | none => none
      | some index =>
          let bi' := { bi with vm := bi.vm.add_op1 .LoadConstant index }
          if pfx ≠ Pfx.nonePfx then
            let r := bi'.vm.add_pfx pfx
            some { bi' with vm := r.2.add_op1 .ApplyPfx r.1 }
          else some bi'
  | .UnaryOperator .Negate rhs _type => do
      let bi' ← compile_expression bi rhs
      some { bi' with vm := bi'.vm.add_op .Negate }
  | .UnaryOperator .Factorial lhs _type => do
      let bi' ← compile_expression bi lhs
      some { bi' with vm := bi'.vm.add_op .Factorial }
  | .BinaryOperator operator lhs rhs _type => do
      let bi' ← compile_expression bi lhs
      let bi'' ← compile_expression bi' rhs
      let op : Op :=
        match operator with
        | .Add => .Add
        | .Sub => .Subtract
        | .Mul => .Multiply
        | .Div => .Divide
        | .Power => .Power
        | .ConvertTo => .ConvertTo
        | .LessThan => .LessThan
        | .GreaterThan => .GreaterThan
        | .LessOrEqual => .LessOrEqual
        | .GreaterOrEqual => .GreatorOrEqual
        | .Equal => .Equal
        | .NotEqual => .NotEqual
      some { bi'' with vm := bi''.vm.add_op op }
  | .FunctionCall name args _type => do
      let bi' ← compile_args bi args
      match bi'.vm.get_ffi_callable_idx name with
      | some idx =>
          some { bi' with vm := bi'.vm.add_op2 .FFICallFunction idx args.length }
      | none =>
          match bi'.vm.get_function_idx name with
          | none => none
          | some idx =>
              some { bi' with vm := bi'.vm.add_op2 .Call idx args.length }
  | .Boolean val =>
      let r := bi.vm.add_constant (.Boolean val)
      some { bi with vm := r.2.add_op1 .LoadConstant r.1 }
  | .Condition condition then_expr else_expr => do
      let bi₁ ← compile_expression bi condition
      let if_jump_offset := bi₁.vm.current_offset + 1
      let bi₂ := { bi₁ with vm := bi₁.vm.add_op1 .JumpIfFalse 0xffff }
      let bi₃ ← compile_expression bi₂ then_expr
      let else_jump_offset := bi₃.vm.current_offset + 1
      let bi₄ := { bi₃ with vm := bi₃.vm.add_op1 .Jump 0xffff }
      let else_block_offset := bi₄.vm.current_offset
      let bi₅ := { bi₄ with vm :=
        bi₄.vm.patch_u16_value_at if_jump_offset (else_block_offset - (if_jump_offset + 2)) }
      let bi₆ ← compile_expression bi₅ else_expr
      let end_offset := bi₆.vm.current_offset
      some { bi₆ with vm :=
        bi₆.vm.patch_u16_value_at else_jump_offset (end_offset - (else_jump_offset + 2)) }

/-- Argument lowering of a function call. -/
def compile_args {Q U : Type} (bi : BytecodeInterpreter Q U) :
    List Expression → Option (BytecodeInterpreter Q U)
  | [] => some bi
  | arg :: rest => do
      let bi' ← compile_expression bi arg
      compile_args bi' rest

end

/-- Expression lowering followed by the simplification rule
(`compile_expression_with_simplify`): a `FullSimplify` is emitted after
the expression unless it is a scalar, identifier, unit identifier,
function call, unary, boolean, conditional, or a `ConvertTo` binary. -/
def compile_expression_with_simplify {Q U : Type} (bi : BytecodeInterpreter Q U)
    (expr : Expression) : Option (BytecodeInterpreter Q U) := do
  let bi' ← compile_expression bi expr
  match expr with
  | .Scalar _ => some bi'
  | .Identifier _ _ => some bi'
  | .UnitIdentifier _ _ _ _ => some bi'
  | .FunctionCall _ _ _ => some bi'
  | .UnaryOperator _ _ _ => some bi'
  | .BinaryOperator .ConvertTo _ _ _ => some bi'
  | .Boolean _ => some bi'
  | .Condition _ _ _ => some bi'
  | .BinaryOperator _ _ _ _ => some { bi' with vm := bi'.vm.add_op .FullSimplify }

/-- Outcome of statement compilation: success, a runtime error, or a
panic of the source (`trap`). -/
inductive CResult (Q U : Type) where
  | ok (bi : BytecodeInterpreter Q U)
  | err (e : RuntimeError)
  | trap

/-- Argument lowering with simplification for procedure calls. -/
def compile_args_with_simplify {Q U : Type} (bi : BytecodeInterpreter Q U) :
    List Expression → Option (BytecodeInterpreter Q U)
  | [] => some bi
  | arg :: rest => do
      let bi' ← compile_expression_with_simplify bi arg
      compile_args_with_simplify bi' rest

/-- Statement lowering (`compile_statement`). -/
def compile_statement {Q U : Type} (ops : VmOps Q U) (bi : BytecodeInterpreter Q U) :
    Statement → CResult Q U
  | .Expression expr =>
      match compile_expression_with_simplify bi expr with
      | none => .trap
      | some bi' => .ok { bi' with vm := bi'.vm.add_op .Return }
  | .DefineVariable identifier expr _type_annotation _type =>
      match compile_expression_with_simplify bi expr with
      | none => .trap
      | some bi' =>
          let r := bi'.vm.add_global_identifier identifier none
          .ok { bi' with vm := r.2.add_op1 .SetVariable r.1 }
  | .DefineFunction name _type_parameters parameters (some expr) _ _ =>
      let bi₁ := { bi with
        vm := bi.vm.begin_function name
        local_variables := bi.local_variables ++ parameters.map (fun p => p.1) }
      match compile_expression_with_simplify bi₁ expr with
      | none => .trap
      | some bi₂ =>
          let bi₃ := { bi₂ with vm := bi₂.vm.add_op .Return }
          .ok { bi₃ with
            vm := bi₃.vm.end_function
            local_variables := bi₃.local_variables.take
              (bi₃.local_variables.length - parameters.length) }
  | .DefineFunction name _type_parameters parameters none _ _ =>
      -- a foreign declaration registers name and arity, emits no bytecode
      let is_variadic := parameters.any (fun p => p.2.1)
      let arity_start := if is_variadic then 1 else parameters.length
      let arity_stop := if is_variadic then USIZE_MAX else parameters.length
      match (bi.ffi_functions.find? (fun ff => ff.name == name)) with
      | none => .trap
      | some ff =>
          if ff.arity_start = arity_start ∧ ff.arity_stop = arity_stop then
            .ok { bi with vm :=
              { bi.vm with ffi_callables := bi.vm.ffi_callables ++ [ff] } }
          else .trap
  | .DefineDimension _name _dexprs => .ok bi
  | .DefineBaseUnit unit_name decorators _type_annotation _type =>
      match bi.vm.unit_registry.add_base_unit unit_name with
      | .error e => .err (.UnitRegistryError e)
      | .ok reg' =>
          let bi₁ := { bi with vm := { bi.vm with unit_registry := reg' } }
          let r := bi₁.vm.add_constant (.Unit (ops.new_base_unit unit_name
            (get_canonical_unit_name unit_name decorators)))
          .ok { bi₁ with
            vm := r.2
            unit_name_to_constant_index :=
              ((name_and_aliases unit_name decorators).foldl
                (fun m n => insertAssoc m n r.1) bi₁.unit_name_to_constant_index) }
  | .DefineDerivedUnit unit_name expr decorators _type_annotation =>
      let r := bi.vm.add_constant (.Unit (ops.new_base_unit "<dummy>" "<dummy>"))
      let r₂ := r.2.add_global_identifier unit_name
        (some (get_canonical_unit_name unit_name decorators))
      match compile_expression_with_simplify { bi with vm := r₂.2 } expr with
      | none => .trap
      | some bi' =>
          .ok { bi' with
            vm := bi'.vm.add_op2 .SetUnitConstant r₂.1 r.1
            unit_name_to_constant_index :=
              ((name_and_aliases unit_name decorators).foldl
                (fun m n => insertAssoc m n r.1) bi'.unit_name_to_constant_index) }
  | .ProcedureCall .Type args =>
      match args with
      | [arg] =>
          let type_str := arg.get_type.render
          let r := bi.vm.add_string type_str
          .ok { bi with vm := r.2.add_op1 .PrintString r.1 }
      | _ => .trap
  | .ProcedureCall kind args =>
      match compile_args_with_simplify bi args with
      | none => .trap
      | some bi' =>
          match bi'.vm.get_ffi_callable_idx (procedure_name kind) with
          | none => .trap
          | some idx =>
              .ok { bi' with vm := bi'.vm.add_op2 .FFICallProcedure idx args.length }

/-- Sequential compilation of a statement list, stopping at the first
error or panic. -/
def compile_statements {Q U : Type} (ops : VmOps Q U) (bi : BytecodeInterpreter Q U) :
    List Statement → CResult Q U
  | [] => .ok bi
  | st :: rest =>
      match compile_statement ops bi st with
      | .ok bi' => compile_statements ops bi' rest
      | r => r

/-- `interpret_statements`: an empty statement list yields `NoStatements`
before anything is compiled or run; otherwise every statement is compiled
and the VM is run. -/
def interpret_statements {Q U : Type} (ops : VmOps Q U) (fuel : ℕ)
    (bi : BytecodeInterpreter Q U) (statements : List Statement) :
    RunResult Q × BytecodeInterpreter Q U :=
  if statements.isEmpty then (.err .NoStatements, bi)
  else
    match compile_statements ops bi statements with
    | .ok bi' =>
        let r := VM.run ops fuel bi'.vm
        (r.1, { bi' with vm := r.2 })
    | .err e => (.err e, bi)
    | .trap => (.trap, bi)

/-! Chunk-emission lemmas. -/

theorem listSet_length {α : Type} (l : List α) (i : ℕ) (v : α) (h : i < l.length) :
    (listSet l i v).length = l.length := by
  unfold listSet
  rw [List.length_append, List.length_append, List.length_take, List.length_drop,
    List.length_singleton]
  omega

theorem listSet_at_append {α : Type} (xs : List α) (y : α) (zs : List α) (v : α) :
    listSet (xs ++ y :: zs) xs.length v = xs ++ v :: zs := by
  unfold listSet
  have h1 : (xs ++ y :: zs).take xs.length = xs := List.take_left xs (y :: zs)
  have h2 : (xs ++ y :: zs).drop (xs.length + 1) = zs := by
    have : xs ++ y :: zs = (xs ++ [y]) ++ zs := by simp
    rw [this]
    have hlen : (xs ++ [y]).length = xs.length + 1 := by simp
    rw [← hlen]
    exact List.drop_left (xs ++ [y]) zs
  rw [h1, h2]
  simp

theorem listSet_getElem_self {α : Type} (l : List α) (i : ℕ) (v : α)
    (h : i < l.length) : (listSet l i v)[i]? = some v := by
  unfold listSet
  have hlen : (l.take i).length = i := by
    rw [List.length_take]
    omega
  rw [List.append_assoc, List.getElem?_append_right (by omega : (l.take i).length ≤ i)]
  rw [hlen]
  simp

theorem with_current_chunk_spec {Q U : Type} (s : VM.Vm Q U) (code : List ℕ)
    (hidx : s.current_chunk_index < s.bytecode.length) :
    (s.with_current_chunk code).current_chunk = code ∧
    (s.with_current_chunk code).current_chunk_index = s.current_chunk_index ∧
    (s.with_current_chunk code).bytecode.length = s.bytecode.length := by
  refine ⟨?_, rfl, ?_⟩
  · show ((listSet s.bytecode s.current_chunk_index _).getD s.current_chunk_index ("", [])).2 = code
    have h := listSet_getElem_self s.bytecode s.current_chunk_index
      ((s.bytecode.getD s.current_chunk_index ("", [])).1, code) hidx
    rw [List.getD, List.get?_eq_getElem?, h]
    rfl
  · exact listSet_length _ _ _ hidx

theorem add_op_spec {Q U : Type} (s : VM.Vm Q U) (op : VM.Op)
    (hidx : s.current_chunk_index < s.bytecode.length) :
    (s.add_op op).current_chunk = s.current_chunk ++ [op.toByte] ∧
    (s.add_op op).current_chunk_index = s.current_chunk_index ∧
    (s.add_op op).bytecode.length = s.bytecode.length :=
  with_current_chunk_spec s _ hidx

theorem add_op1_spec {Q U : Type} (s : VM.Vm Q U) (op : VM.Op) (arg : ℕ)
    (hidx : s.current_chunk_index < s.bytecode.length) :
    (s.add_op1 op arg).current_chunk =
      s.current_chunk ++ [op.toByte, u16lo arg, u16hi arg] ∧
    (s.add_op1 op arg).current_chunk_index = s.current_chunk_index ∧
    (s.add_op1 op arg).bytecode.length = s.bytecode.length :=
  with_current_chunk_spec s _ hidx

theorem add_op2_spec {Q U : Type} (s : VM.Vm Q U) (op : VM.Op) (arg1 arg2 : ℕ)
    (hidx : s.current_chunk_index < s.bytecode.length) :
    (s.add_op2 op arg1 arg2).current_chunk =
      s.current_chunk ++ [op.toByte, u16lo arg1, u16hi arg1, u16lo arg2, u16hi arg2] ∧
    (s.add_op2 op arg1 arg2).current_chunk_index = s.current_chunk_index ∧
    (s.add_op2 op arg1 arg2).bytecode.length = s.bytecode.length :=
  with_current_chunk_spec s _ hidx

theorem add_constant_chunk {Q U : Type} (s : VM.Vm Q U) (c : VM.Constant U) :
    (s.add_constant c).2.current_chunk = s.current_chunk ∧
    (s.add_constant c).2.current_chunk_index = s.current_chunk_index ∧
    (s.add_constant c).2.bytecode.length = s.bytecode.length :=
  ⟨rfl, rfl, rfl⟩

theorem add_global_identifier_chunk {Q U : Type} (s : VM.Vm Q U) (identifier : String)
    (canonical : Option String) :
    (s.add_global_identifier identifier canonical).2.current_chunk = s.current_chunk ∧
    (s.add_global_identifier identifier canonical).2.current_chunk_index =
      s.current_chunk_index ∧
    (s.add_global_identifier identifier canonical).2.bytecode.length =
      s.bytecode.length := by
  unfold VM.Vm.add_global_identifier
  cases s.global_identifiers.findIdx? (fun i => i.1 == identifier) <;>
    exact ⟨rfl, rfl, rfl⟩

theorem add_pfx_chunk {Q U : Type} (s : VM.Vm Q U) (p : Pfx) :
    (s.add_pfx p).2.current_chunk = s.current_chunk ∧
    (s.add_pfx p).2.current_chunk_index = s.current_chunk_index ∧
    (s.add_pfx p).2.bytecode.length = s.bytecode.length :=
  ⟨rfl, rfl, rfl⟩

theorem patch_op1_operand {Q U : Type} (s : VM.Vm Q U) (pre post : List ℕ)
    (b x1 x2 value : ℕ)
    (hidx : s.current_chunk_index < s.bytecode.length)
    (hchunk : s.current_chunk = pre ++ b :: x1 :: x2 :: post) :
    (s.patch_u16_value_at (pre.length + 1) value).current_chunk =
      pre ++ b :: u16lo value :: u16hi value :: post ∧
    (s.patch_u16_value_at (pre.length + 1) value).current_chunk_index =
      s.current_chunk_index ∧
    (s.patch_u16_value_at (pre.length + 1) value).bytecode.length =
      s.bytecode.length := by
  have h1 : listSet s.current_chunk (pre.length + 1) (u16lo value) =
      pre ++ b :: u16lo value :: x2 :: post := by
    rw [hchunk]
    have hview : pre ++ b :: x1 :: x2 :: post = (pre ++ [b]) ++ x1 :: x2 :: post := by simp
    have hlen : pre.length + 1 = (pre ++ [b]).length := by simp
    rw [hview, hlen, listSet_at_append]
    simp
  have h2 : listSet (pre ++ b :: u16lo value :: x2 :: post) (pre.length + 1 + 1)
      (u16hi value) = pre ++ b :: u16lo value :: u16hi value :: post := by
    have hview : pre ++ b :: u16lo value :: x2 :: post =
        (pre ++ [b, u16lo value]) ++ x2 :: post := by simp
    have hlen : pre.length + 1 + 1 = (pre ++ [b, u16lo value]).length := by simp
    rw [hview, hlen, listSet_at_append]
    simp
  have := with_current_chunk_spec s
    (listSet (listSet s.current_chunk (pre.length + 1) (u16lo value)) (pre.length + 1 + 1)
      (u16hi value)) hidx
  refine ⟨?_, this.2.1, this.2.2⟩
  rw [show (s.patch_u16_value_at (pre.length + 1) value).current_chunk =
    (s.with_current_chunk (listSet (listSet s.current_chunk (pre.length + 1) (u16lo value))
      (pre.length + 1 + 1) (u16hi value))).current_chunk from rfl]
  rw [this.1, h1, h2]

/-- The emission relation: the later VM compiles the same chunk, has the
same number of chunks, and its current chunk extends the earlier one. -/
def ExtendsV {Q U : Type} (v v' : VM.Vm Q U) : Prop :=
  v'.current_chunk_index = v.current_chunk_index ∧
  v'.bytecode.length = v.bytecode.length ∧
  ∃ suffix, v'.current_chunk = v.current_chunk ++ suffix

theorem ExtendsV.refl {Q U : Type} (v : VM.Vm Q U) : ExtendsV v v :=
  ⟨rfl, rfl, [], by simp⟩

theorem ExtendsV.trans {Q U : Type} {a b c : VM.Vm Q U}
    (h1 : ExtendsV a b) (h2 : ExtendsV b c) : ExtendsV a c := by
  obtain ⟨i1, l1, s1, c1⟩ := h1
  obtain ⟨i2, l2, s2, c2⟩ := h2
  exact ⟨i2.trans i1, l2.trans l1, s1 ++ s2, by rw [c2, c1, List.append_assoc]⟩

theorem ExtendsV.valid {Q U : Type} {v v' : VM.Vm Q U} (h : ExtendsV v v')
    (hidx : v.current_chunk_index < v.bytecode.length) :
    v'.current_chunk_index < v'.bytecode.length := by
  rw [h.1, h.2.1]
  exact hidx

theorem extendsV_add_op {Q U : Type} (s : VM.Vm Q U) (op : VM.Op)
    (hidx : s.current_chunk_index < s.bytecode.length) : ExtendsV s (s.add_op op) :=
  ⟨(add_op_spec s op hidx).2.1, (add_op_spec s op hidx).2.2,
    [op.toByte], (add_op_spec s op hidx).1⟩

theorem extendsV_add_op1 {Q U : Type} (s : VM.Vm Q U) (op : VM.Op) (arg : ℕ)
    (hidx : s.current_chunk_index < s.bytecode.length) : ExtendsV s (s.add_op1 op arg) :=
  ⟨(add_op1_spec s op arg hidx).2.1, (add_op1_spec s op arg hidx).2.2,
    [op.toByte, u16lo arg, u16hi arg], (add_op1_spec s op arg hidx).1⟩

theorem extendsV_add_op2 {Q U : Type} (s : VM.Vm Q U) (op : VM.Op) (arg1 arg2 : ℕ)
    (hidx : s.current_chunk_index < s.bytecode.length) :
    ExtendsV s (s.add_op2 op arg1 arg2) :=
  ⟨(add_op2_spec s op arg1 arg2 hidx).2.1, (add_op2_spec s op arg1 arg2 hidx).2.2,
    _, (add_op2_spec s op arg1 arg2 hidx).1⟩

theorem extendsV_add_constant {Q U : Type} (s : VM.Vm Q U) (c : VM.Constant U) :
    ExtendsV s (s.add_constant c).2 :=
  ⟨rfl, rfl, [], by rw [List.append_nil]; rfl⟩

theorem extendsV_add_global_identifier {Q U : Type} (s : VM.Vm Q U)
    (identifier : String) (canonical : Option String) :
    ExtendsV s (s.add_global_identifier identifier canonical).2 := by
  have h := add_global_identifier_chunk s identifier canonical
  exact ⟨h.2.1, h.2.2, [], by simp [h.1]⟩

theorem extendsV_add_pfx {Q U : Type} (s : VM.Vm Q U) (p : Pfx) :
    ExtendsV s (s.add_pfx p).2 :=
  ⟨rfl, rfl, [], by rw [List.append_nil]; rfl⟩

theorem listSet_append_right {α : Type} (xs ys : List α) (i : ℕ) (v : α)
    (h : xs.length ≤ i) :
    listSet (xs ++ ys) i v = xs ++ listSet ys (i - xs.length) v := by
  unfold listSet
  rw [List.take_append_eq_append_take, List.drop_append_eq_append_drop]
  rw [List.take_of_length_le h, List.drop_eq_nil_of_le (by omega : xs.length ≤ i + 1)]
  have harith : i + 1 - xs.length = (i - xs.length) + 1 := by omega
  rw [harith]
  simp

/-- Patching at or beyond a prefix keeps the prefix intact. -/
theorem extendsV_patch_ge {Q U : Type} (s : VM.Vm Q U) (offset value : ℕ)
    (base : List ℕ)
    (hidx : s.current_chunk_index < s.bytecode.length)
    (hpre : ∃ suf, s.current_chunk = base ++ suf)
    (hoff : base.length ≤ offset) :
    (s.patch_u16_value_at offset value).current_chunk_index = s.current_chunk_index ∧
    (s.patch_u16_value_at offset value).bytecode.length = s.bytecode.length ∧
    ∃ suf, (s.patch_u16_value_at offset value).current_chunk = base ++ suf := by
  obtain ⟨suf, hc⟩ := hpre
  have hspec := with_current_chunk_spec s
    (listSet (listSet s.current_chunk offset (u16lo value)) (offset + 1) (u16hi value)) hidx
  refine ⟨hspec.2.1, hspec.2.2, ?_⟩
  rw [show (s.patch_u16_value_at offset value).current_chunk =
    (s.with_current_chunk (listSet (listSet s.current_chunk offset (u16lo value))
      (offset + 1) (u16hi value))).current_chunk from rfl]
  rw [hspec.1, hc, listSet_append_right _ _ _ _ hoff,
    listSet_append_right _ _ _ _ (by omega : base.length ≤ offset + 1)]
  exact ⟨_, rfl⟩

mutual

/-- Compiling an expression only appends to the chunk being compiled (a
later patch rewrites bytes emitted by the same call, never earlier ones),
and changes neither the chunk under compilation nor the number of chunks. -/
theorem compile_expression_extends {Q U : Type} :
    ∀ (e : Expression) (bi bi' : BytecodeInterpreter Q U),
      compile_expression bi e = some bi' →
      bi.vm.current_chunk_index < bi.vm.bytecode.length →
      ExtendsV bi.vm bi'.vm
  | .Scalar n, bi, bi', h, hidx => by
    simp only [compile_expression] at h
    cases h
    exact (extendsV_add_constant bi.vm _).trans
      (extendsV_add_op1 _ _ _ ((extendsV_add_constant bi.vm _).valid hidx))
  | .Identifier name t, bi, bi', h, hidx => by
    simp only [compile_expression] at h
    cases hfind : bi.local_variables.findIdx? (fun n => n == name) with
    | some position =>
      rw [hfind] at h
      cases h
      exact extendsV_add_op1 _ _ _ hidx
    | none =>
      rw [hfind] at h
      cases h
      exact (extendsV_add_global_identifier bi.vm _ _).trans
        (extendsV_add_op1 _ _ _ ((extendsV_add_global_identifier bi.vm _ _).valid hidx))
  | .UnitIdentifier pfx name full t, bi, bi', h, hidx => by
    simp only [compile_expression] at h
    cases hfind : lookup bi.unit_name_to_constant_index name with
    | none => rw [hfind] at h; cases h
    | some index =>
      rw [hfind] at h
      dsimp only at h
      by_cases hp : pfx ≠ Pfx.nonePfx
      · rw [if_pos hp] at h
        cases h
        have e1 := extendsV_add_op1 bi.vm .LoadConstant index hidx
        have e2 := extendsV_add_pfx (bi.vm.add_op1 .LoadConstant index) pfx
        have e3 := extendsV_add_op1 ((bi.vm.add_op1 .LoadConstant index).add_pfx pfx).2
          .ApplyPfx ((bi.vm.add_op1 .LoadConstant index).add_pfx pfx).1
          (e2.valid (e1.valid hidx))
        exact (e1.trans e2).trans e3
      · rw [if_neg hp] at h
        cases h
        exact extendsV_add_op1 _ _ _ hidx
  | .UnaryOperator .Negate rhs t, bi, bi', h, hidx => by
    simp only [compile_expression] at h
    cases hx : compile_expression bi rhs with
    | none => rw [hx] at h; cases h
    | some bi₁ =>
      rw [hx] at h
      simp only [Option.bind_eq_bind, Option.some_bind] at h
      cases h
      have ih := compile_expression_extends rhs bi bi₁ hx hidx
      exact ih.trans (extendsV_add_op _ _ (ih.valid hidx))
  | .UnaryOperator .Factorial lhs t, bi, bi', h, hidx => by
    simp only [compile_expression] at h
    cases hx : compile_expression bi lhs with
    | none => rw [hx] at h; cases h
    | some bi₁ =>
      rw [hx] at h
      simp only [Option.bind_eq_bind, Option.some_bind] at h
      cases h
      have ih := compile_expression_extends lhs bi bi₁ hx hidx
      exact ih.trans (extendsV_add_op _ _ (ih.valid hidx))
  | .BinaryOperator operator lhs rhs t, bi, bi', h, hidx => by
    simp only [compile_expression] at h
    cases hx : compile_expression bi lhs with
    | none => rw [hx] at h; cases h
    | some bi₁ =>
      rw [hx] at h
      simp only [Option.bind_eq_bind, Option.some_bind] at h
      cases hy : compile_expression bi₁ rhs with
      | none => rw [hy] at h; cases h
      | some bi₂ =>
        rw [hy] at h
        simp only [Option.bind_eq_bind, Option.some_bind] at h
        cases h
        have ih1 := compile_expression_extends lhs bi bi₁ hx hidx
        have ih2 := compile_expression_extends rhs bi₁ bi₂ hy (ih1.valid hidx)
        exact (ih1.trans ih2).trans
          (extendsV_add_op _ _ ((ih1.trans ih2).valid hidx))
  | .FunctionCall name args t, bi, bi', h, hidx => by
    simp only [compile_expression] at h
    cases hx : compile_args bi args with
    | none => rw [hx] at h; cases h
    | some bi₁ =>
      rw [hx] at h
      simp only [Option.bind_eq_bind, Option.some_bind] at h
      have ih := compile_args_extends args bi bi₁ hx hidx
      cases hffi : bi₁.vm.get_ffi_callable_idx name with
      | some idx =>
        rw [hffi] at h
        cases h
        exact ih.trans (extendsV_add_op2 _ _ _ _ (ih.valid hidx))
      | none =>
        rw [hffi] at h
        cases hfn : bi₁.vm.get_function_idx name with
        | none => rw [hfn] at h; cases h
        | some idx =>
          rw [hfn] at h
          cases h
          exact ih.trans (extendsV_add_op2 _ _ _ _ (ih.valid hidx))
  | .Boolean val, bi, bi', h, hidx => by
    simp only [compile_expression] at h
    cases h
    exact (extendsV_add_constant bi.vm _).trans
      (extendsV_add_op1 _ _ _ ((extendsV_add_constant bi.vm _).valid hidx))
  | .Condition condition then_expr else_expr, bi, bi', h, hidx => by
    simp only [compile_expression] at h
    cases hc : compile_expression bi condition with
    | none => rw [hc] at h; cases h
    | some bi₁ =>
      rw [hc] at h
      simp only [Option.bind_eq_bind, Option.some_bind] at h
      have ih1 := compile_expression_extends condition bi bi₁ hc hidx
      have hv1 := ih1.valid hidx
      have ej : ExtendsV bi₁.vm (bi₁.vm.add_op1 .JumpIfFalse 0xffff) :=
        extendsV_add_op1 _ _ _ hv1
      have hv2 := ej.valid hv1
      cases ha : compile_expression { bi₁ with vm := bi₁.vm.add_op1 .JumpIfFalse 0xffff }
          then_expr with
      | none => rw [ha] at h; cases h
      | some bi₃ =>
        rw [ha] at h
        simp only [Option.bind_eq_bind, Option.some_bind] at h
        have ih2 := compile_expression_extends then_expr _ bi₃ ha hv2
        have hv3 := ih2.valid hv2
        have ej2 : ExtendsV bi₃.vm (bi₃.vm.add_op1 .Jump 0xffff) :=
          extendsV_add_op1 _ _ _ hv3
        have hv4 := ej2.valid hv3
        have base_ext : ExtendsV bi.vm (bi₃.vm.add_op1 .Jump 0xffff) :=
          ((ih1.trans ej).trans ih2).trans ej2
        have hbase_len : bi.vm.current_chunk.length ≤ bi₁.vm.current_offset + 1 := by
          obtain ⟨suf, hsuf⟩ := ih1.2.2
          show bi.vm.current_chunk.length ≤ bi₁.vm.current_chunk.length + 1
          rw [hsuf, List.length_append]
          omega
        have hpatch := extendsV_patch_ge (bi₃.vm.add_op1 .Jump 0xffff)
          (bi₁.vm.current_offset + 1)
          ((bi₃.vm.add_op1 .Jump 0xffff).current_offset - (bi₁.vm.current_offset + 1 + 2))
          bi.vm.current_chunk hv4 base_ext.2.2 hbase_len
        have patch_ext : ExtendsV bi.vm
            ((bi₃.vm.add_op1 .Jump 0xffff).patch_u16_value_at (bi₁.vm.current_offset + 1)
              ((bi₃.vm.add_op1 .Jump 0xffff).current_offset -
                (bi₁.vm.current_offset + 1 + 2))) :=
          ⟨hpatch.1.trans base_ext.1, hpatch.2.1.trans base_ext.2.1, hpatch.2.2⟩
        have hv5 : (((bi₃.vm.add_op1 .Jump 0xffff).patch_u16_value_at
            (bi₁.vm.current_offset + 1)
            ((bi₃.vm.add_op1 .Jump 0xffff).current_offset -
              (bi₁.vm.current_offset + 1 + 2)))).current_chunk_index <
            (((bi₃.vm.add_op1 .Jump 0xffff).patch_u16_value_at
            (bi₁.vm.current_offset + 1)
            ((bi₃.vm.add_op1 .Jump 0xffff).current_offset -
              (bi₁.vm.current_offset + 1 + 2)))).bytecode.length :=
          patch_ext.valid hidx
        cases hb : compile_expression { bi₃ with vm :=
            ((bi₃.vm.add_op1 .Jump 0xffff).patch_u16_value_at (bi₁.vm.current_offset + 1)
              ((bi₃.vm.add_op1 .Jump 0xffff).current_offset -
                (bi₁.vm.current_offset + 1 + 2))) } else_expr with
        | none => rw [hb] at h; cases h
        | some bi₆ =>
          rw [hb] at h
          simp only [Option.bind_eq_bind, Option.some_bind] at h
          cases h
          have ih3 := compile_expression_extends else_expr _ bi₆ hb hv5
          have else_ext : ExtendsV bi.vm bi₆.vm := patch_ext.trans ih3
          have hv6 := else_ext.valid hidx
          have hbase_len2 : bi.vm.current_chunk.length ≤ bi₃.vm.current_offset + 1 := by
            obtain ⟨suf, hsuf⟩ := ((ih1.trans ej).trans ih2).2.2
            show bi.vm.current_chunk.length ≤ bi₃.vm.current_chunk.length + 1
            rw [hsuf, List.length_append]
            omega
          have hpatch2 := extendsV_patch_ge bi₆.vm (bi₃.vm.current_offset + 1)
            (bi₆.vm.current_offset - (bi₃.vm.current_offset + 1 + 2))
            bi.vm.current_chunk hv6 else_ext.2.2 hbase_len2
          exact ⟨hpatch2.1.trans else_ext.1, hpatch2.2.1.trans else_ext.2.1, hpatch2.2.2⟩

/-- Compiling an argument list only appends to the chunk being compiled. -/
theorem compile_args_extends {Q U : Type} :
    ∀ (args : List Expression) (bi bi' : BytecodeInterpreter Q U),
      compile_args bi args = some bi' →
      bi.vm.current_chunk_index < bi.vm.bytecode.length →
      ExtendsV bi.vm bi'.vm
  | [], bi, bi', h, _ => by
    simp only [compile_args] at h
    cases h
    exact ExtendsV.refl _
  | arg :: rest, bi, bi', h, hidx => by
    simp only [compile_args] at h
    cases hx : compile_expression bi arg with
    | none => rw [hx] at h; cases h
    | some bi₁ =>
      rw [hx] at h
      simp only [Option.bind_eq_bind, Option.some_bind] at h
      have ih1 := compile_expression_extends arg bi bi₁ hx hidx
      have ih2 := compile_args_extends rest bi₁ bi' h (ih1.valid hidx)
      exact ih1.trans ih2

end

/-- C7: for every expression compiled in top-level position the compiler
appends a FullSimplify opcode after the expression's code if and only if
the expression is a binary operator other than ConvertTo; scalars,
identifiers, unit identifiers, function calls, unary operators, booleans,
conditionals, and ConvertTo binaries get no FullSimplify. -/
theorem full_simplify_emission {Q U : Type} (bi bi' : BytecodeInterpreter Q U)
    (e : Expression)
    (h : compile_expression bi e = some bi')
    (hidx : bi.vm.current_chunk_index < bi.vm.bytecode.length) :
    ((∃ op lhs rhs t, e = .BinaryOperator op lhs rhs t ∧ op ≠ .ConvertTo) →
      compile_expression_with_simplify bi e =
        some { bi' with vm := bi'.vm.add_op .FullSimplify } ∧
      { bi' with vm := bi'.vm.add_op .FullSimplify }.vm.current_chunk =
        bi'.vm.current_chunk ++ [VM.Op.toByte .FullSimplify]) ∧
    ((∀ op lhs rhs t, e = .BinaryOperator op lhs rhs t → op = .ConvertTo) →
      compile_expression_with_simplify bi e = some bi') := by
  constructor
  · rintro ⟨op, lhs, rhs, t, rfl, hne⟩
    have hidx' : bi'.vm.current_chunk_index < bi'.vm.bytecode.length :=
      (compile_expression_extends _ bi bi' h hidx).valid hidx
    refine ⟨?_, (add_op_spec bi'.vm .FullSimplify hidx').1⟩
    cases op <;>
      simp [compile_expression_with_simplify, h, Bind.bind, Option.bind]
    exact absurd rfl hne
  · intro hconv
    cases e with
    | BinaryOperator op lhs rhs t =>
      have := hconv op lhs rhs t rfl
      subst this
      simp [compile_expression_with_simplify, h, Bind.bind, Option.bind]
    | Scalar n => simp [compile_expression_with_simplify, h, Bind.bind, Option.bind]
    | Identifier name t => simp [compile_expression_with_simplify, h, Bind.bind, Option.bind]
    | UnitIdentifier pfx name full t =>
      simp [compile_expression_with_simplify, h, Bind.bind, Option.bind]
    | UnaryOperator op expr t =>
      simp [compile_expression_with_simplify, h, Bind.bind, Option.bind]
    | FunctionCall name args t =>
      simp [compile_expression_with_simplify, h, Bind.bind, Option.bind]
    | Boolean v => simp [compile_expression_with_simplify, h, Bind.bind, Option.bind]
    | Condition c a b => simp [compile_expression_with_simplify, h, Bind.bind, Option.bind]

/-- Fresh compiler state over the rational quantity kernel. -/
def compileWitnessBI : BytecodeInterpreter ℚ Unit :=
  { vm := Vm.new ℚ Unit []
    local_variables := []
    unit_name_to_constant_index := []
    ffi_functions := [] }

/-- Witness for full_simplify_emission: `1 + 2` gets a FullSimplify, a
ConvertTo binary does not. -/
theorem full_simplify_emission_witness :
    (∃ bi' : BytecodeInterpreter ℚ Unit,
      compile_expression compileWitnessBI
        (.BinaryOperator .Add (.Scalar 1) (.Scalar 2)
          (.Dimension BaseRepresentation.unity)) = some bi' ∧
      compile_expression_with_simplify compileWitnessBI
        (.BinaryOperator .Add (.Scalar 1) (.Scalar 2)
          (.Dimension BaseRepresentation.unity)) =
        some { bi' with vm := bi'.vm.add_op .FullSimplify } ∧
      { bi' with vm := bi'.vm.add_op .FullSimplify }.vm.current_chunk =
        bi'.vm.current_chunk ++ [16]) ∧
    (∃ bi' : BytecodeInterpreter ℚ Unit,
      compile_expression compileWitnessBI
        (.BinaryOperator .ConvertTo (.Scalar 1) (.Scalar 2)
          (.Dimension BaseRepresentation.unity)) = some bi' ∧
      compile_expression_with_simplify compileWitnessBI
        (.BinaryOperator .ConvertTo (.Scalar 1) (.Scalar 2)
          (.Dimension BaseRepresentation.unity)) = some bi') := by
  constructor
  · obtain ⟨bi', hbi'⟩ : ∃ bi', compile_expression compileWitnessBI
        (.BinaryOperator .Add (.Scalar 1) (.Scalar 2)
          (.Dimension BaseRepresentation.unity)) = some bi' := ⟨_, rfl⟩
    exact ⟨bi', hbi',
      ((full_simplify_emission compileWitnessBI bi' _ hbi' (by decide)).1
        ⟨.Add, _, _, _, rfl, by decide⟩).1,
      ((full_simplify_emission compileWitnessBI bi' _ hbi' (by decide)).1
        ⟨.Add, _, _, _, rfl, by decide⟩).2⟩
  · obtain ⟨bi', hbi'⟩ : ∃ bi', compile_expression compileWitnessBI
        (.BinaryOperator .ConvertTo (.Scalar 1) (.Scalar 2)
          (.Dimension BaseRepresentation.unity)) = some bi' := ⟨_, rfl⟩
    exact ⟨bi', hbi',
      (full_simplify_emission compileWitnessBI bi' _ hbi' (by decide)).2
        (fun op lhs rhs t heq => by cases heq; rfl)⟩

/-- C8: for every conditional expression `if c then a else b`, the
compiler emits the code of c, then a JumpIfFalse whose 2-byte operand is
initially the placeholder 0xFFFF, then the code of a, then a Jump with
placeholder operand, and patches both operands so that each jump offset is
the relative byte distance from the byte immediately after the jump's
2-byte operand to the jump target — the start of b for the JumpIfFalse
(a byte distance of |a| + 3) and the end of the conditional for the Jump
(a byte distance of |b|) — written as truncated little-endian u16 values. -/
theorem condition_jump_patching {Q U : Type}
    (bi bi' : BytecodeInterpreter Q U) (c a b : Expression)
    (h : compile_expression bi (.Condition c a b) = some bi')
    (hidx : bi.vm.current_chunk_index < bi.vm.bytecode.length) :
    ∃ (bi₁ bi₃ bi₆ : BytecodeInterpreter Q U) (C A B : List ℕ),
      compile_expression bi c = some bi₁ ∧
      bi₁.vm.current_chunk = bi.vm.current_chunk ++ C ∧
      (bi₁.vm.add_op1 .JumpIfFalse 0xffff).current_chunk =
        bi.vm.current_chunk ++ C ++ [VM.Op.toByte .JumpIfFalse, 255, 255] ∧
      compile_expression { bi₁ with vm := bi₁.vm.add_op1 .JumpIfFalse 0xffff } a =
        some bi₃ ∧
      bi₃.vm.current_chunk =
        bi.vm.current_chunk ++ C ++ [VM.Op.toByte .JumpIfFalse, 255, 255] ++ A ∧
      compile_expression { bi₃ with vm :=
        ((bi₃.vm.add_op1 .Jump 0xffff).patch_u16_value_at (bi₁.vm.current_offset + 1)
          ((bi₃.vm.add_op1 .Jump 0xffff).current_offset -
            (bi₁.vm.current_offset + 1 + 2))) } b = some bi₆ ∧
      bi₆.vm.current_chunk =
        bi.vm.current_chunk ++ C ++
          [VM.Op.toByte .JumpIfFalse, u16lo (A.length + 3), u16hi (A.length + 3)] ++ A ++
          [VM.Op.toByte .Jump, 255, 255] ++ B ∧
      bi'.vm.current_chunk =
        bi.vm.current_chunk ++ C ++
          [VM.Op.toByte .JumpIfFalse, u16lo (A.length + 3), u16hi (A.length + 3)] ++ A ++
          [VM.Op.toByte .Jump, u16lo B.length, u16hi B.length] ++ B := by
  simp only [compile_expression] at h
  cases hc : compile_expression bi c with
  | none => rw [hc] at h; cases h
  | some bi₁ =>
  rw [hc] at h
  simp only [Option.bind_eq_bind, Option.some_bind] at h
  have ih1 := compile_expression_extends c bi bi₁ hc hidx
  have hv1 := ih1.valid hidx
  obtain ⟨C, hC⟩ := ih1.2.2
  have ej := extendsV_add_op1 bi₁.vm .JumpIfFalse 0xffff hv1
  have hv2 := ej.valid hv1
  have hChunk2 : (bi₁.vm.add_op1 .JumpIfFalse 0xffff).current_chunk =
      bi.vm.current_chunk ++ C ++ [VM.Op.toByte .JumpIfFalse, 255, 255] := by
    rw [(add_op1_spec bi₁.vm .JumpIfFalse 0xffff hv1).1, hC]
    rfl
  cases ha : compile_expression { bi₁ with vm := bi₁.vm.add_op1 .JumpIfFalse 0xffff } a with
  | none => rw [ha] at h; cases h
  | some bi₃ =>
  rw [ha] at h
  simp only [Option.bind_eq_bind, Option.some_bind] at h
  have ih2 := compile_expression_extends a _ bi₃ ha hv2
  have hv3 := ih2.valid hv2
  obtain ⟨A, hA0⟩ := ih2.2.2
  have hA : bi₃.vm.current_chunk =
      bi.vm.current_chunk ++ C ++ [VM.Op.toByte .JumpIfFalse, 255, 255] ++ A := by
    rw [hA0]
    show (bi₁.vm.add_op1 .JumpIfFalse 0xffff).current_chunk ++ A = _
    rw [hChunk2]
  have ej2 := extendsV_add_op1 bi₃.vm .Jump 0xffff hv3
  have hv4 := ej2.valid hv3
  have hChunk4 : (bi₃.vm.add_op1 .Jump 0xffff).current_chunk =
      bi.vm.current_chunk ++ C ++ [VM.Op.toByte .JumpIfFalse, 255, 255] ++ A ++
        [VM.Op.toByte .Jump, 255, 255] := by
    rw [(add_op1_spec bi₃.vm .Jump 0xffff hv3).1, hA]
    rfl
  -- the first patch: operand of the JumpIfFalse
  have hoff1 : bi₁.vm.current_offset = (bi.vm.current_chunk ++ C).length := by
    show bi₁.vm.current_chunk.length = _
    rw [hC]
  have hshape4 : (bi₃.vm.add_op1 .Jump 0xffff).current_chunk =
      (bi.vm.current_chunk ++ C) ++ VM.Op.toByte .JumpIfFalse :: 255 :: 255 ::
        (A ++ [VM.Op.toByte .Jump, 255, 255]) := by
    rw [hChunk4]
    simp
  have hval1 : (bi₃.vm.add_op1 .Jump 0xffff).current_offset -
      (bi₁.vm.current_offset + 1 + 2) = A.length + 3 := by
    show (bi₃.vm.add_op1 .Jump 0xffff).current_chunk.length - _ = _
    rw [hChunk4, hoff1]
    simp only [List.length_append, List.length_cons, List.length_nil]
    omega
  have hpatch1 := patch_op1_operand (bi₃.vm.add_op1 .Jump 0xffff)
    (bi.vm.current_chunk ++ C) (A ++ [VM.Op.toByte .Jump, 255, 255])
    (VM.Op.toByte .JumpIfFalse) 255 255
    ((bi₃.vm.add_op1 .Jump 0xffff).current_offset - (bi₁.vm.current_offset + 1 + 2))
    hv4 hshape4
  rw [hval1] at hpatch1
  have hv5 : ((bi₃.vm.add_op1 .Jump 0xffff).patch_u16_value_at
      (bi₁.vm.current_offset + 1)
      ((bi₃.vm.add_op1 .Jump 0xffff).current_offset -
        (bi₁.vm.current_offset + 1 + 2))).current_chunk_index <
      ((bi₃.vm.add_op1 .Jump 0xffff).patch_u16_value_at
      (bi₁.vm.current_offset + 1)
      ((bi₃.vm.add_op1 .Jump 0xffff).current_offset -
        (bi₁.vm.current_offset + 1 + 2))).bytecode.length := by
    rw [hval1, hoff1, hpatch1.2.1, hpatch1.2.2]
    exact hv4
  cases hb : compile_expression { bi₃ with vm :=
      ((bi₃.vm.add_op1 .Jump 0xffff).patch_u16_value_at (bi₁.vm.current_offset + 1)
        ((bi₃.vm.add_op1 .Jump 0xffff).current_offset -
          (bi₁.vm.current_offset + 1 + 2))) } b with
  | none => rw [hb] at h; cases h
  | some bi₆ =>
  rw [hb] at h
  simp only [Option.bind_eq_bind, Option.some_bind] at h
  cases h
  have ih3 := compile_expression_extends b _ bi₆ hb hv5
  have hv6 := ih3.valid hv5
  obtain ⟨B, hB0⟩ := ih3.2.2
  have hB : bi₆.vm.current_chunk =
      bi.vm.current_chunk ++ C ++
        [VM.Op.toByte .JumpIfFalse, u16lo (A.length + 3), u16hi (A.length + 3)] ++ A ++
        [VM.Op.toByte .Jump, 255, 255] ++ B := by
    rw [hB0]
    show ((bi₃.vm.add_op1 .Jump 0xffff).patch_u16_value_at (bi₁.vm.current_offset + 1)
        ((bi₃.vm.add_op1 .Jump 0xffff).current_offset -
          (bi₁.vm.current_offset + 1 + 2))).current_chunk ++ B = _
    rw [hval1, hoff1, hpatch1.1]
    simp
  -- the second patch: operand of the Jump
  have hoff2 : bi₃.vm.current_offset + 1 =
      (bi.vm.current_chunk ++ C ++
        [VM.Op.toByte .JumpIfFalse, u16lo (A.length + 3), u16hi (A.length + 3)] ++
        A).length + 1 := by
    show bi₃.vm.current_chunk.length + 1 = _
    rw [hA]
    simp only [List.length_append, List.length_cons, List.length_nil]
  have hshape6 : bi₆.vm.current_chunk =
      (bi.vm.current_chunk ++ C ++
        [VM.Op.toByte .JumpIfFalse, u16lo (A.length + 3), u16hi (A.length + 3)] ++ A) ++
        VM.Op.toByte .Jump :: 255 :: 255 :: B := by
    rw [hB]
    simp
  have hval2 : bi₆.vm.current_offset - (bi₃.vm.current_offset + 1 + 2) = B.length := by
    show bi₆.vm.current_chunk.length - _ = _
    rw [hB]
    have : bi₃.vm.current_offset = bi₃.vm.current_chunk.length := rfl
    rw [this, hA]
    simp only [List.length_append, List.length_cons, List.length_nil]
    omega
  have hpatch2 := patch_op1_operand bi₆.vm
    (bi.vm.current_chunk ++ C ++
      [VM.Op.toByte .JumpIfFalse, u16lo (A.length + 3), u16hi (A.length + 3)] ++ A)
    B (VM.Op.toByte .Jump) 255 255
    (bi₆.vm.current_offset - (bi₃.vm.current_offset + 1 + 2))
    hv6 hshape6
  rw [hval2] at hpatch2
  refine ⟨bi₁, bi₃, bi₆, C, A, B, rfl, hC, hChunk2, ha, hA, hb, hB, ?_⟩
  show ((bi₆.vm.patch_u16_value_at (bi₃.vm.current_offset + 1)
      (bi₆.vm.current_offset - (bi₃.vm.current_offset + 1 + 2)))).current_chunk = _
  rw [hval2, hoff2, hpatch2.1]
  simp

/-- Witness for condition_jump_patching: compiling `if true then 1 else 2`
from a fresh compiler state. -/
theorem condition_jump_patching_witness :
    ∃ bi' : BytecodeInterpreter ℚ Unit,
      compile_expression compileWitnessBI
        (.Condition (.Boolean true) (.Scalar 1) (.Scalar 2)) = some bi' ∧
      ∃ (bi₁ bi₃ bi₆ : BytecodeInterpreter ℚ Unit) (C A B : List ℕ),
        compile_expression compileWitnessBI (.Boolean true) = some bi₁ ∧
        bi₁.vm.current_chunk = compileWitnessBI.vm.current_chunk ++ C ∧
        (bi₁.vm.add_op1 .JumpIfFalse 0xffff).current_chunk =
          compileWitnessBI.vm.current_chunk ++ C ++
            [VM.Op.toByte .JumpIfFalse, 255, 255] ∧
        compile_expression { bi₁ with vm := bi₁.vm.add_op1 .JumpIfFalse 0xffff }
          (.Scalar 1) = some bi₃ ∧
        bi₃.vm.current_chunk =
          compileWitnessBI.vm.current_chunk ++ C ++
            [VM.Op.toByte .JumpIfFalse, 255, 255] ++ A ∧
        compile_expression { bi₃ with vm :=
          ((bi₃.vm.add_op1 .Jump 0xffff).patch_u16_value_at
            (bi₁.vm.current_offset + 1)
            ((bi₃.vm.add_op1 .Jump 0xffff).current_offset -
              (bi₁.vm.current_offset + 1 + 2))) } (.Scalar 2) = some bi₆ ∧
        bi₆.vm.current_chunk =
          compileWitnessBI.vm.current_chunk ++ C ++
            [VM.Op.toByte .JumpIfFalse, u16lo (A.length + 3),
              u16hi (A.length + 3)] ++ A ++
            [VM.Op.toByte .Jump, 255, 255] ++ B ∧
        bi'.vm.current_chunk =
          compileWitnessBI.vm.current_chunk ++ C ++
            [VM.Op.toByte .JumpIfFalse, u16lo (A.length + 3),
              u16hi (A.length + 3)] ++ A ++
            [VM.Op.toByte .Jump, u16lo B.length, u16hi B.length] ++ B := by
  obtain ⟨bi', hbi'⟩ : ∃ bi', compile_expression compileWitnessBI
      (.Condition (.Boolean true) (.Scalar 1) (.Scalar 2)) = some bi' := ⟨_, rfl⟩
  exact ⟨bi', hbi',
    condition_jump_patching compileWitnessBI bi' (.Boolean true) (.Scalar 1)
      (.Scalar 2) hbi' (by decide)⟩

/-! Lemmas for the `interpret_statements` entry point: compilation
touches the FFI tables only by registering foreign functions taken from
the process-wide table, and the only runtime error statement compilation
itself can produce is a unit-registration failure. -/

theorem add_global_identifier_ffi {Q U : Type} (s : Vm Q U)
    (identifier : String) (cn : Option String) :
    (s.add_global_identifier identifier cn).2.ffi_callables =
      s.ffi_callables := by
  unfold Vm.add_global_identifier
  split <;> rfl

mutual

theorem compile_expression_ffi {Q U : Type} :
    ∀ (e : Expression) (bi bi' : BytecodeInterpreter Q U),
      compile_expression bi e = some bi' →
      bi'.vm.ffi_callables = bi.vm.ffi_callables ∧
        bi'.ffi_functions = bi.ffi_functions
  | .Scalar n, bi, bi', h => by
    simp only [compile_expression] at h
    cases h
    exact ⟨rfl, rfl⟩
  | .Identifier name t, bi, bi', h => by
    simp only [compile_expression] at h
    cases hfind : bi.local_variables.findIdx? (fun n => n == name) with
    | some position =>
      rw [hfind] at h
      cases h
      exact ⟨rfl, rfl⟩
    | none =>
      rw [hfind] at h
      cases h
      exact ⟨add_global_identifier_ffi bi.vm name none, rfl⟩
  | .UnitIdentifier pfx name full t, bi, bi', h => by
    simp only [compile_expression] at h
    cases hfind : lookup bi.unit_name_to_constant_index name with
    | none => rw [hfind] at h; cases h
    | some index =>
      rw [hfind] at h
      dsimp only at h
      by_cases hp : pfx ≠ Pfx.nonePfx
      · rw [if_pos hp] at h
        cases h
        exact ⟨rfl, rfl⟩
      · rw [if_neg hp] at h
        cases h
        exact ⟨rfl, rfl⟩
  | .UnaryOperator .Negate rhs t, bi, bi', h => by
    simp only [compile_expression] at h
    cases hx : compile_expression bi rhs with
    | none => rw [hx] at h; cases h
    | some bi₁ =>
      rw [hx] at h
      simp only [Option.bind_eq_bind, Option.some_bind] at h
      cases h
      exact compile_expression_ffi rhs bi bi₁ hx
  | .UnaryOperator .Factorial lhs t, bi, bi', h => by
    simp only [compile_expression] at h
    cases hx : compile_expression bi lhs with
    | none => rw [hx] at h; cases h
    | some bi₁ =>
      rw [hx] at h
      simp only [Option.bind_eq_bind, Option.some_bind] at h
      cases h
      exact compile_expression_ffi lhs bi bi₁ hx
  | .BinaryOperator operator lhs rhs t, bi, bi', h => by
    simp only [compile_expression] at h
    cases hx : compile_expression bi lhs with
    | none => rw [hx] at h; cases h
    | some bi₁ =>
      rw [hx] at h
      simp only [Option.bind_eq_bind, Option.some_bind] at h
      cases hy : compile_expression bi₁ rhs with
      | none => rw [hy] at h; cases h
      | some bi₂ =>
        rw [hy] at h
        simp only [Option.bind_eq_bind, Option.some_bind] at h
        cases h
        have ih1 := compile_expression_ffi lhs bi bi₁ hx
        have ih2 := compile_expression_ffi rhs bi₁ bi₂ hy
        exact ⟨ih2.1.trans ih1.1, ih2.2.trans ih1.2⟩
  | .FunctionCall name args t, bi, bi', h => by
    simp only [compile_expression] at h
    cases hx : compile_args bi args with
    | none => rw [hx] at h; cases h
    | some bi₁ =>
      rw [hx] at h
      simp only [Option.bind_eq_bind, Option.some_bind] at h
      have ih := compile_args_ffi args bi bi₁ hx
      cases hidx : bi₁.vm.get_ffi_callable_idx name with
      | some idx =>
        rw [hidx] at h
        cases h
        exact ih
      | none =>
        rw [hidx] at h
        dsimp only at h
        cases hfn : bi₁.vm.get_function_idx name with
        | none => rw [hfn] at h; cases h
        | some idx =>
          rw [hfn] at h
          cases h
          exact ih
  | .Boolean val, bi, bi', h => by
    simp only [compile_expression] at h
    cases h
    exact ⟨rfl, rfl⟩
  | .Condition c a b, bi, bi', h => by
    simp only [compile_expression] at h
    cases hc : compile_expression bi c with
    | none => rw [hc] at h; cases h
    | some bi₁ =>
      rw [hc] at h
      simp only [Option.bind_eq_bind, Option.some_bind] at h
      cases ha : compile_expression
          { bi₁ with vm := bi₁.vm.add_op1 .JumpIfFalse 0xffff } a with
      | none => rw [ha] at h; cases h
      | some bi₃ =>
        rw [ha] at h
        simp only [Option.bind_eq_bind, Option.some_bind] at h
        cases hb : compile_expression { bi₃ with vm :=
            ((bi₃.vm.add_op1 .Jump 0xffff).patch_u16_value_at
              (bi₁.vm.current_offset + 1)
              ((bi₃.vm.add_op1 .Jump 0xffff).current_offset -
                (bi₁.vm.current_offset + 1 + 2))) } b with
        | none => rw [hb] at h; cases h
        | some bi₆ =>
          rw [hb] at h
          simp only [Option.bind_eq_bind, Option.some_bind] at h
          cases h
          have ih1 := compile_expression_ffi c bi bi₁ hc
          have ih2 := compile_expression_ffi a _ bi₃ ha
          have ih3 := compile_expression_ffi b _ bi₆ hb
          exact ⟨(ih3.1.trans ih2.1).trans ih1.1,
            (ih3.2.trans ih2.2).trans ih1.2⟩

theorem compile_args_ffi {Q U : Type} :
    ∀ (args : List Expression) (bi bi' : BytecodeInterpreter Q U),
      compile_args bi args = some bi' →
      bi'.vm.ffi_callables = bi.vm.ffi_callables ∧
        bi'.ffi_functions = bi.ffi_functions
  | [], bi, bi', h => by
    simp only [compile_args] at h
    cases h
    exact ⟨rfl, rfl⟩
  | arg :: rest, bi, bi', h => by
    simp only [compile_args] at h
    cases hx : compile_expression bi arg with
    | none => rw [hx] at h; cases h
    | some bi₁ =>
      rw [hx] at h
      simp only [Option.bind_eq_bind, Option.some_bind] at h
      have ih1 := compile_expression_ffi arg bi bi₁ hx
      have ih2 := compile_args_ffi rest bi₁ bi' h
      exact ⟨ih2.1.trans ih1.1, ih2.2.trans ih1.2⟩

end

theorem compile_expression_with_simplify_ffi {Q U : Type}
    (bi bi' : BytecodeInterpreter Q U) (e : Expression)
    (h : compile_expression_with_simplify bi e = some bi') :
    bi'.vm.ffi_callables = bi.vm.ffi_callables ∧
      bi'.ffi_functions = bi.ffi_functions := by
  unfold compile_expression_with_simplify at h
  cases hx : compile_expression bi e with
  | none => rw [hx] at h; cases h
  | some bi₁ =>
    rw [hx] at h
    simp only [Option.bind_eq_bind, Option.some_bind] at h
    have ih := compile_expression_ffi e bi bi₁ hx
    cases e <;>
      first
        | (cases h; exact ih)
        | (rename_i op lhs rhs t
           cases op <;> (cases h; exact ih))

theorem compile_args_with_simplify_ffi {Q U : Type} :
    ∀ (args : List Expression) (bi bi' : BytecodeInterpreter Q U),
      compile_args_with_simplify bi args = some bi' →
      bi'.vm.ffi_callables = bi.vm.ffi_callables ∧
        bi'.ffi_functions = bi.ffi_functions
  | [], bi, bi', h => by
    simp only [compile_args_with_simplify] at h
    cases h
    exact ⟨rfl, rfl⟩
  | arg :: rest, bi, bi', h => by
    simp only [compile_args_with_simplify] at h
    cases hx : compile_expression_with_simplify bi arg with
    | none => rw [hx] at h; cases h
    | some bi₁ =>
      rw [hx] at h
      simp only [Option.bind_eq_bind, Option.some_bind] at h
      have ih1 := compile_expression_with_simplify_ffi bi bi₁ arg hx
      have ih2 := compile_args_with_simplify_ffi rest bi₁ bi' h
      exact ⟨ih2.1.trans ih1.1, ih2.2.trans ih1.2⟩

theorem compile_statement_ffi {Q U : Type} (ops : VmOps Q U)
    (bi bi' : BytecodeInterpreter Q U) (st : Statement)
    (h : compile_statement ops bi st = .ok bi') :
    (bi'.vm.ffi_callables = bi.vm.ffi_callables ∨
      ∃ ff, ff ∈ bi.ffi_functions ∧
        bi'.vm.ffi_callables = bi.vm.ffi_callables ++ [ff]) ∧
    bi'.ffi_functions = bi.ffi_functions := by
  cases st with
  | Expression expr =>
    simp only [compile_statement] at h
    cases hx : compile_expression_with_simplify bi expr with
    | none => rw [hx] at h; cases h
    | some bi₁ =>
      rw [hx] at h
      cases h
      have ih := compile_expression_with_simplify_ffi bi bi₁ expr hx
      exact ⟨Or.inl ih.1, ih.2⟩
  | DefineVariable identifier expr ta t =>
    simp only [compile_statement] at h
    cases hx : compile_expression_with_simplify bi expr with
    | none => rw [hx] at h; cases h
    | some bi₁ =>
      rw [hx] at h
      dsimp only at h
      cases h
      have ih := compile_expression_with_simplify_ffi bi bi₁ expr hx
      refine ⟨Or.inl (Eq.trans ?_ ih.1), ih.2⟩
      exact add_global_identifier_ffi bi₁.vm identifier none
  | DefineFunction name tps params body rta rt =>
    cases body with
    | some expr =>
      simp only [compile_statement] at h
      cases hx : compile_expression_with_simplify
          { bi with
            vm := bi.vm.begin_function name
            local_variables :=
              bi.local_variables ++ params.map (fun p => p.1) } expr with
      | none => rw [hx] at h; cases h
      | some bi₂ =>
        rw [hx] at h
        dsimp only at h
        cases h
        have ih := compile_expression_with_simplify_ffi _ bi₂ expr hx
        exact ⟨Or.inl ih.1, ih.2⟩
    | none =>
      simp only [compile_statement] at h
      cases hfind : bi.ffi_functions.find? (fun f => f.name == name) with
      | none => rw [hfind] at h; cases h
      | some ff =>
        rw [hfind] at h
        replace h : (if ff.arity_start =
              (if params.any (fun p => p.2.1) then 1 else params.length) ∧
            ff.arity_stop =
              (if params.any (fun p => p.2.1) then USIZE_MAX else params.length)
            then CResult.ok { bi with vm :=
              { bi.vm with ffi_callables := bi.vm.ffi_callables ++ [ff] } }
            else CResult.trap) = CResult.ok bi' := h
        by_cases hcond : ff.arity_start =
              (if params.any (fun p => p.2.1) then 1 else params.length) ∧
            ff.arity_stop =
              (if params.any (fun p => p.2.1) then USIZE_MAX else params.length)
        · rw [if_pos hcond] at h
          cases h
          exact ⟨Or.inr ⟨ff, List.mem_of_find?_eq_some hfind, rfl⟩, rfl⟩
        · rw [if_neg hcond] at h
          cases h
  | DefineDimension name dexprs =>
    simp only [compile_statement] at h
    cases h
    exact ⟨Or.inl rfl, rfl⟩
  | DefineBaseUnit unit_name decorators ta t =>
    simp only [compile_statement] at h
    cases hreg : bi.vm.unit_registry.add_base_unit unit_name with
    | error e₀ => rw [hreg] at h; cases h
    | ok reg' =>
      rw [hreg] at h
      dsimp only at h
      cases h
      exact ⟨Or.inl rfl, rfl⟩
  | DefineDerivedUnit unit_name expr decorators ta =>
    simp only [compile_statement] at h
    cases hx : compile_expression_with_simplify
        { bi with vm :=
          ((bi.vm.add_constant
              (.Unit (ops.new_base_unit "<dummy>" "<dummy>"))).2.add_global_identifier
            unit_name
            (some (get_canonical_unit_name unit_name decorators))).2 } expr with
    | none => rw [hx] at h; cases h
    | some bi₁ =>
      rw [hx] at h
      dsimp only at h
      cases h
      have ih := compile_expression_with_simplify_ffi _ bi₁ expr hx
      refine ⟨Or.inl (Eq.trans ih.1 ?_), ih.2⟩
      exact add_global_identifier_ffi _ unit_name _
  | ProcedureCall kind args =>
    cases kind
    · -- Print
      simp only [compile_statement] at h
      cases hx : compile_args_with_simplify bi args with
      | none => rw [hx] at h; cases h
      | some bi₁ =>
        rw [hx] at h
        dsimp only at h
        cases hidx : bi₁.vm.get_ffi_callable_idx (procedure_name .Print) with
        | none => rw [hidx] at h; cases h
        | some idx =>
          rw [hidx] at h
          cases h
          have ih := compile_args_with_simplify_ffi args bi bi₁ hx
          exact ⟨Or.inl ih.1, ih.2⟩
    · -- AssertEq
      simp only [compile_statement] at h
      cases hx : compile_args_with_simplify bi args with
      | none => rw [hx] at h; cases h
      | some bi₁ =>
        rw [hx] at h
        dsimp only at h
        cases hidx : bi₁.vm.get_ffi_callable_idx (procedure_name .AssertEq) with
        | none => rw [hidx] at h; cases h
        | some idx =>
          rw [hidx] at h
          cases h
          have ih := compile_args_with_simplify_ffi args bi bi₁ hx
          exact ⟨Or.inl ih.1, ih.2⟩
    · -- Type
      simp only [compile_statement] at h
      cases args with
      | nil => cases h
      | cons arg rest =>
        cases rest with
        | nil =>
          cases h
          exact ⟨Or.inl rfl, rfl⟩
        | cons b bs => cases h

theorem compile_statement_err_shape {Q U : Type} (ops : VmOps Q U)
    (bi : BytecodeInterpreter Q U) (st : Statement) (e : RuntimeError)
    (h : compile_statement ops bi st = .err e) :
    ∃ re, e = RuntimeError.UnitRegistryError re := by
  cases st with
  | Expression expr =>
    simp only [compile_statement] at h
    cases hx : compile_expression_with_simplify bi expr with
    | none => rw [hx] at h; cases h
    | some bi₁ => rw [hx] at h; cases h
  | DefineVariable identifier expr ta t =>
    simp only [compile_statement] at h
    cases hx : compile_expression_with_simplify bi expr with
    | none => rw [hx] at h; cases h
    | some bi₁ => rw [hx] at h; cases h
  | DefineFunction name tps params body rta rt =>
    cases body with
    | some expr =>
      simp only [compile_statement] at h
      cases hx : compile_expression_with_simplify
          { bi with
            vm := bi.vm.begin_function name
            local_variables :=
              bi.local_variables ++ params.map (fun p => p.1) } expr with
      | none => rw [hx] at h; cases h
      | some bi₂ => rw [hx] at h; cases h
    | none =>
      simp only [compile_statement] at h
      cases hfind : bi.ffi_functions.find? (fun f => f.name == name) with
      | none => rw [hfind] at h; cases h
      | some ff =>
        rw [hfind] at h
        replace h : (if ff.arity_start =
              (if params.any (fun p => p.2.1) then 1 else params.length) ∧
            ff.arity_stop =
              (if params.any (fun p => p.2.1) then USIZE_MAX else params.length)
            then CResult.ok { bi with vm :=
              { bi.vm with ffi_callables := bi.vm.ffi_callables ++ [ff] } }
            else CResult.trap) = CResult.err e := h
        by_cases hcond : ff.arity_start =
              (if params.any (fun p => p.2.1) then 1 else params.length) ∧
            ff.arity_stop =
              (if params.any (fun p => p.2.1) then USIZE_MAX else params.length)
        · rw [if_pos hcond] at h
          cases h
        · rw [if_neg hcond] at h
          cases h
  | DefineDimension name dexprs =>
    simp only [compile_statement] at h
    cases h
  | DefineBaseUnit unit_name decorators ta t =>
    simp only [compile_statement] at h
    cases hreg : bi.vm.unit_registry.add_base_unit unit_name with
    | error e₀ =>
      rw [hreg] at h
      cases h
      exact ⟨e₀, rfl⟩
    | ok reg' =>
      rw [hreg] at h
      dsimp only at h
      cases h
  | DefineDerivedUnit unit_name expr decorators ta =>
    simp only [compile_statement] at h
    cases hx : compile_expression_with_simplify
        { bi with vm :=
          ((bi.vm.add_constant
              (.Unit (ops.new_base_unit "<dummy>" "<dummy>"))).2.add_global_identifier
            unit_name
            (some (get_canonical_unit_name unit_name decorators))).2 } expr with
    | none => rw [hx] at h; cases h
    | some bi₁ => rw [hx] at h; cases h
  | ProcedureCall kind args =>
    cases kind
    · simp only [compile_statement] at h
      cases hx : compile_args_with_simplify bi args with
      | none => rw [hx] at h; cases h
      | some bi₁ =>
        rw [hx] at h
        dsimp only at h
        cases hidx : bi₁.vm.get_ffi_callable_idx (procedure_name .Print) with
        | none => rw [hidx] at h; cases h
        | some idx => rw [hidx] at h; cases h
    · simp only [compile_statement] at h
      cases hx : compile_args_with_simplify bi args with
      | none => rw [hx] at h; cases h
      | some bi₁ =>
        rw [hx] at h
        dsimp only at h
        cases hidx : bi₁.vm.get_ffi_callable_idx (procedure_name .AssertEq) with
        | none => rw [hidx] at h; cases h
        | some idx => rw [hidx] at h; cases h
    · simp only [compile_statement] at h
      cases args with
      | nil => cases h
      | cons arg rest =>
        cases rest with
        | nil => cases h
        | cons b bs => cases h

/-- FFI tables (the VM's and the process-wide one) whose procedures never
report `NoStatements` — true of the procedures of `ffi.rs` (print,
assert_eq), whose only runtime error is an assertion failure. -/
def ProcOkBI {Q U : Type} (bi : BytecodeInterpreter Q U) : Prop :=
  (∀ ff ∈ bi.vm.ffi_callables, ProcOkF ff) ∧
  ∀ ff ∈ bi.ffi_functions, ProcOkF ff

theorem compile_statement_proc_ok {Q U : Type} (ops : VmOps Q U)
    (bi bi' : BytecodeInterpreter Q U) (st : Statement)
    (h : compile_statement ops bi st = .ok bi') (hok : ProcOkBI bi) :
    ProcOkBI bi' := by
  obtain ⟨hcase, hf⟩ := compile_statement_ffi ops bi bi' st h
  constructor
  · intro ff hff
    cases hcase with
    | inl heq => exact hok.1 ff (heq ▸ hff)
    | inr hex =>
      obtain ⟨ff₀, hmem, heq⟩ := hex
      rw [heq] at hff
      rcases List.mem_append.mp hff with h1 | h2
      · exact hok.1 ff h1
      · rw [List.mem_singleton] at h2
        subst h2
        exact hok.2 _ hmem
  · intro ff hff
    exact hok.2 ff (hf ▸ hff)

theorem compile_statements_proc_ok {Q U : Type} (ops : VmOps Q U) :
    ∀ (sts : List Statement) (bi bi' : BytecodeInterpreter Q U),
      compile_statements ops bi sts = .ok bi' → ProcOkBI bi → ProcOkBI bi'
  | [], bi, bi', h, hok => by
    simp only [compile_statements] at h
    cases h
    exact hok
  | st :: rest, bi, bi', h, hok => by
    simp only [compile_statements] at h
    cases hst : compile_statement ops bi st with
    | ok bi₁ =>
      rw [hst] at h
      exact compile_statements_proc_ok ops rest bi₁ bi' h
        (compile_statement_proc_ok ops bi bi₁ st hst hok)
    | err e => rw [hst] at h; cases h
    | trap => rw [hst] at h; cases h

theorem compile_statements_err_shape {Q U : Type} (ops : VmOps Q U) :
    ∀ (sts : List Statement) (bi : BytecodeInterpreter Q U) (e : RuntimeError),
      compile_statements ops bi sts = .err e →
      ∃ re, e = RuntimeError.UnitRegistryError re
  | [], bi, e, h => by
    simp only [compile_statements] at h
    cases h
  | st :: rest, bi, e, h => by
    simp only [compile_statements] at h
    cases hst : compile_statement ops bi st with
    | ok bi₁ =>
      rw [hst] at h
      exact compile_statements_err_shape ops rest bi₁ e h
    | err e₂ =>
      rw [hst] at h
      cases h
      exact compile_statement_err_shape ops bi st _ hst
    | trap => rw [hst] at h; cases h

/-- C10: for every call to `interpret_statements`, an empty statement
list returns the runtime error `NoStatements` with the interpreter state
untouched — nothing is compiled or executed; and for every non-empty
statement list (over FFI tables whose procedures never report
`NoStatements`, as those of `ffi.rs`) this entry point never produces
`NoStatements`. -/
theorem interpret_statements_no_statements {Q U : Type} (ops : VmOps Q U)
    (fuel : ℕ) (bi : BytecodeInterpreter Q U) (statements : List Statement)
    (hok : ProcOkBI bi) :
    interpret_statements ops fuel bi [] = (.err .NoStatements, bi) ∧
    (statements ≠ [] → ∀ e bi',
      interpret_statements ops fuel bi statements = (.err e, bi') →
      e ≠ RuntimeError.NoStatements) := by
  refine ⟨rfl, ?_⟩
  intro hne e bi' h
  cases statements with
  | nil => exact absurd rfl hne
  | cons st rest =>
    unfold interpret_statements at h
    rw [if_neg (by simp)] at h
    cases hcomp : compile_statements ops bi (st :: rest) with
    | ok bi₁ =>
      rw [hcomp] at h
      dsimp only at h
      have h1 : (VM.run ops fuel bi₁.vm).1 = .err e := congrArg Prod.fst h
      cases hrun : VM.run ops fuel bi₁.vm with
      | mk r s₂ =>
        rw [hrun] at h1
        have h2 : r = .err e := h1
        subst h2
        have hokv : VM.ProcOkVm bi₁.vm :=
          (compile_statements_proc_ok ops (st :: rest) bi bi₁ hcomp hok).1
        exact VM.run_err_ne ops fuel bi₁.vm hokv e s₂ hrun
    | err e₂ =>
      rw [hcomp] at h
      cases h
      obtain ⟨re, hre⟩ := compile_statements_err_shape ops (st :: rest) bi _ hcomp
      rw [hre]
      intro hc
      cases hc
    | trap => rw [hcomp] at h; cases h

/-- Witness for interpret_statements_no_statements: the fresh interpreter
(whose FFI tables are empty) with one scalar expression statement. -/
theorem interpret_statements_no_statements_witness :
    ProcOkBI compileWitnessBI ∧
    (interpret_statements dummyOps 8 compileWitnessBI [] =
        (.err .NoStatements, compileWitnessBI) ∧
      ([Statement.Expression (.Scalar 2)] ≠ [] → ∀ e bi',
        interpret_statements dummyOps 8 compileWitnessBI
          [Statement.Expression (.Scalar 2)] = (.err e, bi') →
        e ≠ RuntimeError.NoStatements)) :=
  ⟨⟨fun ff hff => absurd hff (List.not_mem_nil ff),
    fun ff hff => absurd hff (List.not_mem_nil ff)⟩,
    interpret_statements_no_statements dummyOps 8 compileWitnessBI
      [Statement.Expression (.Scalar 2)]
      ⟨fun ff hff => absurd hff (List.not_mem_nil ff),
        fun ff hff => absurd hff (List.not_mem_nil ff)⟩⟩

end BC

end Numbat
